import Mathlib

/-!
# Verification of `src/libc/qsort.cc`

A shallow embedding of the generic in-place sort of `src/libc/qsort.cc`
(`sort_r_swap`, `sort_r_cmpswap`, `sort_r_swap_blocks`, `sort_r_simple`, `qsort`).

* Memory is a list of units (`char` in the source), pointers are offsets into it.
* Every memory access, pointer subtraction and division is checked; a failed check
  ends the run with an `Err`.
* Loops and the recursion of `sort_r_simple` are driven by a fuel counter; running
  out of fuel is the error `Err.fuel`.
* The state carries a ghost trace of the comparator invocations and of the calls of
  `sort_r_swap`, in program order.
* The template parameter pack `Ts... ds` is one value `ds : δ` (`Unit` for the empty pack).
* A comparator is a pure function of the contents of the two records it is pointed to.
-/

namespace Qsort

/-- Reasons for which a run of the embedding stops without a result. -/
inductive Err where
  /-- a read or write outside the memory -/
  | oob
  /-- a pointer or `size_t` subtraction whose result would be negative -/
  | underflow
  /-- a division by zero -/
  | divzero
  /-- the fuel of a loop or of the recursion ran out -/
  | fuel
deriving DecidableEq

/-- Ghost events recorded in program order. -/
inductive Event (δ : Type) where
  /-- `compar(a, b, ds...)` was invoked on the pointers `a` and `b` -/
  | compar (a b : Nat) (ds : δ)
  /-- `sort_r_swap(a, b, w)` was invoked -/
  | swap (a b w : Nat)
deriving DecidableEq

/-- Program state: the memory and the ghost trace. -/
structure State (α δ : Type) where
  mem : List α
  trace : List (Event δ)
deriving DecidableEq

/-- The four scan pointers of the partition loop of `sort_r_simple`. -/
structure Locals where
  ple : Nat
  pl : Nat
  pr : Nat
  pre : Nat
deriving DecidableEq

/-- The pointer array `char *l[3]` of `sort_r_simple`. -/
structure Cand where
  l0 : Nat
  l1 : Nat
  l2 : Nat
deriving DecidableEq

variable {α δ : Type}

/-- Checked subtraction `p - q` of pointers or sizes. -/
def psub (p q : Nat) : Except Err Nat :=
  if q ≤ p then .ok (p - q) else .error .underflow

/-- The `w` units stored at pointer `p` (what a comparator reads through its argument). -/
def record (mem : List α) (p w : Nat) : Except Err (List α) :=
  if p + w ≤ mem.length then .ok ((mem.drop p).take w) else .error .oob

/-- `SORT_R_SWAP(*a, *b, tmp)`: `tmp = *a, *a = *b, *b = tmp` on single units. -/
def SORT_R_SWAP (mem : List α) (a b : Nat) : Except Err (List α) :=
  match mem[a]?, mem[b]? with
  | some x, some y => .ok ((mem.set a y).set b x)
  | _, _ => .error .oob

/-- The loop `for(; a < end; a++, b++) { SORT_R_SWAP(*a, *b, tmp); }` of `sort_r_swap`;
the last argument is `end - a`, the number of units left. -/
def sort_r_swap_loop : List α → Nat → Nat → Nat → Except Err (List α)
  | mem, _, _, 0 => .ok mem
  | mem, a, b, n + 1 => do
    let m ← SORT_R_SWAP mem a b
    sort_r_swap_loop m (a + 1) (b + 1) n

/-- `sort_r_swap(a, b, w)`. -/
def sort_r_swap (st : State α δ) (a b w : Nat) : Except Err (State α δ) := do
  let m ← sort_r_swap_loop st.mem a b w
  pure { mem := m, trace := st.trace ++ [Event.swap a b w] }

/-- One invocation `compar(a, b, ds...)`. -/
def call_compar (compar : List α → List α → δ → Int) (ds : δ) (w : Nat)
    (st : State α δ) (a b : Nat) : Except Err (Int × State α δ) := do
  let ra ← record st.mem a w
  let rb ← record st.mem b w
  pure (compar ra rb ds, { mem := st.mem, trace := st.trace ++ [Event.compar a b ds] })

/-- `sort_r_cmpswap(a, b, w, compar, ds...)`. -/
def sort_r_cmpswap (st : State α δ) (a b w : Nat)
    (compar : List α → List α → δ → Int) (ds : δ) : Except Err (Int × State α δ) := do
  let (c, st1) ← call_compar compar ds w st a b
  if c > 0 then do
    let st2 ← sort_r_swap st1 a b w
    pure (1, st2)
  else
    pure (0, st1)

/-- `sort_r_swap_blocks(ptr, na, nb)`. -/
def sort_r_swap_blocks (st : State α δ) (ptr na nb : Nat) : Except Err (State α δ) :=
  if na > 0 ∧ nb > 0 then
    if na > nb then sort_r_swap st ptr (ptr + na) nb
    else sort_r_swap st ptr (ptr + nb) na
  else
    pure st

/-- The inner loop of the insertion sort,
`for(pj = pi; pj > b && sort_r_cmpswap(pj-w,pj,w,compar,ds...); pj -= w) {}`. -/
def insertion_inner (compar : List α → List α → δ → Int) (ds : δ) (b w : Nat) :
    Nat → State α δ → Nat → Except Err (State α δ)
  | 0, _, _ => .error .fuel
  | fuel + 1, st, pj =>
    if pj > b then do
      let a ← psub pj w
      let (r, st1) ← sort_r_cmpswap st a pj w compar ds
      if r ≠ 0 then do
        let pj1 ← psub pj w
        insertion_inner compar ds b w fuel st1 pj1
      else
        pure st1
    else
      pure st

/-- The outer loop of the insertion sort, `for(pi = b+w; pi < end; pi += w) { ... }`;
`n` is the fuel handed to each run of the inner loop. -/
def insertion_outer (compar : List α → List α → δ → Int) (ds : δ) (b w e n : Nat) :
    Nat → State α δ → Nat → Except Err (State α δ)
  | 0, _, _ => .error .fuel
  | fuel + 1, st, pi =>
    if pi < e then do
      let st1 ← insertion_inner compar ds b w n st pi
      insertion_outer compar ds b w e n fuel st1 (pi + w)
    else
      pure st

/-- Pivot selection of `sort_r_simple`: the three comparisons that order the pointers
`l[0], l[1], l[2]` (the pointers are exchanged, not the records). -/
def pivot_select (compar : List α → List α → δ → Int) (ds : δ) (w : Nat)
    (st : State α δ) (l : Cand) : Except Err (Cand × State α δ) := do
  let (c1, st1) ← call_compar compar ds w st l.l0 l.l1
  let l := if c1 > 0 then { l with l0 := l.l1, l1 := l.l0 } else l
  let (c2, st2) ← call_compar compar ds w st1 l.l1 l.l2
  if c2 > 0 then do
    let l := { l with l1 := l.l2, l2 := l.l1 }
    let (c3, st3) ← call_compar compar ds w st2 l.l0 l.l1
    let l := if c3 > 0 then { l with l0 := l.l1, l1 := l.l0 } else l
    pure (l, st3)
  else
    pure (l, st2)

/-- The left scan `for(; pl < pr; pl += w) { ... }` of the partition loop.
It returns the state and the new `ple` and `pl`. -/
def left_scan (compar : List α → List α → δ → Int) (ds : δ) (w pivot pr : Nat) :
    Nat → State α δ → Nat → Nat → Except Err (State α δ × Nat × Nat)
  | 0, _, _, _ => .error .fuel
  | fuel + 1, st, ple, pl =>
    if pl < pr then do
      let (cmp, st1) ← call_compar compar ds w st pl pivot
      if cmp > 0 then
        pure (st1, ple, pl)
      else if cmp = 0 then do
        let st2 ← if ple < pl then sort_r_swap st1 ple pl w else pure st1
        left_scan compar ds w pivot pr fuel st2 (ple + w) (pl + w)
      else
        left_scan compar ds w pivot pr fuel st1 ple (pl + w)
    else
      pure (st, ple, pl)

/-- The right scan `for(; pl < pr; ) { pr -= w; ... }` of the partition loop.
It returns the state and the new `pl`, `pr` and `pre`. -/
def right_scan (compar : List α → List α → δ → Int) (ds : δ) (w pivot : Nat) :
    Nat → State α δ → Nat → Nat → Nat → Except Err (State α δ × Nat × Nat × Nat)
  | 0, _, _, _, _ => .error .fuel
  | fuel + 1, st, pl, pr, pre =>
    if pl < pr then do
      let pr ← psub pr w
      let (cmp, st1) ← call_compar compar ds w st pr pivot
      if cmp = 0 then do
        let pre ← psub pre w
        let st2 ← if pr < pre then sort_r_swap st1 pr pre w else pure st1
        right_scan compar ds w pivot fuel st2 pl pr pre
      else if cmp < 0 then do
        let st2 ← if pl < pr then sort_r_swap st1 pl pr w else pure st1
        pure (st2, pl + w, pr, pre)
      else
        right_scan compar ds w pivot fuel st1 pl pr pre
    else
      pure (st, pl, pr, pre)

/-- The partition loop `while(pl < pr) { ... }` of `sort_r_simple`;
`n` is the fuel handed to each run of the two scans. -/
def partition_loop (compar : List α → List α → δ → Int) (ds : δ) (w pivot n : Nat) :
    Nat → State α δ → Locals → Except Err (State α δ × Locals)
  | 0, _, _ => .error .fuel
  | fuel + 1, st, loc =>
    if loc.pl < loc.pr then do
      let (st1, ple, pl) ← left_scan compar ds w pivot loc.pr n st loc.ple loc.pl
      if pl ≥ loc.pr then
        pure (st1, { ple := ple, pl := pl, pr := loc.pr, pre := loc.pre })
      else do
        let (st2, pl, pr, pre) ← right_scan compar ds w pivot n st1 pl loc.pr loc.pre
        partition_loop compar ds w pivot n fuel st2 { ple := ple, pl := pl, pr := pr, pre := pre }
    else
      pure (st, loc)

/-- The quicksort branch of `sort_r_simple` up to the point where the pivot is the last
record: candidate pointers, pivot selection and `if(l[1] != last) sort_r_swap(l[1], last, w)`.
It returns the state and the ordered candidate pointers. -/
def pivot_phase (compar : List α → List α → δ → Int) (ds : δ) (w : Nat)
    (st : State α δ) (b nel : Nat) : Except Err (State α δ × Cand) := do
  let last := b + w * (nel - 1)
  let l2 ← psub last w
  let (l, st1) ← pivot_select compar ds w st { l0 := b + w, l1 := b + w * (nel / 2), l2 := l2 }
  let st2 ← if l.l1 ≠ last then sort_r_swap st1 l.l1 last w else pure st1
  pure (st2, l)

/-- The quicksort branch of `sort_r_simple` from `pivot = last` to the end of the partition
loop. It returns the state and the scan pointers at loop exit. -/
def scan_phase (compar : List α → List α → δ → Int) (ds : δ) (w : Nat)
    (st : State α δ) (b nel : Nat) : Except Err (State α δ × Locals) :=
  let last := b + w * (nel - 1)
  partition_loop compar ds w last nel (nel + 1) st { ple := b, pl := b, pr := last, pre := last }

/-- The quicksort branch of `sort_r_simple` from `pl = pr` to the second call of
`sort_r_swap_blocks`. It returns the state and the scan pointers after `pl = pr`. -/
def rotate_phase (st : State α δ) (b nel w : Nat) (loc : Locals) :
    Except Err (State α δ × Locals) := do
  let e := b + nel * w
  let loc := { loc with pl := loc.pr }
  let na ← psub loc.ple b
  let nb ← psub loc.pl loc.ple
  let st1 ← sort_r_swap_blocks st b na nb
  let na ← psub loc.pre loc.pr
  let nb ← psub e loc.pre
  let st2 ← sort_r_swap_blocks st1 loc.pr na nb
  pure (st2, loc)

/-- The quicksort branch of `sort_r_simple` before its two recursive calls. -/
def partition_phase (compar : List α → List α → δ → Int) (ds : δ) (w : Nat)
    (st : State α δ) (b nel : Nat) : Except Err (State α δ × Locals) := do
  let (st1, _) ← pivot_phase compar ds w st b nel
  let (st2, loc) ← scan_phase compar ds w st1 b nel
  rotate_phase st2 b nel w loc

/-- Checked `x / w` on `size_t`. -/
def pdiv (x w : Nat) : Except Err Nat :=
  if w = 0 then .error .divzero else .ok (x / w)

/-- `sort_r_simple(base, nel, w, compar, ds...)`; the first explicit argument is the fuel
of the recursion. -/
def sort_r_simple (compar : List α → List α → δ → Int) (ds : δ) (w : Nat) :
    Nat → State α δ → Nat → Nat → Except Err (State α δ)
  | 0, _, _, _ => .error .fuel
  | fuel + 1, st, b, nel =>
    let e := b + nel * w
    if nel < 10 then
      insertion_outer compar ds b w e (nel + 1) (nel + 1) st (b + w)
    else do
      let (st1, loc) ← partition_phase compar ds w st b nel
      let d1 ← psub loc.pl loc.ple
      let n1 ← pdiv d1 w
      let st2 ← sort_r_simple compar ds w fuel st1 b n1
      let d2 ← psub loc.pre loc.pr
      let b2 ← psub e d2
      let n2 ← pdiv d2 w
      sort_r_simple compar ds w fuel st2 b2 n2

/-- `qsort(base, nel, width, compar)`: `sort_r_simple` with the empty parameter pack. -/
def qsort (st : State α Unit) (base nel width : Nat) (compar : List α → List α → Int) :
    Except Err (State α Unit) :=
  sort_r_simple (fun a b _ => compar a b) () width (nel + 1) st base nel

/-- A record: `w` consecutive units of the memory. -/
abbrev Rec (α : Type) (w : Nat) := { r : List α // r.length = w }

/-- The units of a list of records laid out one after the other. -/
def flat {w : Nat} : List (Rec α w) → List α
  | [] => []
  | r :: L => r.val ++ flat L

/-- Whether an event is a comparator invocation. -/
def Event.isCompar : Event δ → Bool
  | .compar _ _ _ => true
  | .swap _ _ _ => false

/-- Whether an event is a call of `sort_r_swap`. -/
def Event.isSwap : Event δ → Bool
  | .compar _ _ _ => false
  | .swap _ _ _ => true

/-- An event stays inside the range of `n` records of width `w` that starts at `lo`:
a comparator invocation receives the context `ds` and two pointers to records of the range,
a call of `sort_r_swap` exchanges two disjoint runs of whole records of the range,
the first one lying before the second one. -/
def EvOK (ds : δ) (w lo n : Nat) : Event δ → Prop
  | .compar a b d => d = ds ∧ ∃ i j, a = lo + w * i ∧ b = lo + w * j ∧ i < n ∧ j < n
  | .swap a b m => ∃ i j k, a = lo + w * i ∧ b = lo + w * j ∧ m = w * k ∧ i + k ≤ j ∧ j + k ≤ n

/-- The trace `tr1` extends the trace `tr` by `c` comparator invocations and `s` calls of
`sort_r_swap`, all of them inside the range of `n` records of width `w` at `lo`. -/
def TraceExt (ds : δ) (w lo n c s : Nat) (tr tr1 : List (Event δ)) : Prop :=
  ∃ ev, tr1 = tr ++ ev ∧ (∀ e ∈ ev, EvOK ds w lo n e) ∧
    ev.countP Event.isCompar = c ∧ ev.countP Event.isSwap = s

/-- A comparator that is a valid total order on the records of width `w`:
sign-antisymmetric and transitive. -/
structure TotalOrder (compar : List α → List α → δ → Int) (ds : δ) (w : Nat) : Prop where
  antisymm : ∀ a b : Rec α w, (compar a.val b.val ds).sign = -(compar b.val a.val ds).sign
  trans : ∀ a b c : Rec α w, compar a.val b.val ds ≤ 0 → compar b.val c.val ds ≤ 0 →
    compar a.val c.val ds ≤ 0

/-- The records are in non-decreasing order: every record compares `<= 0` against every
later one (for a transitive comparator this is the same as for adjacent ones). -/
def Sorted {w : Nat} (compar : List α → List α → δ → Int) (ds : δ) (L : List (Rec α w)) : Prop :=
  L.Pairwise (fun x y => compar x.val y.val ds ≤ 0)

/-- Every adjacent pair of records satisfies `compar(record[i], record[i+1]) <= 0`. -/
def AdjSorted {w : Nat} (compar : List α → List α → δ → Int) (ds : δ)
    (L : List (Rec α w)) : Prop :=
  ∀ (i : Nat) (r1 r2 : Rec α w), L[i]? = some r1 → L[i + 1]? = some r2 →
    compar r1.val r2.val ds ≤ 0

/-- An event with its context argument forgotten. -/
def Event.erase : Event δ → Event Unit
  | .compar a b _ => .compar a b ()
  | .swap a b n => .swap a b n

/-- A state with the context arguments of its trace forgotten. -/
def State.erase (st : State α δ) : State α Unit :=
  { mem := st.mem, trace := st.trace.map Event.erase }

/-- The ascending comparator on records that hold one integer. -/
def int_cmp : List Int → List Int → Int :=
  fun a b => a.headD 0 - b.headD 0

/-- A comparator with a context argument: records that hold one integer, ordered by
their distance from the context value `x`. -/
def dist_cmp : List Int → List Int → Int → Int :=
  fun a b x => ((a.headD 0 - x).natAbs : Int) - ((b.headD 0 - x).natAbs : Int)

/-- The record of width 1 that holds the integer `x`. -/
def int_rec (x : Int) : Rec Int 1 := ⟨[x], rfl⟩


/-- The trace `tr1` extends the trace `tr`, and every call of `sort_r_swap` among the new
events has a positive length. -/
def SwapPos (tr tr1 : List (Event δ)) : Prop :=
  ∃ ev, tr1 = tr ++ ev ∧ ∀ a b m, Event.swap a b m ∈ ev → 0 < m

/-- The trace `tr1` extends the trace `tr`, and every call of `sort_r_swap` among the new
events is on two regions that end at or before the pointer `lim`. -/
def SwapBelow (lim : Nat) (tr tr1 : List (Event δ)) : Prop :=
  ∃ ev, tr1 = tr ++ ev ∧ ∀ a b m, Event.swap a b m ∈ ev → a + m ≤ lim ∧ b + m ≤ lim

/-- The record of width 2 that holds the key `k` followed by the tag `t`. -/
def int_rec2 (k t : Int) : Rec Int 2 := ⟨[k, t], rfl⟩

/-- The records of `L` that compare equal to the record `r`, in the order in which they
occur in `L`. -/
def equalTo {w : Nat} (compar : List α → List α → δ → Int) (ds : δ) (r : Rec α w)
    (L : List (Rec α w)) : List (Rec α w) :=
  L.filter (fun x => decide (compar x.val r.val ds = 0))

/-- The list `L1` holds the records of every class of equal records in the same relative
order as the list `L`. -/
def Stable {w : Nat} (compar : List α → List α → δ → Int) (ds : δ)
    (L L1 : List (Rec α w)) : Prop :=
  ∀ r : Rec α w, equalTo compar ds r L1 = equalTo compar ds r L

/-- The loop of `sort_r_swap` once more, returning with the memory the number of times
its body `SORT_R_SWAP(*a, *b, tmp)` has been executed. -/
def sort_r_swap_loop_count : List α → Nat → Nat → Nat → Except Err (List α × Nat)
  | mem, _, _, 0 => .ok (mem, 0)
  | mem, a, b, n + 1 => do
    let m ← SORT_R_SWAP mem a b
    let (m1, k) ← sort_r_swap_loop_count m (a + 1) (b + 1) n
    pure (m1, k + 1)

/-- Range Rotation as the specification words it, not as the source has it: the shorter
block is exchanged with the slice of the same size taken from the start of the longer
block, whichever side the longer block is on. -/
def spec_swap_blocks (st : State α δ) (ptr na nb : Nat) : Except Err (State α δ) :=
  if na > 0 ∧ nb > 0 then
    if na > nb then sort_r_swap st ptr (ptr + na) nb
    else sort_r_swap st ptr (ptr + na) na
  else
    pure st

/-! ## Basic facts: the error monad, memory accesses, traces -/

section Basics

variable {α δ ε β : Type}

@[simp] theorem ok_bind (a : α) (f : α → Except ε β) : (Except.ok a >>= f) = f a := rfl

@[simp] theorem error_bind (e : ε) (f : α → Except ε β) :
    (Except.error e >>= f) = Except.error e := rfl

@[simp] theorem pure_eq_ok (a : α) : (pure a : Except ε α) = Except.ok a := rfl

theorem psub_ok {p q : Nat} (h : q ≤ p) : psub p q = .ok (p - q) := by
  simp [psub, h]

theorem pdiv_ok {x w : Nat} (h : 0 < w) : pdiv x w = .ok (x / w) := by
  have : w ≠ 0 := by omega
  simp [pdiv, this]

theorem getElem?_append_length (A B : List α) (x : α) : (A ++ x :: B)[A.length]? = some x := by
  rw [List.getElem?_append_right (Nat.le_refl _)]; simp

theorem record_spec {mem A r C : List α} {p w : Nat} (hm : mem = A ++ (r ++ C))
    (hp : p = A.length) (hw : r.length = w) : record mem p w = .ok r := by
  subst hm hp hw
  simp [record]

theorem SORT_R_SWAP_spec (A B C : List α) (x y : α) :
    SORT_R_SWAP (A ++ x :: (B ++ y :: C)) A.length (A.length + 1 + B.length)
      = .ok (A ++ y :: (B ++ x :: C)) := by
  have h1 : (A ++ x :: (B ++ y :: C))[A.length]? = some x := getElem?_append_length _ _ _
  have h2 : (A ++ x :: (B ++ y :: C))[A.length + 1 + B.length]? = some y := by
    have := getElem?_append_length (A ++ x :: B) C y
    rw [List.length_append, List.length_cons, List.append_assoc, List.cons_append] at this
    rw [← this]; congr 1; omega
  simp only [SORT_R_SWAP, h1, h2]
  congr 1
  rw [List.set_append_right _ _ (by omega)]
  simp
  rw [List.set_append_right _ _ (by omega)]
  simp [show A.length + 1 + B.length - A.length = B.length + 1 by omega]

theorem sort_r_swap_loop_append (X : List α) : ∀ (A B Y C : List α), X.length = Y.length →
    sort_r_swap_loop (A ++ (X ++ (B ++ (Y ++ C)))) A.length (A.length + X.length + B.length)
      X.length = .ok (A ++ (Y ++ (B ++ (X ++ C)))) := by
  induction X with
  | nil =>
    intro A B Y C h
    have : Y = [] := List.length_eq_zero.mp h.symm
    subst this
    simp [sort_r_swap_loop]
  | cons x X ih =>
    intro A B Y C h
    cases Y with
    | nil => simp at h
    | cons y Y =>
      simp only [List.length_cons, Nat.add_right_cancel_iff] at h
      have h1 := SORT_R_SWAP_spec A (X ++ B) (Y ++ C) x y
      simp only [List.length_append, List.append_assoc, List.cons_append] at h1 ⊢
      simp only [sort_r_swap_loop, List.length_cons]
      rw [show A.length + (X.length + 1) + B.length = A.length + 1 + (X.length + B.length)
        by omega, h1]
      simp only [ok_bind]
      have h2 := ih (A ++ [y]) (B ++ [x]) Y C h
      simp only [List.length_append, List.append_assoc, List.cons_append, List.length_cons,
        List.length_nil, List.nil_append] at h2
      rw [show A.length + 1 + (X.length + B.length) + 1
        = A.length + (0 + 1) + X.length + (B.length + (0 + 1)) by omega]
      exact h2

theorem sort_r_swap_spec (st : State α δ) {A X B Y C : List α} {a b n : Nat}
    (hm : st.mem = A ++ (X ++ (B ++ (Y ++ C)))) (ha : a = A.length)
    (hb : b = A.length + X.length + B.length) (hX : X.length = n) (hY : Y.length = n) :
    sort_r_swap st a b n
      = .ok { mem := A ++ (Y ++ (B ++ (X ++ C))), trace := st.trace ++ [Event.swap a b n] } := by
  subst ha hb hX
  simp only [sort_r_swap, hm, sort_r_swap_loop_append X A B Y C hY.symm, ok_bind, pure_eq_ok]

/-! ### Records -/

variable {w : Nat}

@[simp] theorem flat_nil : flat ([] : List (Rec α w)) = [] := rfl

@[simp] theorem flat_cons (r : Rec α w) (L : List (Rec α w)) : flat (r :: L) = r.val ++ flat L :=
  rfl

@[simp] theorem flat_append (A B : List (Rec α w)) : flat (A ++ B) = flat A ++ flat B := by
  induction A with
  | nil => rfl
  | cons r A ih => simp [ih]

@[simp] theorem length_flat (L : List (Rec α w)) : (flat L).length = w * L.length := by
  induction L with
  | nil => rfl
  | cons r L ih => simp [ih, r.property, Nat.mul_add, Nat.add_comm]

theorem record_rec {mem P S : List α} {L A C : List (Rec α w)} {r : Rec α w} {p : Nat}
    (hm : mem = P ++ flat L ++ S) (hL : L = A ++ r :: C) (hp : p = P.length + w * A.length) :
    record mem p w = .ok r.val := by
  apply record_spec (A := P ++ flat A) (C := flat C ++ S)
  · simp [hm, hL]
  · simp [hp]
  · exact r.property

theorem call_compar_rec (compar : List α → List α → δ → Int) (ds : δ) (st : State α δ)
    {P S : List α} {L A1 C1 A2 C2 : List (Rec α w)} {r1 r2 : Rec α w} {a b : Nat}
    (hm : st.mem = P ++ flat L ++ S) (hL1 : L = A1 ++ r1 :: C1) (hL2 : L = A2 ++ r2 :: C2)
    (ha : a = P.length + w * A1.length) (hb : b = P.length + w * A2.length) :
    call_compar compar ds w st a b
      = .ok (compar r1.val r2.val ds,
          { mem := st.mem, trace := st.trace ++ [Event.compar a b ds] }) := by
  simp only [call_compar, record_rec hm hL1 ha, record_rec hm hL2 hb, ok_bind, pure_eq_ok]

theorem sort_r_swap_rec (st : State α δ) {P S : List α} {L A X B Y C : List (Rec α w)}
    {a b n k : Nat} (hm : st.mem = P ++ flat L ++ S) (hL : L = A ++ (X ++ (B ++ (Y ++ C))))
    (hX : X.length = k) (hY : Y.length = k) (ha : a = P.length + w * A.length)
    (hb : b = P.length + w * (A.length + k + B.length)) (hn : n = w * k) :
    sort_r_swap st a b n
      = .ok { mem := P ++ flat (A ++ (Y ++ (B ++ (X ++ C)))) ++ S,
              trace := st.trace ++ [Event.swap a b n] } := by
  have h := sort_r_swap_spec st (A := P ++ flat A) (X := flat X) (B := flat B)
    (Y := flat Y) (C := flat C ++ S) (a := a) (b := b) (n := n)
    (by simp [hm, hL]) (by simp [ha])
    (by simp [hb, hX, Nat.mul_add]; omega) (by simp [hX, hn]) (by simp [hY, hn])
  rw [h]
  simp

/-! ### Traces -/

theorem TraceExt_refl (ds : δ) (w lo n : Nat) (tr : List (Event δ)) :
    TraceExt ds w lo n 0 0 tr tr :=
  ⟨[], by simp, by simp, by simp, by simp⟩

theorem TraceExt_trans {ds : δ} {lo n c1 s1 c2 s2 : Nat} {tr tr1 tr2 : List (Event δ)}
    (h1 : TraceExt ds w lo n c1 s1 tr tr1) (h2 : TraceExt ds w lo n c2 s2 tr1 tr2) :
    TraceExt ds w lo n (c1 + c2) (s1 + s2) tr tr2 := by
  obtain ⟨e1, rfl, ho1, hc1, hs1⟩ := h1
  obtain ⟨e2, rfl, ho2, hc2, hs2⟩ := h2
  refine ⟨e1 ++ e2, by simp, ?_, by simp [hc1, hc2], by simp [hs1, hs2]⟩
  intro e he
  rcases List.mem_append.mp he with h | h
  · exact ho1 e h
  · exact ho2 e h

theorem TraceExt_compar (ds : δ) (lo : Nat) {n a b i j : Nat} (tr : List (Event δ))
    (ha : a = lo + w * i) (hb : b = lo + w * j) (hi : i < n) (hj : j < n) :
    TraceExt ds w lo n 1 0 tr (tr ++ [Event.compar a b ds]) := by
  refine ⟨[Event.compar a b ds], rfl, ?_, by simp [Event.isCompar], by simp [Event.isSwap]⟩
  intro e he
  simp only [List.mem_singleton] at he
  subst he
  exact ⟨rfl, i, j, ha, hb, hi, hj⟩

theorem TraceExt_swap (ds : δ) (lo : Nat) {n a b m i j k : Nat} (tr : List (Event δ))
    (ha : a = lo + w * i) (hb : b = lo + w * j) (hm : m = w * k) (hij : i + k ≤ j)
    (hj : j + k ≤ n) :
    TraceExt ds w lo n 0 1 tr (tr ++ [Event.swap a b m]) := by
  refine ⟨[Event.swap a b m], rfl, ?_, by simp [Event.isCompar], by simp [Event.isSwap]⟩
  intro e he
  simp only [List.mem_singleton] at he
  subst he
  exact ⟨i, j, k, ha, hb, hm, hij, hj⟩

theorem EvOK_widen {ds : δ} {lo n m d lo1 : Nat} {e : Event δ} (h : EvOK ds w lo1 m e)
    (hlo : lo1 = lo + w * d) (hn : d + m ≤ n) : EvOK ds w lo n e := by
  subst hlo
  cases e with
  | compar a b x =>
    obtain ⟨hx, i, j, ha, hb, hi, hj⟩ := h
    exact ⟨hx, d + i, d + j, by rw [ha, Nat.mul_add]; omega, by rw [hb, Nat.mul_add]; omega,
      by omega, by omega⟩
  | swap a b x =>
    obtain ⟨i, j, k, ha, hb, hx, hij, hj⟩ := h
    exact ⟨d + i, d + j, k, by rw [ha, Nat.mul_add]; omega, by rw [hb, Nat.mul_add]; omega,
      hx, by omega, by omega⟩

theorem TraceExt_widen {ds : δ} {lo n m d lo1 c s : Nat} {tr tr1 : List (Event δ)}
    (h : TraceExt ds w lo1 m c s tr tr1) (hlo : lo1 = lo + w * d) (hn : d + m ≤ n) :
    TraceExt ds w lo n c s tr tr1 := by
  obtain ⟨ev, h1, h2, h3, h4⟩ := h
  exact ⟨ev, h1, fun e he => EvOK_widen (h2 e he) hlo hn, h3, h4⟩

end Basics

/-! ## The loops of `sort_r_simple` on a buffer of records -/

section Loops

variable {α δ : Type} {w : Nat}

theorem eq_nil_or_snoc (A : List α) : A = [] ∨ ∃ A0 y, A = A0 ++ [y] := by
  rcases List.eq_nil_or_concat A with h | ⟨A0, y, h⟩
  · exact Or.inl h
  · exact Or.inr ⟨A0, y, by rw [h, List.concat_eq_append]⟩

theorem sort_r_cmpswap_rec (compar : List α → List α → δ → Int) (ds : δ) (st : State α δ)
    {P S : List α} {L A B C : List (Rec α w)} {y x : Rec α w} {a b : Nat}
    (hm : st.mem = P ++ flat L ++ S) (hL : L = A ++ y :: (B ++ x :: C))
    (ha : a = P.length + w * A.length) (hb : b = P.length + w * (A.length + 1 + B.length)) :
    sort_r_cmpswap st a b w compar ds
      = if 0 < compar y.val x.val ds then
          .ok (1, State.mk (P ++ flat (A ++ x :: (B ++ y :: C)) ++ S)
                    (st.trace ++ [Event.compar a b ds, Event.swap a b w]))
        else
          .ok (0, State.mk st.mem (st.trace ++ [Event.compar a b ds])) := by
  have hc := call_compar_rec compar ds st hm hL
    (show L = (A ++ y :: B) ++ x :: C by simp [hL]) ha
    (show b = P.length + w * (A ++ y :: B).length by simp [hb]; omega)
  simp only [sort_r_cmpswap, hc, ok_bind, gt_iff_lt]
  split
  · have hs := sort_r_swap_rec (State.mk st.mem (st.trace ++ [Event.compar a b ds]))
      (k := 1) hm (show L = A ++ ([y] ++ (B ++ ([x] ++ C))) by simp [hL]) rfl rfl ha hb
      (show w = w * 1 by simp)
    rw [hs]
    simp
  · rfl

theorem insertion_inner_spec (compar : List α → List α → δ → Int) (ds : δ) (hw : 0 < w)
    (P S : List α) (x : Rec α w) (n : Nat) (fuel : Nat) :
    ∀ (A T : List (Rec α w)) (st : State α δ) (pj : Nat), A.length < fuel →
      st.mem = P ++ flat (A ++ x :: T) ++ S → pj = P.length + w * A.length →
      A.length + 1 + T.length ≤ n →
      ∃ A1 A2 st1 c s, insertion_inner compar ds P.length w fuel st pj = .ok st1
        ∧ A = A1 ++ A2 ∧ st1.mem = P ++ flat (A1 ++ x :: (A2 ++ T)) ++ S
        ∧ (∀ a ∈ A2, 0 < compar a.val x.val ds)
        ∧ (∀ A0 y, A1 = A0 ++ [y] → compar y.val x.val ds ≤ 0)
        ∧ TraceExt ds w P.length n c s st.trace st1.trace
        ∧ s = A2.length ∧ c = A2.length + min 1 A1.length := by
  induction fuel with
  | zero => intro A T st pj h; omega
  | succ fuel ih =>
    intro A T st pj hf hm hpj hn
    rcases eq_nil_or_snoc A with hA | ⟨A0, y, hA⟩
    · subst hA
      refine ⟨[], [], st, 0, 0, ?_, rfl, hm, by simp, by simp, TraceExt_refl _ _ _ _ _, rfl, rfl⟩
      simp [insertion_inner, hpj]
    · subst hA
      simp only [List.length_append, List.length_cons, List.length_nil, Nat.mul_add,
        Nat.mul_one, Nat.zero_add] at hpj hf hn
      have hgt : pj > P.length := by omega
      have hle : w ≤ pj := by omega
      have hcs := sort_r_cmpswap_rec compar ds st hm
        (show A0 ++ [y] ++ x :: T = A0 ++ y :: ([] ++ x :: T) by simp)
        (show pj - w = P.length + w * A0.length by omega)
        (show pj = P.length + w * (A0.length + 1 + ([] : List (Rec α w)).length) by
          simp [Nat.mul_add]; omega)
      have tc : TraceExt ds w P.length n 1 0 st.trace
          (st.trace ++ [Event.compar (pj - w) pj ds]) :=
        TraceExt_compar ds P.length st.trace
          (show pj - w = P.length + w * A0.length by omega)
          (show pj = P.length + w * (A0.length + 1) by simp [Nat.mul_add]; omega)
          (by omega) (by omega)
      simp only [insertion_inner, hgt, if_true, psub_ok hle, ok_bind, hcs]
      by_cases hc : 0 < compar y.val x.val ds
      · simp only [hc, if_true, ok_bind]
        have hne : (1 : Int) ≠ 0 := by decide
        simp only [ne_eq, hne, not_false_eq_true, if_true, psub_ok hle, ok_bind]
        obtain ⟨A1, A2, st1, c, s, h1, h2, h3, h4, h5, h6, h7, h8⟩ :=
          ih A0 (y :: T) (State.mk (P ++ flat (A0 ++ x :: ([] ++ y :: T)) ++ S)
              (st.trace ++ [Event.compar (pj - w) pj ds, Event.swap (pj - w) pj w]))
            (pj - w) (by omega) (by simp) (by omega) (by simp; omega)
        refine ⟨A1, A2 ++ [y], st1, c + 1, s + 1, h1, by simp [h2], by simp [h3], ?_, h5, ?_,
          by simp [h7], by simp [h8]; omega⟩
        · intro a ha
          rcases List.mem_append.mp ha with h | h
          · exact h4 a h
          · simp at h; subst h; exact hc
        · have t2 : TraceExt ds w P.length n 0 1 (st.trace ++ [Event.compar (pj - w) pj ds])
              (st.trace ++ [Event.compar (pj - w) pj ds] ++ [Event.swap (pj - w) pj w]) :=
            TraceExt_swap ds P.length _
              (show pj - w = P.length + w * A0.length by omega)
              (show pj = P.length + w * (A0.length + 1) by simp [Nat.mul_add]; omega)
              (show w = w * 1 by simp) (by omega) (by omega)
          have t3 := TraceExt_trans (TraceExt_trans tc t2) (by simpa using h6)
          have e1 : 1 + 0 + c = c + 1 := by omega
          have e2 : 0 + 1 + s = s + 1 := by omega
          rw [e1, e2] at t3
          exact t3
      · simp only [hc, if_false, ok_bind]
        simp only [ne_eq, not_true_eq_false, if_false, pure_eq_ok]
        refine ⟨A0 ++ [y], [], _, 1, 0, rfl, by simp, by simpa using hm, by simp, ?_, tc, rfl,
          by simp⟩
        intro B0 z hz
        have := List.append_inj' hz rfl
        simp at this
        rw [← this.2]
        omega


theorem insertion_outer_spec (compar : List α → List α → δ → Int) (ds : δ) (hw : 0 < w)
    (P S : List α) (n m e : Nat)
    (Q : List (Rec α w) → List (Rec α w) → Nat → Nat → Prop)
    (hstep : ∀ (A1 A2 : List (Rec α w)) (x : Rec α w) (T : List (Rec α w)) (c s : Nat),
      Q (A1 ++ A2) (x :: T) c s → (∀ a ∈ A2, 0 < compar a.val x.val ds) →
      (∀ A0 y, A1 = A0 ++ [y] → compar y.val x.val ds ≤ 0) →
      Q (A1 ++ x :: A2) T (c + (A2.length + min 1 A1.length)) (s + A2.length))
    (fuel : Nat) :
    ∀ (T A : List (Rec α w)) (st : State α δ) (pi c0 s0 : Nat), T.length < fuel →
      A.length + T.length < m + 1 → A.length + T.length ≤ n →
      st.mem = P ++ flat (A ++ T) ++ S → pi = P.length + w * A.length →
      e = P.length + w * (A.length + T.length) → Q A T c0 s0 →
      ∃ A1 st1 c s, insertion_outer compar ds P.length w e m fuel st pi = .ok st1
        ∧ st1.mem = P ++ flat A1 ++ S
        ∧ TraceExt ds w P.length n c s st.trace st1.trace
        ∧ Q A1 [] (c0 + c) (s0 + s) := by
  induction fuel with
  | zero => intro T A st pi c0 s0 h; omega
  | succ fuel ih =>
    intro T A st pi c0 s0 hf hmf hn hm hpi he hQ
    cases T with
    | nil =>
      refine ⟨A, st, 0, 0, ?_, by simpa using hm, TraceExt_refl _ _ _ _ _, hQ⟩
      have : ¬ pi < e := by simp at he; omega
      simp [insertion_outer, this]
    | cons x T =>
      simp only [List.length_cons, Nat.mul_add, Nat.mul_one] at he hf hmf hn
      have hlt : pi < e := by omega
      obtain ⟨A1, A2, st1, c, s, h1, h2, h3, h4, h5, h6, h7, h8⟩ :=
        insertion_inner_spec compar ds hw P S x n m A T st pi (by omega) hm hpi (by omega)
      subst h2
      obtain ⟨B, st2, c2, s2, k1, k2, k3, k4⟩ :=
        ih T (A1 ++ x :: A2) st1 (pi + w) (c0 + (A2.length + min 1 A1.length)) (s0 + A2.length)
          (by omega) (by simp at hmf ⊢; omega) (by simp at hn ⊢; omega)
          (by simp [h3]) (by simp [Nat.mul_add] at hpi ⊢; omega)
          (by simp [Nat.mul_add] at he ⊢; omega) (hstep A1 A2 x T c0 s0 hQ h4 h5)
      refine ⟨B, st2, c + c2, s + s2, ?_, k2, TraceExt_trans h6 k3, ?_⟩
      · simp only [insertion_outer, hlt, if_true, h1, ok_bind, k1]
      · have e1 : c0 + (c + c2) = c0 + (A2.length + min 1 A1.length) + c2 := by omega
        have e2 : s0 + (s + s2) = s0 + A2.length + s2 := by omega
        rw [e1, e2]
        exact k4

theorem left_scan_spec (compar : List α → List α → δ → Int) (ds : δ) (hw : 0 < w)
    (P S : List α) (p : Rec α w) (R : List (Rec α w)) (n : Nat) (fuel : Nat) :
    ∀ (U E Ls : List (Rec α w)) (st : State α δ) (ple pl pr pivot : Nat), U.length < fuel →
      st.mem = P ++ flat (E ++ (Ls ++ (U ++ (R ++ [p])))) ++ S →
      ple = P.length + w * E.length → pl = P.length + w * (E.length + Ls.length) →
      pr = P.length + w * (E.length + Ls.length + U.length) →
      pivot = P.length + w * (E.length + Ls.length + U.length + R.length) →
      E.length + Ls.length + U.length + R.length + 1 ≤ n →
      (∀ e ∈ E, compar e.val p.val ds = 0) → (∀ l ∈ Ls, compar l.val p.val ds < 0) →
      ∃ E1 Ls1 U1 U2 st1 c s,
        left_scan compar ds w pivot pr fuel st ple pl
          = .ok (st1, P.length + w * E1.length, P.length + w * (E1.length + Ls1.length))
        ∧ U = U1 ++ U2
        ∧ st1.mem = P ++ flat (E1 ++ (Ls1 ++ (U2 ++ (R ++ [p])))) ++ S
        ∧ (E1 ++ Ls1).Perm (E ++ (Ls ++ U1))
        ∧ (∀ e ∈ E1, compar e.val p.val ds = 0) ∧ (∀ l ∈ Ls1, compar l.val p.val ds < 0)
        ∧ (∀ u ∈ U2.head?, 0 < compar u.val p.val ds)
        ∧ TraceExt ds w P.length n c s st.trace st1.trace
        ∧ c = U1.length + min 1 U2.length := by
  induction fuel with
  | zero => intro U E Ls st ple pl pr pivot h; omega
  | succ fuel ih =>
    intro U E Ls st ple pl pr pivot hf hm hple hpl hpr hpiv hn hE hLs
    cases U with
    | nil =>
      refine ⟨E, Ls, [], [], st, 0, 0, ?_, rfl, hm, by simp, hE, hLs, by simp,
        TraceExt_refl _ _ _ _ _, rfl⟩
      have : ¬ pl < pr := by simp at hpr; omega
      simp only [left_scan, this, if_false, pure_eq_ok]
      rw [← hple, ← hpl]
    | cons u U =>
      have hpl0 := hpl
      simp only [List.length_cons, Nat.mul_add, Nat.mul_one] at hf hpr hpiv hn hpl
      have hlt : pl < pr := by omega
      have hc := call_compar_rec compar ds st hm
        (show E ++ (Ls ++ (u :: U ++ (R ++ [p]))) = (E ++ Ls) ++ u :: (U ++ (R ++ [p])) by simp)
        (show E ++ (Ls ++ (u :: U ++ (R ++ [p]))) = (E ++ (Ls ++ (u :: U ++ R))) ++ p :: [] by simp)
        (show pl = P.length + w * (E ++ Ls).length by simp [Nat.mul_add]; omega)
        (show pivot = P.length + w * (E ++ (Ls ++ (u :: U ++ R))).length by
          simp [Nat.mul_add]; omega)
      have tc : TraceExt ds w P.length n 1 0 st.trace (st.trace ++ [Event.compar pl pivot ds]) :=
        TraceExt_compar ds P.length st.trace
          (show pl = P.length + w * (E.length + Ls.length) by simp [Nat.mul_add]; omega)
          (show pivot = P.length + w * (E.length + Ls.length + (U.length + 1) + R.length) by
            simp [Nat.mul_add]; omega)
          (by omega) (by omega)
      simp only [left_scan, hlt, if_true, hc, ok_bind, gt_iff_lt]
      by_cases h1 : 0 < compar u.val p.val ds
      · simp only [h1, if_true, pure_eq_ok]
        refine ⟨E, Ls, [], u :: U, State.mk st.mem (st.trace ++ [Event.compar pl pivot ds]),
          1, 0, ?_, rfl, by simpa using hm, by simp, hE, hLs, by simpa using h1, tc, by simp⟩
        rw [← hple, ← hpl0]
      · simp only [h1, if_false]
        by_cases h2 : compar u.val p.val ds = 0
        · simp only [h2, if_true]
          cases Ls with
          | nil =>
            have hnlt : ¬ ple < pl := by simp at hpl; omega
            simp only [hnlt, if_false, pure_eq_ok, ok_bind]
            obtain ⟨E1, Ls1, U1, U2, st1, c, s, k1, k2, k3, k4, k5, k6, k7, k8, k9⟩ :=
              ih U (E ++ [u]) [] (State.mk st.mem (st.trace ++ [Event.compar pl pivot ds]))
                (ple + w) (pl + w) pr pivot (by omega) (by simp [hm])
                (by simp [Nat.mul_add]; omega) (by simp [Nat.mul_add] at hpl ⊢; omega)
                (by simp [Nat.mul_add] at hpr ⊢; omega)
                (by simp [Nat.mul_add] at hpiv ⊢; omega)
                (by simp at hn ⊢; omega)
                (by
                  intro e he
                  rcases List.mem_append.mp he with h | h
                  · exact hE e h
                  · simp at h; subst h; exact h2)
                (by simp)
            refine ⟨E1, Ls1, u :: U1, U2, st1, 1 + c, 0 + s, k1, by simp [k2], k3, ?_, k5, k6, k7,
              TraceExt_trans tc k8, by simp [k9]; omega⟩
            refine k4.trans ?_
            simp
          | cons l Ls =>
            have hltp : ple < pl := by simp [Nat.mul_add] at hpl; omega
            have hs := sort_r_swap_rec (State.mk st.mem (st.trace ++ [Event.compar pl pivot ds]))
              (k := 1) hm
              (show E ++ (l :: Ls ++ (u :: U ++ (R ++ [p])))
                = E ++ ([l] ++ (Ls ++ ([u] ++ (U ++ (R ++ [p]))))) by simp)
              rfl rfl hple (show pl = P.length + w * (E.length + 1 + Ls.length) by
                simp [Nat.mul_add] at hpl ⊢; omega) (show w = w * 1 by simp)
            simp only [hltp, if_true, hs, ok_bind]
            have ts : TraceExt ds w P.length n 0 1 (st.trace ++ [Event.compar pl pivot ds])
                (st.trace ++ [Event.compar pl pivot ds] ++ [Event.swap ple pl w]) :=
              TraceExt_swap ds P.length _ hple
                (show pl = P.length + w * (E.length + 1 + Ls.length) by
                  simp [Nat.mul_add] at hpl ⊢; omega)
                (show w = w * 1 by simp) (by omega) (by simp at hn; omega)
            obtain ⟨E1, Ls1, U1, U2, st1, c, s, k1, k2, k3, k4, k5, k6, k7, k8, k9⟩ :=
              ih U (E ++ [u]) (Ls ++ [l])
                (State.mk (P ++ flat (E ++ ([u] ++ (Ls ++ ([l] ++ (U ++ (R ++ [p])))))) ++ S)
                  (st.trace ++ [Event.compar pl pivot ds] ++ [Event.swap ple pl w]))
                (ple + w) (pl + w) pr pivot (by omega) (by simp)
                (by simp [Nat.mul_add]; omega) (by simp [Nat.mul_add] at hpl ⊢; omega)
                (by simp [Nat.mul_add] at hpr ⊢; omega)
                (by simp [Nat.mul_add] at hpiv ⊢; omega)
                (by simp at hn ⊢; omega)
                (by
                  intro e he
                  rcases List.mem_append.mp he with h | h
                  · exact hE e h
                  · simp at h; subst h; exact h2)
                (by
                  intro e he
                  rcases List.mem_append.mp he with h | h
                  · exact hLs e (List.mem_cons_of_mem _ h)
                  · simp at h; subst h; exact hLs e (List.mem_cons_self _ _))
            refine ⟨E1, Ls1, u :: U1, U2, st1, 1 + 0 + c, 0 + 1 + s, k1, by simp [k2], k3, ?_,
              k5, k6, k7, TraceExt_trans (TraceExt_trans tc ts) k8, by simp [k9]; omega⟩
            refine k4.trans ?_
            rw [← Multiset.coe_eq_coe]
            simp only [← Multiset.coe_add, ← Multiset.cons_coe, ← Multiset.singleton_add,
              Multiset.coe_nil, add_zero]
            abel
        · simp only [h2, if_false]
          obtain ⟨E1, Ls1, U1, U2, st1, c, s, k1, k2, k3, k4, k5, k6, k7, k8, k9⟩ :=
            ih U E (Ls ++ [u]) (State.mk st.mem (st.trace ++ [Event.compar pl pivot ds]))
              ple (pl + w) pr pivot (by omega) (by simp [hm])
              hple (by simp [Nat.mul_add] at hpl ⊢; omega)
              (by simp [Nat.mul_add] at hpr ⊢; omega)
              (by simp [Nat.mul_add] at hpiv ⊢; omega)
              (by simp at hn ⊢; omega) hE
              (by
                intro e he
                rcases List.mem_append.mp he with h | h
                · exact hLs e h
                · simp at h; subst h; omega)
          refine ⟨E1, Ls1, u :: U1, U2, st1, 1 + c, 0 + s, k1, by simp [k2], k3, ?_, k5, k6, k7,
            TraceExt_trans tc k8, by simp [k9]; omega⟩
          refine k4.trans ?_
          simp

theorem right_scan_spec (compar : List α → List α → δ → Int) (ds : δ) (hw : 0 < w)
    (P S : List α) (p : Rec α w) (F : List (Rec α w)) (n : Nat) (fuel : Nat) :
    ∀ (U G E2 : List (Rec α w)) (st : State α δ) (pl pr pre pivot : Nat), U.length < fuel →
      st.mem = P ++ flat (F ++ (U ++ (G ++ (E2 ++ [p])))) ++ S →
      pl = P.length + w * F.length → pr = P.length + w * (F.length + U.length) →
      pre = P.length + w * (F.length + U.length + G.length) →
      pivot = P.length + w * (F.length + U.length + G.length + E2.length) →
      F.length + U.length + G.length + E2.length + 1 ≤ n →
      (∀ u ∈ U.head?, 0 < compar u.val p.val ds) →
      (∀ g ∈ G, 0 < compar g.val p.val ds) → (∀ e ∈ E2, compar e.val p.val ds = 0) →
      ∃ Ln U1 G1 E21 st1 c s,
        right_scan compar ds w pivot fuel st pl pr pre
          = .ok (st1, P.length + w * (F.length + Ln.length),
              P.length + w * (F.length + Ln.length + U1.length),
              P.length + w * (F.length + Ln.length + U1.length + G1.length))
        ∧ st1.mem = P ++ flat (F ++ (Ln ++ (U1 ++ (G1 ++ (E21 ++ [p]))))) ++ S
        ∧ (Ln ++ (U1 ++ (G1 ++ E21))).Perm (U ++ (G ++ E2))
        ∧ (∀ l ∈ Ln, compar l.val p.val ds < 0)
        ∧ (∀ g ∈ G1, 0 < compar g.val p.val ds) ∧ (∀ e ∈ E21, compar e.val p.val ds = 0)
        ∧ U1.length + min 1 U.length ≤ U.length
        ∧ TraceExt ds w P.length n c s st.trace st1.trace := by
  induction fuel with
  | zero => intro U G E2 st pl pr pre pivot h; omega
  | succ fuel ih =>
    intro U G E2 st pl pr pre pivot hf hm hpl hpr hpre hpiv hn hU hG hE2
    rcases eq_nil_or_snoc U with hU0 | ⟨U0, u, hU0⟩
    · subst hU0
      refine ⟨[], [], G, E2, st, 0, 0, ?_, by simpa using hm, by simp, by simp, hG, hE2,
        by simp, TraceExt_refl _ _ _ _ _⟩
      have : ¬ pl < pr := by simp at hpr; omega
      simp only [right_scan, this, if_false, pure_eq_ok]
      rw [hpl, hpr, hpre]
      simp
    · subst hU0
      have hpre0 := hpre
      simp only [List.length_append, List.length_cons, List.length_nil, Nat.mul_add,
        Nat.mul_one, Nat.zero_add] at hf hpr hpre hpiv hn
      have hlt : pl < pr := by omega
      have hle : w ≤ pr := by omega
      have hc := call_compar_rec compar ds st hm
        (show F ++ (U0 ++ [u] ++ (G ++ (E2 ++ [p]))) = (F ++ U0) ++ u :: (G ++ (E2 ++ [p])) by
          simp)
        (show F ++ (U0 ++ [u] ++ (G ++ (E2 ++ [p])))
          = (F ++ (U0 ++ [u] ++ (G ++ E2))) ++ p :: [] by simp)
        (show pr - w = P.length + w * (F ++ U0).length by simp [Nat.mul_add]; omega)
        (show pivot = P.length + w * (F ++ (U0 ++ [u] ++ (G ++ E2))).length by
          simp [Nat.mul_add]; omega)
      have tc : TraceExt ds w P.length n 1 0 st.trace
          (st.trace ++ [Event.compar (pr - w) pivot ds]) :=
        TraceExt_compar ds P.length st.trace
          (show pr - w = P.length + w * (F.length + U0.length) by simp [Nat.mul_add]; omega)
          (show pivot = P.length + w * (F.length + (U0.length + 1) + G.length + E2.length) by
            simp [Nat.mul_add]; omega)
          (by omega) (by omega)
      have hU0h : ∀ x ∈ U0.head?, 0 < compar x.val p.val ds := by
        intro x hx
        cases U0 with
        | nil => simp at hx
        | cons a U0 => exact hU x (by simpa using hx)
      simp only [right_scan, hlt, if_true, psub_ok hle, hc, ok_bind]
      by_cases h1 : compar u.val p.val ds = 0
      · have hle2 : w ≤ pre := by omega
        simp only [h1, if_true, psub_ok hle2, ok_bind]
        rcases eq_nil_or_snoc G with hG0 | ⟨G0, g, hG0⟩
        · subst hG0
          have hnlt : ¬ pr - w < pre - w := by simp at hpre; omega
          simp only [hnlt, if_false, pure_eq_ok, ok_bind]
          obtain ⟨Ln, U1, G1, E21, st1, c, s, k1, k2, k3, k4, k5, k6, k7, k8⟩ :=
            ih U0 [] (u :: E2) (State.mk st.mem (st.trace ++ [Event.compar (pr - w) pivot ds]))
              pl (pr - w) (pre - w) pivot (by omega) (by simp [hm]) hpl
              (by simp [Nat.mul_add]; omega) (by simp [Nat.mul_add] at hpre ⊢; omega)
              (by simp [Nat.mul_add] at hpiv ⊢; omega) (by simp at hn ⊢; omega) hU0h
              (by simp) (by
                intro e he
                rcases List.mem_cons.mp he with h | h
                · subst h; exact h1
                · exact hE2 e h)
          refine ⟨Ln, U1, G1, E21, st1, 1 + c, 0 + s, k1, k2, ?_, k4, k5, k6, ?_,
            TraceExt_trans tc k8⟩
          · refine k3.trans ?_
            rw [← Multiset.coe_eq_coe]
            simp only [← Multiset.coe_add, ← Multiset.cons_coe, ← Multiset.singleton_add,
              Multiset.coe_nil, add_zero]
            abel
          · simp at k7 ⊢; omega
        · subst hG0
          simp only [List.length_append, List.length_cons, List.length_nil, Nat.mul_add,
            Nat.mul_one, Nat.zero_add] at hpre hpiv hn
          have hlt2 : pr - w < pre - w := by omega
          have hs := sort_r_swap_rec
            (State.mk st.mem (st.trace ++ [Event.compar (pr - w) pivot ds])) (k := 1) hm
            (show F ++ (U0 ++ [u] ++ (G0 ++ [g] ++ (E2 ++ [p])))
              = (F ++ U0) ++ ([u] ++ (G0 ++ ([g] ++ (E2 ++ [p])))) by simp)
            rfl rfl (show pr - w = P.length + w * (F ++ U0).length by
              simp [Nat.mul_add]; omega)
            (show pre - w = P.length + w * ((F ++ U0).length + 1 + G0.length) by
              simp [Nat.mul_add]; omega) (show w = w * 1 by simp)
          simp only [hlt2, if_true, hs, ok_bind]
          have ts : TraceExt ds w P.length n 0 1 (st.trace ++ [Event.compar (pr - w) pivot ds])
              (st.trace ++ [Event.compar (pr - w) pivot ds] ++ [Event.swap (pr - w) (pre - w) w]) :=
            TraceExt_swap ds P.length _
              (show pr - w = P.length + w * (F.length + U0.length) by
                simp [Nat.mul_add]; omega)
              (show pre - w = P.length + w * (F.length + U0.length + 1 + G0.length) by
                simp [Nat.mul_add]; omega)
              (show w = w * 1 by simp) (by omega) (by omega)
          obtain ⟨Ln, U1, G1, E21, st1, c, s, k1, k2, k3, k4, k5, k6, k7, k8⟩ :=
            ih U0 (g :: G0) (u :: E2)
              (State.mk (P ++ flat ((F ++ U0) ++ ([g] ++ (G0 ++ ([u] ++ (E2 ++ [p]))))) ++ S)
                (st.trace ++ [Event.compar (pr - w) pivot ds]
                  ++ [Event.swap (pr - w) (pre - w) w]))
              pl (pr - w) (pre - w) pivot (by omega) (by simp) hpl
              (by simp [Nat.mul_add]; omega) (by simp [Nat.mul_add]; omega)
              (by simp [Nat.mul_add]; omega) (by simp; omega) hU0h
              (by
                intro e he
                rcases List.mem_cons.mp he with h | h
                · subst h; exact hG e (by simp)
                · exact hG e (by simp [h]))
              (by
                intro e he
                rcases List.mem_cons.mp he with h | h
                · subst h; exact h1
                · exact hE2 e h)
          refine ⟨Ln, U1, G1, E21, st1, 1 + 0 + c, 0 + 1 + s, k1, k2, ?_, k4, k5, k6, ?_,
            TraceExt_trans (TraceExt_trans tc ts) k8⟩
          · refine k3.trans ?_
            rw [← Multiset.coe_eq_coe]
            simp only [← Multiset.coe_add, ← Multiset.cons_coe, ← Multiset.singleton_add,
              Multiset.coe_nil, add_zero]
            abel
          · simp at k7 ⊢; omega
      · simp only [h1, if_false]
        by_cases h2 : compar u.val p.val ds < 0
        · simp only [h2, if_true]
          cases U0 with
          | nil =>
            have := hU u (by simp)
            omega
          | cons v Um =>
            simp only [List.length_cons, Nat.mul_add, Nat.mul_one] at hpr hpre hpiv hn
            have hlt3 : pl < pr - w := by omega
            have hs := sort_r_swap_rec
              (State.mk st.mem (st.trace ++ [Event.compar (pr - w) pivot ds])) (k := 1) hm
              (show F ++ (v :: Um ++ [u] ++ (G ++ (E2 ++ [p])))
                = F ++ ([v] ++ (Um ++ ([u] ++ (G ++ (E2 ++ [p]))))) by simp)
              rfl rfl hpl
              (show pr - w = P.length + w * (F.length + 1 + Um.length) by
                simp [Nat.mul_add]; omega) (show w = w * 1 by simp)
            simp only [hlt3, if_true, hs, ok_bind, pure_eq_ok]
            have ts : TraceExt ds w P.length n 0 1 (st.trace ++ [Event.compar (pr - w) pivot ds])
                (st.trace ++ [Event.compar (pr - w) pivot ds] ++ [Event.swap pl (pr - w) w]) :=
              TraceExt_swap ds P.length _ hpl
                (show pr - w = P.length + w * (F.length + 1 + Um.length) by
                  simp [Nat.mul_add]; omega)
                (show w = w * 1 by simp) (by omega) (by omega)
            refine ⟨[u], Um, v :: G, E2,
              State.mk (P ++ flat (F ++ ([u] ++ (Um ++ ([v] ++ (G ++ (E2 ++ [p])))))) ++ S)
                (st.trace ++ [Event.compar (pr - w) pivot ds] ++ [Event.swap pl (pr - w) w]),
              1 + 0, 0 + 1, ?_, ?_, ?_, ?_, ?_, hE2, ?_,
              TraceExt_trans tc ts⟩
            · simp only [List.length_cons, List.length_nil, Nat.mul_add, Nat.mul_one,
                Nat.zero_add]
              congr 1
              refine Prod.ext rfl (Prod.ext ?_ (Prod.ext ?_ ?_)) <;> simp <;> omega
            · simp
            · rw [← Multiset.coe_eq_coe]
              simp only [← Multiset.coe_add, ← Multiset.cons_coe, ← Multiset.singleton_add,
                Multiset.coe_nil, add_zero]
              abel
            · intro l hl
              simp at hl; subst hl; exact h2
            · intro e he
              rcases List.mem_cons.mp he with h | h
              · subst h; exact hU e (by simp)
              · exact hG e h
            · simp
        · simp only [h2, if_false]
          obtain ⟨Ln, U1, G1, E21, st1, c, s, k1, k2, k3, k4, k5, k6, k7, k8⟩ :=
            ih U0 (u :: G) E2 (State.mk st.mem (st.trace ++ [Event.compar (pr - w) pivot ds]))
              pl (pr - w) pre pivot (by omega) (by simp [hm]) hpl
              (by simp [Nat.mul_add]; omega) (by simp [Nat.mul_add]; omega)
              (by simp [Nat.mul_add]; omega) (by simp; omega) hU0h
              (by
                intro e he
                rcases List.mem_cons.mp he with h | h
                · subst h; omega
                · exact hG e h)
              hE2
          refine ⟨Ln, U1, G1, E21, st1, 1 + c, 0 + s, k1, k2, ?_, k4, k5, k6, ?_,
            TraceExt_trans tc k8⟩
          · refine k3.trans ?_
            rw [← Multiset.coe_eq_coe]
            simp only [← Multiset.coe_add, ← Multiset.cons_coe, ← Multiset.singleton_add,
              Multiset.coe_nil, add_zero]
            abel
          · simp at k7 ⊢; omega


theorem partition_loop_spec (compar : List α → List α → δ → Int) (ds : δ) (hw : 0 < w)
    (P S : List α) (p : Rec α w) (n m : Nat) (fuel : Nat) :
    ∀ (U E Ls G E2 : List (Rec α w)) (st : State α δ) (ple pl pr pre pivot : Nat),
      U.length < fuel → U.length < m →
      st.mem = P ++ flat (E ++ (Ls ++ (U ++ (G ++ (E2 ++ [p]))))) ++ S →
      ple = P.length + w * E.length → pl = P.length + w * (E.length + Ls.length) →
      pr = P.length + w * (E.length + Ls.length + U.length) →
      pre = P.length + w * (E.length + Ls.length + U.length + G.length) →
      pivot = P.length + w * (E.length + Ls.length + U.length + G.length + E2.length) →
      E.length + Ls.length + U.length + G.length + E2.length + 1 ≤ n →
      (∀ e ∈ E, compar e.val p.val ds = 0) → (∀ l ∈ Ls, compar l.val p.val ds < 0) →
      (∀ g ∈ G, 0 < compar g.val p.val ds) → (∀ e ∈ E2, compar e.val p.val ds = 0) →
      ∃ E1 Ls1 G1 E21 st1 c s,
        partition_loop compar ds w pivot m fuel st (Locals.mk ple pl pr pre)
          = .ok (st1, Locals.mk (P.length + w * E1.length)
              (P.length + w * (E1.length + Ls1.length))
              (P.length + w * (E1.length + Ls1.length))
              (P.length + w * (E1.length + Ls1.length + G1.length)))
        ∧ st1.mem = P ++ flat (E1 ++ (Ls1 ++ (G1 ++ (E21 ++ [p])))) ++ S
        ∧ (E1 ++ (Ls1 ++ (G1 ++ E21))).Perm (E ++ (Ls ++ (U ++ (G ++ E2))))
        ∧ (∀ e ∈ E1, compar e.val p.val ds = 0) ∧ (∀ l ∈ Ls1, compar l.val p.val ds < 0)
        ∧ (∀ g ∈ G1, 0 < compar g.val p.val ds) ∧ (∀ e ∈ E21, compar e.val p.val ds = 0)
        ∧ TraceExt ds w P.length n c s st.trace st1.trace := by
  induction fuel with
  | zero => intro U E Ls G E2 st ple pl pr pre pivot h; omega
  | succ fuel ih =>
    intro U E Ls G E2 st ple pl pr pre pivot hf hmf hm hple hpl hpr hpre hpiv hn hE hLs hG hE2
    by_cases hU : U = []
    · subst hU
      refine ⟨E, Ls, G, E2, st, 0, 0, ?_, by simpa using hm, by simp, hE, hLs, hG, hE2,
        TraceExt_refl _ _ _ _ _⟩
      have : ¬ pl < pr := by simp at hpr; omega
      simp only [partition_loop, this, if_false, pure_eq_ok]
      rw [hple, hpl, hpr, hpre]
      simp
    · have hUpos : 0 < U.length := List.length_pos.mpr hU
      have hlt : pl < pr := by
        simp only [Nat.mul_add] at hpl hpr
        have := Nat.mul_pos hw hUpos
        omega
      obtain ⟨E1, Ls1, U1, U2, st1, c1, s1, k1, k2, k3, k4, k5, k6, k7, k8, -⟩ :=
        left_scan_spec compar ds hw P S p (G ++ E2) n m U E Ls st ple pl pr pivot hmf
          (by simp [hm]) hple hpl hpr (by simp [Nat.mul_add] at hpiv ⊢; omega)
          (by simp at hn ⊢; omega) hE hLs
      have hlen := k4.length_eq
      simp only [List.length_append] at hlen
      have hUlen : U.length = U1.length + U2.length := by rw [k2]; simp
      have hlenw := congrArg (fun x => w * x) hlen
      simp only [Nat.mul_add] at hlenw
      simp only [partition_loop, hlt, if_true, k1, ok_bind, ge_iff_le]
      by_cases hU2 : U2 = []
      · subst hU2
        have hge : pr ≤ P.length + w * (E1.length + Ls1.length) := by
          simp at hUlen
          rw [hpr, hlen, hUlen]
          simp [Nat.mul_add]; omega
        simp only [hge, if_true, pure_eq_ok]
        refine ⟨E1, Ls1, G, E2, st1, c1, s1, ?_, by simpa using k3, ?_, k5, k6, hG, hE2, k8⟩
        · congr 1
          refine Prod.ext rfl ?_
          simp at hUlen
          simp only [Locals.mk.injEq, true_and]
          simp only [hpr, hpre, hUlen, hlen, Nat.mul_add]
          omega
        · simp at k2
          subst k2
          rw [← Multiset.coe_eq_coe] at k4 ⊢
          simp only [← Multiset.coe_add, ← Multiset.cons_coe, ← Multiset.singleton_add,
            Multiset.coe_nil, add_zero] at k4 ⊢
          rw [← add_assoc, k4]
          abel
      · have hU2pos : 0 < U2.length := List.length_pos.mpr hU2
        have hnge : ¬ pr ≤ P.length + w * (E1.length + Ls1.length) := by
          rw [hpr, hUlen]
          have := Nat.mul_pos hw hU2pos
          simp only [Nat.mul_add]
          omega
        simp only [hnge, if_false]
        obtain ⟨Ln, U3, G1, E21, st2, c2, s2, r1, r2, r3, r4, r5, r6, r7, r8⟩ :=
          right_scan_spec compar ds hw P S p (E1 ++ Ls1) n m U2 G E2 st1
            (P.length + w * (E1.length + Ls1.length)) pr pre pivot (by omega)
            (by simp [k3]) (by simp)
            (by
              simp only [List.length_append]
              rw [hpr, hlen, hUlen]
              simp only [Nat.mul_add]; omega)
            (by
              simp only [List.length_append]
              rw [hpre, hlen, hUlen]
              simp only [Nat.mul_add]; omega)
            (by
              simp only [List.length_append]
              rw [hpiv, hlen, hUlen]
              simp only [Nat.mul_add]; omega)
            (by simp only [List.length_append]; omega) k7 hG hE2
        simp only [List.length_append] at r1
        simp only [r1, ok_bind]
        obtain ⟨E3, Ls3, G3, E23, st3, c3, s3, q1, q2, q3, q4, q5, q6, q7, q8⟩ :=
          ih U3 E1 (Ls1 ++ Ln) G1 E21 st2 (P.length + w * E1.length)
            (P.length + w * (E1.length + Ls1.length + Ln.length))
            (P.length + w * (E1.length + Ls1.length + Ln.length + U3.length))
            (P.length + w * (E1.length + Ls1.length + Ln.length + U3.length + G1.length)) pivot
            (by omega) (by omega) (by simp [r2]) rfl (by simp [Nat.add_assoc]) (by simp [Nat.add_assoc])
            (by simp [Nat.add_assoc])
            (by
              have h4 := r3.length_eq
              simp only [List.length_append] at h4 ⊢
              have h4w := congrArg (fun x => w * x) h4
              simp only [Nat.mul_add] at h4w
              rw [hpiv, hUlen]
              simp only [Nat.mul_add]
              omega)
            (by
              have h4 := r3.length_eq
              simp only [List.length_append] at h4 ⊢
              omega)
            k5
            (by
              intro l hl
              rcases List.mem_append.mp hl with h | h
              · exact k6 l h
              · exact r4 l h)
            r5 r6
        refine ⟨E3, Ls3, G3, E23, st3, c1 + c2 + c3, s1 + s2 + s3, q1, q2, ?_, q4, q5, q6, q7,
          TraceExt_trans (TraceExt_trans k8 r8) q8⟩
        refine q3.trans ?_
        subst k2
        rw [← Multiset.coe_eq_coe] at k4 r3 ⊢
        simp only [← Multiset.coe_add, ← Multiset.cons_coe, ← Multiset.singleton_add,
          Multiset.coe_nil, add_zero] at k4 r3 ⊢
        have e1 : (↑E1 : Multiset (Rec α w)) + (↑Ls1 + ↑Ln + (↑U3 + (↑G1 + ↑E21)))
            = (↑E1 + ↑Ls1) + (↑Ln + (↑U3 + (↑G1 + ↑E21))) := by abel
        rw [e1, k4, r3]
        abel


theorem getElem?_split {L : List α} {i : Nat} {r : α} (h : L[i]? = some r) :
    L = L.take i ++ r :: L.drop (i + 1) ∧ (L.take i).length = i := by
  obtain ⟨hi, hr⟩ := List.getElem?_eq_some.mp h
  refine ⟨?_, by simp; omega⟩
  rw [← hr, ← List.drop_eq_getElem_cons hi, List.take_append_drop]

theorem call_compar_idx (compar : List α → List α → δ → Int) (ds : δ) (st : State α δ)
    {P S : List α} {L : List (Rec α w)} {i j a b : Nat} {r1 r2 : Rec α w}
    (hm : st.mem = P ++ flat L ++ S) (h1 : L[i]? = some r1) (h2 : L[j]? = some r2)
    (ha : a = P.length + w * i) (hb : b = P.length + w * j) :
    call_compar compar ds w st a b
      = .ok (compar r1.val r2.val ds, State.mk st.mem (st.trace ++ [Event.compar a b ds])) := by
  obtain ⟨e1, l1⟩ := getElem?_split h1
  obtain ⟨e2, l2⟩ := getElem?_split h2
  exact call_compar_rec compar ds st hm e1 e2 (by rw [l1]; exact ha) (by rw [l2]; exact hb)

theorem TotalOrder_neg_of_pos {compar : List α → List α → δ → Int} {ds : δ}
    (h : TotalOrder compar ds w) {a b : Rec α w} (hab : 0 < compar a.val b.val ds) :
    compar b.val a.val ds < 0 := by
  have h1 := h.antisymm a b
  rw [Int.sign_eq_one_of_pos hab] at h1
  have h2 : (compar b.val a.val ds).sign = -1 := by omega
  exact Int.sign_eq_neg_one_iff_neg.mp h2

theorem TotalOrder_pos_of_neg {compar : List α → List α → δ → Int} {ds : δ}
    (h : TotalOrder compar ds w) {a b : Rec α w} (hab : compar a.val b.val ds < 0) :
    0 < compar b.val a.val ds := by
  have h1 := h.antisymm a b
  rw [Int.sign_eq_neg_one_of_neg hab] at h1
  have h2 : (compar b.val a.val ds).sign = 1 := by omega
  exact Int.sign_eq_one_iff_pos.mp h2

theorem TotalOrder_zero_of_zero {compar : List α → List α → δ → Int} {ds : δ}
    (h : TotalOrder compar ds w) {a b : Rec α w} (hab : compar a.val b.val ds = 0) :
    compar b.val a.val ds = 0 := by
  have h1 := h.antisymm a b
  rw [hab, Int.sign_zero] at h1
  have h2 : (compar b.val a.val ds).sign = 0 := by omega
  exact Int.sign_eq_zero_iff_zero.mp h2

theorem pivot_select_spec (compar : List α → List α → δ → Int) (ds : δ) (st : State α δ)
    {P S : List α} {L : List (Rec α w)} {i0 i1 i2 n : Nat} {r0 r1 r2 : Rec α w}
    (hm : st.mem = P ++ flat L ++ S) (h0 : L[i0]? = some r0) (h1 : L[i1]? = some r1)
    (h2 : L[i2]? = some r2) (hn : L.length ≤ n) :
    ∃ j0 j1 j2 q0 q1 q2 c,
      pivot_select compar ds w st
          (Cand.mk (P.length + w * i0) (P.length + w * i1) (P.length + w * i2))
        = .ok (Cand.mk (P.length + w * j0) (P.length + w * j1) (P.length + w * j2),
            State.mk st.mem (st.trace ++ c))
      ∧ [j0, j1, j2].Perm [i0, i1, i2]
      ∧ L[j0]? = some q0 ∧ L[j1]? = some q1 ∧ L[j2]? = some q2
      ∧ TraceExt ds w P.length n c.length 0 st.trace (st.trace ++ c) ∧ c.length ≤ 3
      ∧ (TotalOrder compar ds w →
          compar q0.val q1.val ds ≤ 0 ∧ compar q1.val q2.val ds ≤ 0)
      ∧ (c.length = 2 ∨ (c.length = 3
          ∧ ∃ a b : Rec α w, a ∈ L ∧ b ∈ L ∧ 0 < compar a.val b.val ds)) := by
  have m0 : r0 ∈ L := List.getElem?_mem h0
  have m1 : r1 ∈ L := List.getElem?_mem h1
  have m2 : r2 ∈ L := List.getElem?_mem h2
  have b0 : i0 < n := by have := (List.getElem?_eq_some.mp h0).1; omega
  have b1 : i1 < n := by have := (List.getElem?_eq_some.mp h1).1; omega
  have b2 : i2 < n := by have := (List.getElem?_eq_some.mp h2).1; omega
  have tr : ∀ (t : List (Event δ)) (i j : Nat), i < n → j < n →
      TraceExt ds w P.length n 1 0 t
        (t ++ [Event.compar (P.length + w * i) (P.length + w * j) ds]) :=
    fun t i j hi hj => TraceExt_compar ds P.length t rfl rfl hi hj
  have hcc : ∀ (t : List (Event δ)) (i j : Nat) (ri rj : Rec α w), L[i]? = some ri →
      L[j]? = some rj →
      call_compar compar ds w (State.mk st.mem t) (P.length + w * i) (P.length + w * j)
        = .ok (compar ri.val rj.val ds,
          State.mk st.mem (t ++ [Event.compar (P.length + w * i) (P.length + w * j) ds])) :=
    fun t i j ri rj hi hj => call_compar_idx compar ds (State.mk st.mem t) hm hi hj rfl rfl
  simp only [pivot_select, call_compar_idx compar ds st hm h0 h1 rfl rfl, ok_bind, gt_iff_lt]
  by_cases c1 : 0 < compar r0.val r1.val ds
  · simp only [c1, if_true]
    rw [hcc _ _ _ _ _ h0 h2]
    simp only [ok_bind]
    by_cases c2 : 0 < compar r0.val r2.val ds
    · simp only [c2, if_true]
      rw [hcc _ _ _ _ _ h1 h2]
      simp only [ok_bind]
      by_cases c3 : 0 < compar r1.val r2.val ds
      · simp only [c3, if_true, pure_eq_ok]
        refine ⟨i2, i1, i0, r2, r1, r0, _, by rw [List.append_assoc, List.append_assoc], ?_,
          h2, h1, h0, ?_, by simp, ?_, Or.inr ⟨by simp, r0, r2, m0, m2, c2⟩⟩
        · rw [← Multiset.coe_eq_coe]
          simp only [← Multiset.cons_coe, ← Multiset.singleton_add, Multiset.coe_nil, add_zero]
          abel
        · have := TraceExt_trans (TraceExt_trans (tr st.trace i0 i1 b0 b1) (tr _ i0 i2 b0 b2))
            (tr _ i1 i2 b1 b2)
          simpa using this
        · intro ho
          exact ⟨le_of_lt (TotalOrder_neg_of_pos ho c3), le_of_lt (TotalOrder_neg_of_pos ho c1)⟩
      · simp only [c3, if_false, pure_eq_ok]
        refine ⟨i1, i2, i0, r1, r2, r0, _, by rw [List.append_assoc, List.append_assoc], ?_,
          h1, h2, h0, ?_, by simp, ?_, Or.inr ⟨by simp, r0, r2, m0, m2, c2⟩⟩
        · rw [← Multiset.coe_eq_coe]
          simp only [← Multiset.cons_coe, ← Multiset.singleton_add, Multiset.coe_nil, add_zero]
          abel
        · have := TraceExt_trans (TraceExt_trans (tr st.trace i0 i1 b0 b1) (tr _ i0 i2 b0 b2))
            (tr _ i1 i2 b1 b2)
          simpa using this
        · intro ho
          exact ⟨by omega, le_of_lt (TotalOrder_neg_of_pos ho c2)⟩
    · simp only [c2, if_false, pure_eq_ok]
      refine ⟨i1, i0, i2, r1, r0, r2, _, by rw [List.append_assoc], ?_,
        h1, h0, h2, ?_, by simp, ?_, Or.inl (by simp)⟩
      · rw [← Multiset.coe_eq_coe]
        simp only [← Multiset.cons_coe, ← Multiset.singleton_add, Multiset.coe_nil, add_zero]
        abel
      · have := TraceExt_trans (tr st.trace i0 i1 b0 b1) (tr _ i0 i2 b0 b2)
        simpa using this
      · intro ho
        exact ⟨le_of_lt (TotalOrder_neg_of_pos ho c1), by omega⟩
  · simp only [c1, if_false]
    rw [hcc _ _ _ _ _ h1 h2]
    simp only [ok_bind]
    by_cases c2 : 0 < compar r1.val r2.val ds
    · simp only [c2, if_true]
      rw [hcc _ _ _ _ _ h0 h2]
      simp only [ok_bind]
      by_cases c3 : 0 < compar r0.val r2.val ds
      · simp only [c3, if_true, pure_eq_ok]
        refine ⟨i2, i0, i1, r2, r0, r1, _, by rw [List.append_assoc, List.append_assoc], ?_,
          h2, h0, h1, ?_, by simp, ?_, Or.inr ⟨by simp, r1, r2, m1, m2, c2⟩⟩
        · rw [← Multiset.coe_eq_coe]
          simp only [← Multiset.cons_coe, ← Multiset.singleton_add, Multiset.coe_nil, add_zero]
          abel
        · have := TraceExt_trans (TraceExt_trans (tr st.trace i0 i1 b0 b1) (tr _ i1 i2 b1 b2))
            (tr _ i0 i2 b0 b2)
          simpa using this
        · intro ho
          exact ⟨le_of_lt (TotalOrder_neg_of_pos ho c3), by omega⟩
      · simp only [c3, if_false, pure_eq_ok]
        refine ⟨i0, i2, i1, r0, r2, r1, _, by rw [List.append_assoc, List.append_assoc], ?_,
          h0, h2, h1, ?_, by simp, ?_, Or.inr ⟨by simp, r1, r2, m1, m2, c2⟩⟩
        · rw [← Multiset.coe_eq_coe]
          simp only [← Multiset.cons_coe, ← Multiset.singleton_add, Multiset.coe_nil, add_zero]
          abel
        · have := TraceExt_trans (TraceExt_trans (tr st.trace i0 i1 b0 b1) (tr _ i1 i2 b1 b2))
            (tr _ i0 i2 b0 b2)
          simpa using this
        · intro ho
          exact ⟨by omega, le_of_lt (TotalOrder_neg_of_pos ho c2)⟩
    · simp only [c2, if_false, pure_eq_ok]
      refine ⟨i0, i1, i2, r0, r1, r2, _, by rw [List.append_assoc], List.Perm.refl _,
        h0, h1, h2, ?_, by simp, ?_, Or.inl (by simp)⟩
      · have := TraceExt_trans (tr st.trace i0 i1 b0 b1) (tr _ i1 i2 b1 b2)
        simpa using this
      · intro ho
        exact ⟨by omega, by omega⟩


theorem pivot_phase_spec (compar : List α → List α → δ → Int) (ds : δ) (hw : 0 < w)
    (st : State α δ) {P S : List α} {L : List (Rec α w)}
    (hm : st.mem = P ++ flat L ++ S) (hL : 10 ≤ L.length) :
    ∃ L0 p j0 j1 j2 q0 q2 st1 c,
      pivot_phase compar ds w st P.length L.length
        = .ok (st1, Cand.mk (P.length + w * j0) (P.length + w * j1) (P.length + w * j2))
      ∧ st1.mem = P ++ flat (L0 ++ [p]) ++ S
      ∧ (L0 ++ [p]).Perm L
      ∧ [j0, j1, j2].Perm [1, L.length / 2, L.length - 2]
      ∧ L[j0]? = some q0 ∧ L[j1]? = some p ∧ L[j2]? = some q2
      ∧ TraceExt ds w P.length L.length c 1 st.trace st1.trace ∧ c ≤ 3
      ∧ (TotalOrder compar ds w → compar q0.val p.val ds ≤ 0 ∧ compar p.val q2.val ds ≤ 0)
      ∧ (c = 2 ∨ (c = 3 ∧ ∃ a b : Rec α w, a ∈ L ∧ b ∈ L ∧ 0 < compar a.val b.val ds)) := by
  obtain ⟨k, hk⟩ : ∃ k, L.length = k + 2 := ⟨L.length - 2, by omega⟩
  have e1 : L.length - 1 = k + 1 := by omega
  have e2 : L.length - 2 = k := by omega
  obtain ⟨r0, h0⟩ : ∃ r, L[1]? = some r :=
    ⟨_, List.getElem?_eq_getElem (show 1 < L.length by omega)⟩
  obtain ⟨r1, h1⟩ : ∃ r, L[L.length / 2]? = some r :=
    ⟨_, List.getElem?_eq_getElem (show L.length / 2 < L.length by omega)⟩
  obtain ⟨r2, h2⟩ : ∃ r, L[k]? = some r :=
    ⟨_, List.getElem?_eq_getElem (show k < L.length by omega)⟩
  obtain ⟨j0, j1, j2, q0, p, q2, c, k1, k2, k3, k4, k5, k6, k7, k8, k9⟩ :=
    pivot_select_spec compar ds st hm h0 h1 h2 (Nat.le_refl _)
  have hj1 : j1 < k + 1 := by
    have hmem : j1 ∈ [1, L.length / 2, k] := k2.subset (by simp)
    simp only [List.mem_cons, List.mem_singleton, List.not_mem_nil, or_false] at hmem
    omega
  obtain ⟨d, hd⟩ : ∃ d, k + 1 = j1 + 1 + d := ⟨k - j1, by omega⟩
  have hne : P.length + w * j1 ≠ P.length + w * (k + 1) := by
    have := Nat.mul_pos hw (show 0 < 1 + d by omega)
    rw [hd, Nat.add_assoc, Nat.mul_add]
    omega
  obtain ⟨s1, s2⟩ := getElem?_split k4
  have hdrop : (L.drop (j1 + 1)).length = d + 1 := by simp; omega
  rcases eq_nil_or_snoc (L.drop (j1 + 1)) with hnil | ⟨B, z, hB⟩
  · rw [hnil] at hdrop; simp at hdrop
  · rw [hB] at s1 hdrop
    simp only [List.length_append, List.length_cons, List.length_nil] at hdrop
    have hsw := sort_r_swap_rec (State.mk st.mem (st.trace ++ c)) (k := 1) hm
      (show L = L.take j1 ++ ([p] ++ (B ++ ([z] ++ []))) by simpa using s1) rfl rfl
      (show P.length + w * j1 = P.length + w * (L.take j1).length by rw [s2])
      (show P.length + w * (k + 1) = P.length + w * ((L.take j1).length + 1 + B.length) by
        rw [s2, hd]; congr 2; omega)
      (show w = w * 1 by simp)
    refine ⟨L.take j1 ++ z :: B, p, j0, j1, j2, q0, q2,
      State.mk (P ++ flat (L.take j1 ++ ([z] ++ (B ++ ([p] ++ [])))) ++ S)
        (st.trace ++ c ++ [Event.swap (P.length + w * j1) (P.length + w * (k + 1)) w]),
      c.length, ?_, ?_, ?_, by rw [e2]; exact k2,
      k3, k4, k5, ?_, k7, k8, k9⟩
    · have hle : w ≤ P.length + w * (k + 1) := by simp [Nat.mul_add]; omega
      have e3 : P.length + w * (k + 1) - w = P.length + w * k := by simp [Nat.mul_add]; omega
      rw [Nat.mul_one] at k1
      simp only [pivot_phase, e1, psub_ok hle, e3, ok_bind, k1, ne_eq, hne, not_false_eq_true,
        if_true, hsw, pure_eq_ok]
    · simp
    · nth_rewrite 2 [s1]
      rw [← Multiset.coe_eq_coe]
      simp only [← Multiset.coe_add, ← Multiset.cons_coe, ← Multiset.singleton_add,
        Multiset.coe_nil, add_zero]
      abel
    · have ts : TraceExt ds w P.length L.length 0 1 (st.trace ++ c)
          (st.trace ++ c ++ [Event.swap (P.length + w * j1) (P.length + w * (k + 1)) w]) :=
        TraceExt_swap ds P.length _ rfl rfl (show w = w * 1 by simp) (by omega) (by omega)
      have := TraceExt_trans k6 ts
      simpa using this


theorem sort_r_swap_blocks_rec (hw : 0 < w) (ds : δ) (st : State α δ) {P S : List α}
    {L F A B T : List (Rec α w)} {ptr na nb n : Nat}
    (hm : st.mem = P ++ flat L ++ S) (hL : L = F ++ (A ++ (B ++ T)))
    (hp : ptr = P.length + w * F.length) (hna : na = w * A.length) (hnb : nb = w * B.length)
    (hn : L.length ≤ n) :
    ∃ A1 B1 st1 s, sort_r_swap_blocks st ptr na nb = .ok st1
      ∧ st1.mem = P ++ flat (F ++ (B1 ++ (A1 ++ T))) ++ S
      ∧ A1.Perm A ∧ B1.Perm B
      ∧ TraceExt ds w P.length n 0 s st.trace st1.trace ∧ s ≤ 1 := by
  have hlen : F.length + A.length + B.length + T.length ≤ n := by
    rw [hL] at hn; simp at hn; omega
  by_cases h0 : 0 < A.length ∧ 0 < B.length
  · have hc0 : na > 0 ∧ nb > 0 := by
      rw [hna, hnb]; exact ⟨Nat.mul_pos hw h0.1, Nat.mul_pos hw h0.2⟩
    by_cases h1 : B.length < A.length
    · have hc1 : na > nb := by rw [hna, hnb]; exact Nat.mul_lt_mul_of_pos_left h1 hw
      have hs := sort_r_swap_rec st (k := B.length) hm
        (show L = F ++ (A.take B.length ++ (A.drop B.length ++ (B ++ T))) by
          rw [hL, ← List.append_assoc (A.take B.length), List.take_append_drop])
        (by simp; omega) rfl hp
        (show ptr + na = P.length + w * (F.length + B.length + (A.drop B.length).length) by
          rw [hp, hna, List.length_drop]; simp only [Nat.mul_add]
          have : w * (A.length - B.length) = w * A.length - w * B.length := Nat.mul_sub _ _ _
          have := Nat.mul_le_mul_left w (Nat.le_of_lt h1)
          omega)
        hnb
      refine ⟨A.drop B.length ++ A.take B.length, B,
        State.mk (P ++ flat (F ++ (B ++ (A.drop B.length ++ (A.take B.length ++ T)))) ++ S)
          (st.trace ++ [Event.swap ptr (ptr + na) nb]), 1, ?_, by simp, ?_, List.Perm.refl _,
        ?_, Nat.le_refl _⟩
      · simp only [sort_r_swap_blocks, hc0, hc1, and_self, if_true, hs]
      · exact List.perm_append_comm.trans (by rw [List.take_append_drop])
      · exact TraceExt_swap ds P.length _ hp
          (show ptr + na = P.length + w * (F.length + A.length) by
            rw [hp, hna, Nat.mul_add]; omega)
          hnb (by omega) (by omega)
    · have hc1 : ¬ na > nb := by
        rw [hna, hnb]
        have := Nat.mul_le_mul_left w (Nat.le_of_not_lt h1)
        omega
      have hs := sort_r_swap_rec st (k := A.length) hm
        (show L = F ++ (A ++ (B.take (B.length - A.length)
            ++ (B.drop (B.length - A.length) ++ T))) by
          rw [hL, ← List.append_assoc (B.take _), List.take_append_drop])
        rfl (by simp; omega) hp
        (show ptr + nb
            = P.length + w * (F.length + A.length + (B.take (B.length - A.length)).length) by
          rw [hp, hnb, List.length_take]
          have : F.length + A.length + min (B.length - A.length) B.length
              = F.length + B.length := by omega
          rw [this, Nat.mul_add]; omega)
        hna
      refine ⟨A, B.drop (B.length - A.length) ++ B.take (B.length - A.length),
        State.mk (P ++ flat (F ++ (B.drop (B.length - A.length)
            ++ (B.take (B.length - A.length) ++ (A ++ T)))) ++ S)
          (st.trace ++ [Event.swap ptr (ptr + nb) na]), 1, ?_, by simp, List.Perm.refl _, ?_,
        ?_, Nat.le_refl _⟩
      · simp only [sort_r_swap_blocks, hc0, hc1, and_self, if_true, if_false, hs]
      · exact List.perm_append_comm.trans (by rw [List.take_append_drop])
      · exact TraceExt_swap ds P.length _ hp
          (show ptr + nb = P.length + w * (F.length + B.length) by
            rw [hp, hnb, Nat.mul_add]; omega)
          hna (by omega) (by omega)
  · have hc0 : ¬ (na > 0 ∧ nb > 0) := by
      intro ⟨ha, hb⟩
      apply h0
      constructor
      · rcases Nat.eq_zero_or_pos A.length with h | h
        · rw [hna, h] at ha; simp at ha
        · exact h
      · rcases Nat.eq_zero_or_pos B.length with h | h
        · rw [hnb, h] at hb; simp at hb
        · exact h
    refine ⟨A, B, st, 0, ?_, ?_, List.Perm.refl _, List.Perm.refl _, TraceExt_refl _ _ _ _ _,
      by omega⟩
    · simp only [sort_r_swap_blocks, hc0, if_false, pure_eq_ok]
    · rw [hm, hL]
      rcases Nat.eq_zero_or_pos A.length with h | h
      · have : A = [] := List.length_eq_zero.mp h
        subst this; simp
      · have h2 : B.length = 0 := by omega
        have : B = [] := List.length_eq_zero.mp h2
        subst this; simp

theorem rotate_phase_spec (hw : 0 < w) (ds : δ) (st : State α δ) {P S : List α}
    {E Ls G E2 : List (Rec α w)} {p : Rec α w} {n : Nat}
    (hm : st.mem = P ++ flat (E ++ (Ls ++ (G ++ (E2 ++ [p])))) ++ S)
    (hn : n = E.length + Ls.length + G.length + E2.length + 1) (pl : Nat) :
    ∃ Ls1 E1 Q1 G1 st1 s,
      rotate_phase st P.length n w (Locals.mk (P.length + w * E.length) pl
          (P.length + w * (E.length + Ls.length))
          (P.length + w * (E.length + Ls.length + G.length)))
        = .ok (st1, Locals.mk (P.length + w * E.length)
            (P.length + w * (E.length + Ls.length))
            (P.length + w * (E.length + Ls.length))
            (P.length + w * (E.length + Ls.length + G.length)))
      ∧ st1.mem = P ++ flat (Ls1 ++ (E1 ++ (Q1 ++ G1))) ++ S
      ∧ Ls1.Perm Ls ∧ E1.Perm E ∧ Q1.Perm (E2 ++ [p]) ∧ G1.Perm G
      ∧ TraceExt ds w P.length n 0 s st.trace st1.trace ∧ s ≤ 2 := by
  have p1 : psub (P.length + w * E.length) P.length = .ok (w * E.length) := by
    rw [psub_ok (by omega)]; congr 1; omega
  have p2 : psub (P.length + w * (E.length + Ls.length)) (P.length + w * E.length)
      = .ok (w * Ls.length) := by
    rw [psub_ok (by simp [Nat.mul_add])]; congr 1; simp [Nat.mul_add]; omega
  have p3 : psub (P.length + w * (E.length + Ls.length + G.length))
      (P.length + w * (E.length + Ls.length)) = .ok (w * G.length) := by
    rw [psub_ok (by simp [Nat.mul_add])]; congr 1; simp [Nat.mul_add]; omega
  have p4 : psub (P.length + n * w) (P.length + w * (E.length + Ls.length + G.length))
      = .ok (w * (E2 ++ [p]).length) := by
    rw [hn, Nat.mul_comm _ w]
    rw [psub_ok (by simp [Nat.mul_add]; omega)]; congr 1; simp [Nat.mul_add]; omega
  obtain ⟨E1, Ls1, st1, s1, a1, a2, a3, a4, a5, a6⟩ :=
    sort_r_swap_blocks_rec hw ds st (F := []) (A := E) (B := Ls) (T := G ++ (E2 ++ [p]))
      (n := n) hm (by simp)
      (show P.length = P.length + w * ([] : List (Rec α w)).length by simp) rfl rfl
      (by simp [hn]; omega)
  obtain ⟨G1, Q1, st2, s2, b1, b2, b3, b4, b5, b6⟩ :=
    sort_r_swap_blocks_rec hw ds st1 (F := Ls1 ++ E1) (A := G) (B := E2 ++ [p]) (T := [])
      (n := n) (L := Ls1 ++ (E1 ++ (G ++ (E2 ++ [p]))))
      (by simpa using a2) (by simp)
      (show P.length + w * (E.length + Ls.length) = P.length + w * (Ls1 ++ E1).length by
        have h1 := a3.length_eq
        have h2 := a4.length_eq
        simp only [List.length_append, h1, h2, Nat.mul_add]; omega)
      rfl rfl
      (by
        have h1 := a3.length_eq
        have h2 := a4.length_eq
        simp [hn, h1, h2]; omega)
  refine ⟨Ls1, E1, Q1, G1, st2, s1 + s2, ?_, by simpa using b2, a4, a3, b4, b3,
    TraceExt_trans a5 b5, by omega⟩
  simp only [rotate_phase, p1, p2, p3, p4, ok_bind, a1, b1, pure_eq_ok]


theorem partition_phase_spec (compar : List α → List α → δ → Int) (ds : δ) (hw : 0 < w)
    (st : State α δ) {P S : List α} {L : List (Rec α w)}
    (hm : st.mem = P ++ flat L ++ S) (hL : 10 ≤ L.length) :
    ∃ Ls Mid0 Mid G p k st1 c s,
      partition_phase compar ds w st P.length L.length
        = .ok (st1, Locals.mk (P.length + w * k) (P.length + w * (k + Ls.length))
            (P.length + w * (k + Ls.length)) (P.length + w * (k + Ls.length + G.length)))
      ∧ st1.mem = P ++ flat (Ls ++ (Mid ++ G)) ++ S
      ∧ (Ls ++ (Mid ++ G)).Perm L ∧ Mid.Perm (p :: Mid0)
      ∧ (∀ l ∈ Ls, compar l.val p.val ds < 0) ∧ (∀ x ∈ Mid0, compar x.val p.val ds = 0)
      ∧ (∀ g ∈ G, 0 < compar g.val p.val ds)
      ∧ TraceExt ds w P.length L.length c s st.trace st1.trace := by
  obtain ⟨L0, p, j0, j1, j2, q0, q2, st1, c1, a1, a2, a3, -, -, -, -, a4, -, -, -⟩ :=
    pivot_phase_spec compar ds hw st hm hL
  have hlen := a3.length_eq
  simp only [List.length_append, List.length_cons, List.length_nil] at hlen
  have e1 : L.length - 1 = L0.length := by omega
  obtain ⟨E1, Ls1, G1, E21, st2, c2, s2, b1, b2, b3, b4, b5, b6, b7, b8⟩ :=
    partition_loop_spec compar ds hw P S p L.length L.length (L.length + 1) L0 [] [] [] [] st1
      P.length P.length (P.length + w * L0.length) (P.length + w * L0.length)
      (P.length + w * L0.length) (by omega) (by omega) (by simpa using a2)
      (by simp) (by simp) (by simp) (by simp) (by simp) (by simp; omega)
      (by simp) (by simp) (by simp) (by simp)
  have hlen2 := b3.length_eq
  simp only [List.length_append, List.length_cons, List.length_nil] at hlen2
  obtain ⟨Ls2, E2, Q2, G2, st3, s3, d1, d2, d3, d4, d5, d6, d7, d8⟩ :=
    rotate_phase_spec hw ds st2 (n := L.length) b2 (by omega)
      (P.length + w * (E1.length + Ls1.length))
  refine ⟨Ls2, E2 ++ E21, E2 ++ Q2, G2, p, E1.length, st3, c1 + c2 + 0, 1 + s2 + s3, ?_, ?_, ?_,
    ?_, ?_, ?_, ?_, TraceExt_trans (TraceExt_trans a4 b8) d7⟩
  · simp only [partition_phase, a1, ok_bind, scan_phase, e1, b1, d3.length_eq, d6.length_eq]
    exact d1
  · simpa using d2
  · refine List.Perm.trans ?_ a3
    rw [← Multiset.coe_eq_coe] at b3 d3 d4 d5 d6 ⊢
    simp only [← Multiset.coe_add, ← Multiset.cons_coe, ← Multiset.singleton_add,
      Multiset.coe_nil, add_zero, zero_add] at b3 d3 d4 d5 d6 ⊢
    rw [d3, d4, d5, d6, ← b3]
    abel
  · rw [← Multiset.coe_eq_coe] at d5 ⊢
    simp only [← Multiset.coe_add, ← Multiset.cons_coe, ← Multiset.singleton_add,
      Multiset.coe_nil, add_zero, zero_add] at d5 ⊢
    rw [d5]
    abel
  · intro l hl
    exact b5 l (d3.subset hl)
  · intro x hx
    rcases List.mem_append.mp hx with h | h
    · exact b4 x (d4.subset h)
    · exact b7 x h
  · intro g hg
    exact b6 g (d6.subset hg)

theorem sorted_three (compar : List α → List α → δ → Int) (ds : δ)
    (ho : TotalOrder compar ds w) {Ls Mid Mid0 G : List (Rec α w)} {p : Rec α w}
    (hLs : Sorted compar ds Ls) (hG : Sorted compar ds G) (hMid : Mid.Perm (p :: Mid0))
    (h1 : ∀ l ∈ Ls, compar l.val p.val ds < 0) (h2 : ∀ x ∈ Mid0, compar x.val p.val ds = 0)
    (h3 : ∀ g ∈ G, 0 < compar g.val p.val ds) :
    Sorted compar ds (Ls ++ (Mid ++ G)) := by
  have hpp : compar p.val p.val ds = 0 := by
    have := ho.antisymm p p
    have h4 : (compar p.val p.val ds).sign = 0 := by omega
    exact Int.sign_eq_zero_iff_zero.mp h4
  have hmid : ∀ x ∈ Mid, compar x.val p.val ds = 0 := by
    intro x hx
    rcases List.mem_cons.mp (hMid.subset hx) with h | h
    · rw [h]; exact hpp
    · exact h2 x h
  have hmid2 : ∀ x ∈ Mid, compar p.val x.val ds = 0 :=
    fun x hx => TotalOrder_zero_of_zero ho (hmid x hx)
  have hg2 : ∀ g ∈ G, compar p.val g.val ds < 0 :=
    fun g hg => TotalOrder_neg_of_pos ho (h3 g hg)
  unfold Sorted at *
  rw [List.pairwise_append]
  refine ⟨hLs, ?_, ?_⟩
  · rw [List.pairwise_append]
    refine ⟨?_, hG, ?_⟩
    · rw [List.pairwise_iff_forall_sublist]
      intro a b hab
      have ha : a ∈ Mid := hab.subset (by simp)
      have hb : b ∈ Mid := hab.subset (by simp)
      exact ho.trans a p b (le_of_eq (hmid a ha)) (le_of_eq (hmid2 b hb))
    · intro a ha b hb
      exact ho.trans a p b (le_of_eq (hmid a ha)) (le_of_lt (hg2 b hb))
  · intro a ha b hb
    rcases List.mem_append.mp hb with h | h
    · exact ho.trans a p b (le_of_lt (h1 a ha)) (le_of_eq (hmid2 b h))
    · exact ho.trans a p b (le_of_lt (h1 a ha)) (le_of_lt (hg2 b h))

theorem sorted_insert (compar : List α → List α → δ → Int) (ds : δ)
    (ho : TotalOrder compar ds w) {A1 A2 : List (Rec α w)} {x : Rec α w}
    (hs : Sorted compar ds (A1 ++ A2)) (h4 : ∀ a ∈ A2, 0 < compar a.val x.val ds)
    (h5 : ∀ A0 y, A1 = A0 ++ [y] → compar y.val x.val ds ≤ 0) :
    Sorted compar ds (A1 ++ x :: A2) := by
  unfold Sorted at *
  rw [List.pairwise_append] at hs ⊢
  obtain ⟨s1, s2, s3⟩ := hs
  refine ⟨s1, List.pairwise_cons.mpr
    ⟨fun a ha => le_of_lt (TotalOrder_neg_of_pos ho (h4 a ha)), s2⟩, ?_⟩
  intro a ha b hb
  rcases List.mem_cons.mp hb with h | h
  · subst h
    rcases eq_nil_or_snoc A1 with hA | ⟨A0, y, hA⟩
    · subst hA; simp at ha
    · subst hA
      have hy := h5 A0 y rfl
      rcases List.mem_append.mp ha with h | h
      · rw [List.pairwise_append] at s1
        exact ho.trans a y b (s1.2.2 a h y (by simp)) hy
      · simp at h; subst h; exact hy
  · exact s3 a ha b h

theorem sort_r_simple_spec (compar : List α → List α → δ → Int) (ds : δ) (hw : 0 < w)
    (fuel : Nat) :
    ∀ (L : List (Rec α w)) (P S : List α) (st : State α δ), L.length < fuel →
      st.mem = P ++ flat L ++ S →
      ∃ L1 st1 c s, sort_r_simple compar ds w fuel st P.length L.length = .ok st1
        ∧ st1.mem = P ++ flat L1 ++ S ∧ L1.Perm L
        ∧ TraceExt ds w P.length L.length c s st.trace st1.trace
        ∧ (TotalOrder compar ds w → Sorted compar ds L1) := by
  induction fuel with
  | zero => intro L P S st h; omega
  | succ fuel ih =>
    intro L P S st hf hm
    by_cases h10 : L.length < 10
    · cases L with
      | nil =>
        refine ⟨[], st, 0, 0, ?_, hm, List.Perm.refl _, TraceExt_refl _ _ _ _ _, ?_⟩
        · have : ¬ P.length + w < P.length := by omega
          simp [sort_r_simple, insertion_outer, this]
        · intro _; exact List.Pairwise.nil
      | cons r T =>
        obtain ⟨A1, st1, c, s, k1, k2, k3, k4, k5⟩ :=
          insertion_outer_spec compar ds hw P S (r :: T).length ((r :: T).length + 1)
            (P.length + (r :: T).length * w)
            (fun A T1 _ _ => (A ++ T1).Perm (r :: T)
              ∧ (TotalOrder compar ds w → Sorted compar ds A))
            (by
              intro B1 B2 x T1 _ _ hq h4 h5
              refine ⟨?_, fun ho => sorted_insert compar ds ho (hq.2 ho) h4 h5⟩
              refine List.Perm.trans ?_ hq.1
              rw [← Multiset.coe_eq_coe]
              simp only [← Multiset.coe_add, ← Multiset.cons_coe, ← Multiset.singleton_add,
                Multiset.coe_nil, add_zero]
              abel)
            ((r :: T).length + 1) T [r] st (P.length + w) 0 0
            (by simp only [List.length_cons]; omega)
            (by simp only [List.length_cons, List.length_nil]; omega)
            (by simp; omega) (by simpa using hm) (by simp)
            (by simp [Nat.mul_comm, Nat.mul_add, Nat.add_comm]) ⟨by simp, fun _ => by simp [Sorted]⟩
        refine ⟨A1, st1, c, s, ?_, k2, by simpa using k4, k3, k5⟩
        simp only [sort_r_simple, h10, if_true]
        exact k1
    · have hL : 10 ≤ L.length := by omega
      obtain ⟨Ls, Mid0, Mid, G, p, k, st1, c1, s1, a1, a2, a3, a4, a5, a6, a7, a8⟩ :=
        partition_phase_spec compar ds hw st hm hL
      have hlen := a3.length_eq
      have hlen2 := a4.length_eq
      simp only [List.length_append, List.length_cons] at hlen hlen2
      have p1 : psub (P.length + w * (k + Ls.length)) (P.length + w * k)
          = .ok (w * Ls.length) := by
        rw [psub_ok (by simp [Nat.mul_add])]; congr 1; simp [Nat.mul_add]; omega
      have p2 : psub (P.length + w * (k + Ls.length + G.length))
          (P.length + w * (k + Ls.length)) = .ok (w * G.length) := by
        rw [psub_ok (by simp [Nat.mul_add])]; congr 1; simp [Nat.mul_add]; omega
      have d1 : pdiv (w * Ls.length) w = .ok Ls.length := by
        rw [pdiv_ok hw, Nat.mul_div_cancel_left _ hw]
      have d2 : pdiv (w * G.length) w = .ok G.length := by
        rw [pdiv_ok hw, Nat.mul_div_cancel_left _ hw]
      have hlenw := congrArg (fun x => w * x) hlen
      simp only [Nat.mul_add] at hlenw
      have p3 : psub (P.length + L.length * w) (w * G.length)
          = .ok (P.length + w * (Ls.length + Mid.length)) := by
        rw [Nat.mul_comm _ w, psub_ok (by omega)]; congr 1; simp only [Nat.mul_add]; omega
      obtain ⟨Ls1, st2, c2, s2, b1, b2, b3, b4, b5⟩ :=
        ih Ls P (flat (Mid ++ G) ++ S) st1 (by omega) (by simp [a2])
      obtain ⟨G1, st3, c3, s3, e1, e2, e3, e4, e5⟩ :=
        ih G (P ++ flat (Ls1 ++ Mid)) S st2 (by omega) (by simp [b2])
      have hl1 := b3.length_eq
      refine ⟨Ls1 ++ (Mid ++ G1), st3, c1 + c2 + c3, s1 + s2 + s3, ?_, by simp [e2], ?_, ?_, ?_⟩
      · simp only [sort_r_simple, h10, if_false, a1, ok_bind, p1, p2, p3, d1, d2, b1]
        simp only [List.length_append, length_flat, hl1] at e1
        exact e1
      · refine List.Perm.trans ?_ a3
        rw [← Multiset.coe_eq_coe] at b3 e3 ⊢
        simp only [← Multiset.coe_add] at b3 e3 ⊢
        rw [b3, e3]
      · refine TraceExt_trans (TraceExt_trans a8 (TraceExt_widen b4
          (show P.length = P.length + w * 0 by simp) (by omega))) ?_
        exact TraceExt_widen e4
          (show (P ++ flat (Ls1 ++ Mid)).length = P.length + w * (Ls1.length + Mid.length) by
            simp [Nat.mul_add])
          (by omega)
      · intro ho
        exact sorted_three compar ds ho (b5 ho) (e5 ho) a4
          (fun l hl => a5 l (b3.subset hl)) a6 (fun g hg => a7 g (e3.subset hg))

end Loops

/-! ## Auxiliary facts for the claims -/

section Aux

variable {α δ : Type} {w : Nat}

theorem adjSorted_of_sorted {compar : List α → List α → δ → Int} {ds : δ}
    {L : List (Rec α w)} (h : Sorted compar ds L) : AdjSorted compar ds L := by
  intro i r1 r2 h1 h2
  obtain ⟨b1, e1⟩ := List.getElem?_eq_some.mp h1
  obtain ⟨b2, e2⟩ := List.getElem?_eq_some.mp h2
  rw [← e1, ← e2]
  exact List.pairwise_iff_getElem.mp h i (i + 1) b1 b2 (by omega)

theorem sorted_of_adjSorted {compar : List α → List α → δ → Int} {ds : δ}
    (ho : TotalOrder compar ds w) :
    ∀ {L : List (Rec α w)}, AdjSorted compar ds L → Sorted compar ds L := by
  intro L
  induction L with
  | nil => intro _; exact List.Pairwise.nil
  | cons a T ih =>
    intro h
    have hT : AdjSorted compar ds T := by
      intro i r1 r2 h1 h2
      exact h (i + 1) r1 r2 (by simpa using h1) (by simpa using h2)
    have sT := ih hT
    refine List.pairwise_cons.mpr ⟨?_, sT⟩
    cases T with
    | nil => intro b hb; simp at hb
    | cons b T =>
      have hab : compar a.val b.val ds ≤ 0 := h 0 a b (by simp) (by simp)
      intro x hx
      rcases List.mem_cons.mp hx with hx | hx
      · rw [hx]; exact hab
      · exact ho.trans a b x hab ((List.pairwise_cons.mp sT).1 x hx)

theorem int_cmp_total : TotalOrder (fun a b (_ : Unit) => int_cmp a b) () 1 := by
  constructor
  · intro a b
    simp only [int_cmp]
    rw [← Int.neg_sub, Int.sign_neg]
  · intro a b c h1 h2
    simp only [int_cmp] at *
    omega


theorem eq_of_all_eq {A B : List α} {r : α} (hA : ∀ x ∈ A, x = r) (hB : ∀ x ∈ B, x = r)
    (h : A.length = B.length) : A = B := by
  rw [List.eq_replicate_iff.mpr ⟨rfl, hA⟩, List.eq_replicate_iff.mpr ⟨rfl, hB⟩, h]

theorem partition_phase_alleq (compar : List α → List α → δ → Int) (ds : δ) (hw : 0 < w)
    (r : Rec α w) (hr : compar r.val r.val ds = 0) (st : State α δ) {P S : List α}
    {L : List (Rec α w)} (hm : st.mem = P ++ flat L ++ S) (hL : 10 ≤ L.length)
    (hall : ∀ x ∈ L, x = r) :
    ∃ k st1 s,
      partition_phase compar ds w st P.length L.length
        = .ok (st1, Locals.mk (P.length + w * k) (P.length + w * k) (P.length + w * k)
            (P.length + w * k))
      ∧ st1.mem = st.mem
      ∧ TraceExt ds w P.length L.length (L.length + 1) s st.trace st1.trace := by
  obtain ⟨L0, p, j0, j1, j2, q0, q2, st1, c1, a1, a2, a3, -, -, -, -, a4, -, -, a5⟩ :=
    pivot_phase_spec compar ds hw st hm hL
  have hlen := a3.length_eq
  simp only [List.length_append, List.length_cons, List.length_nil] at hlen
  have hall1 : ∀ x ∈ L0 ++ [p], x = r := fun x hx => hall x (a3.subset hx)
  have hp : p = r := hall1 p (by simp)
  have hall0 : ∀ x ∈ L0, x = r := fun x hx => hall1 x (by simp [hx])
  have hc1 : c1 = 2 := by
    rcases a5 with h | ⟨-, a, b, ha, hb, hab⟩
    · exact h
    · rw [hall a ha, hall b hb, hr] at hab
      exact absurd hab (by decide)
  subst hc1
  have e1 : L.length - 1 = L0.length := by omega
  have hlt : P.length < P.length + w * L0.length := by
    have := Nat.mul_pos hw (show 0 < L0.length by omega)
    omega
  obtain ⟨E1, Ls1, U1, U2, st2, c2, s2, b1, b2, b3, b4, b5, b6, b7, b8, b9⟩ :=
    left_scan_spec compar ds hw P S p [] L.length L.length L0 [] [] st1 P.length P.length
      (P.length + w * L0.length) (P.length + w * L0.length) (by omega) (by simpa using a2)
      (by simp) (by simp) (by simp) (by simp) (by simp; omega) (by simp) (by simp)
  have hU2 : U2 = [] := by
    cases U2 with
    | nil => rfl
    | cons u U2 =>
      have h1 := b7 u (by simp)
      have h2 : u = r := hall0 u (by rw [b2]; simp)
      rw [h2, hp, hr] at h1
      exact absurd h1 (by decide)
  subst hU2
  simp only [List.append_nil] at b2
  subst b2
  have hLs1 : Ls1 = [] := by
    cases Ls1 with
    | nil => rfl
    | cons l Ls1 =>
      have h1 := b6 l (by simp)
      have h2 : l = r := hall0 l (b4.subset (by simp))
      rw [h2, hp, hr] at h1
      exact absurd h1 (by decide)
  subst hLs1
  have hlen2 := b4.length_eq
  simp only [List.length_append, List.length_nil, Nat.add_zero, Nat.zero_add,
    List.nil_append, List.append_nil] at hlen2 b1 b3 b4 b9
  obtain ⟨Ls2, E2, Q2, G2, st3, s3, d1, d2, d3, d4, d5, d6, d7, d8⟩ :=
    rotate_phase_spec hw ds st2 (n := L.length) (E := E1) (G := []) (p := p)
      (show st2.mem = P ++ flat (E1 ++ ([] ++ ([] ++ ([] ++ [p])))) ++ S by simpa using b3)
      (by simp; omega) (P.length + w * E1.length)
  have hLs2 : Ls2 = [] := List.Perm.eq_nil d3
  have hG2 : G2 = [] := List.Perm.eq_nil d6
  subst hLs2 hG2
  simp only [List.length_nil, Nat.add_zero, List.nil_append, List.append_nil] at d1 d2 d5
  rw [hlen2] at b1 d1
  refine ⟨L0.length, st3, 1 + s2 + s3, ?_, ?_, ?_⟩
  · simp only [partition_phase, a1, ok_bind, scan_phase, e1, partition_loop, hlt, if_true, b1,
      ge_iff_le, Nat.le_refl, pure_eq_ok]
    exact d1
  · have hE : E2 ++ Q2 = L := by
      refine eq_of_all_eq (r := r) ?_ hall ?_
      · intro x hx
        rcases List.mem_append.mp hx with h | h
        · exact hall0 x (b4.subset (d4.subset h))
        · rcases List.mem_singleton.mp (d5.subset h) with h2
          rw [h2]; exact hp
      · have h1 := d4.length_eq
        have h2 := d5.length_eq
        simp only [List.length_append, List.length_cons, List.length_nil] at h1 h2 ⊢
        omega
    rw [d2, hm, hE]
  · have t := TraceExt_trans (TraceExt_trans a4 b8) d7
    have e : 2 + c2 + 0 = L.length + 1 := by simp at b9; omega
    rw [e] at t
    exact t

theorem sort_r_simple_zero (compar : List α → List α → δ → Int) (ds : δ) (w fuel : Nat)
    (st : State α δ) (b : Nat) : sort_r_simple compar ds w (fuel + 1) st b 0 = .ok st := by
  simp [sort_r_simple, insertion_outer]

theorem sort_r_simple_one (compar : List α → List α → δ → Int) (ds : δ) (w fuel : Nat)
    (st : State α δ) (b : Nat) : sort_r_simple compar ds w (fuel + 1) st b 1 = .ok st := by
  simp [sort_r_simple, insertion_outer]

theorem sort_r_simple_alleq (compar : List α → List α → δ → Int) (ds : δ) (hw : 0 < w)
    (r : Rec α w) (hr : compar r.val r.val ds = 0) (fuel : Nat) (L : List (Rec α w))
    (P S : List α) (st : State α δ) (hf : L.length < fuel) (hm : st.mem = P ++ flat L ++ S)
    (hall : ∀ x ∈ L, x = r) :
    ∃ st1 c s, sort_r_simple compar ds w fuel st P.length L.length = .ok st1
      ∧ st1.mem = st.mem ∧ TraceExt ds w P.length L.length c s st.trace st1.trace
      ∧ c ≤ L.length + 1 ∧ (10 ≤ L.length → c = L.length + 1) := by
  obtain ⟨f, rfl⟩ : ∃ f, fuel = f + 1 := ⟨fuel - 1, by omega⟩
  by_cases h10 : L.length < 10
  · cases L with
    | nil =>
      refine ⟨st, 0, 0, sort_r_simple_zero _ _ _ _ _ _, rfl, TraceExt_refl _ _ _ _ _,
        by omega, by simp⟩
    | cons x T =>
      obtain ⟨A1, st1, c, s, k1, k2, k3, k4, k5, k6⟩ :=
        insertion_outer_spec compar ds hw P S (x :: T).length ((x :: T).length + 1)
          (P.length + (x :: T).length * w)
          (fun A T1 c _ => (∀ y ∈ A ++ T1, y = r) ∧ A.length + T1.length = (x :: T).length
            ∧ c + 1 = A.length)
          (by
            intro B1 B2 y T1 c _ hq h4 h5
            have hB2 : B2 = [] := by
              cases B2 with
              | nil => rfl
              | cons b B2 =>
                have h1 := h4 b (by simp)
                rw [hq.1 b (by simp), hq.1 y (by simp), hr] at h1
                exact absurd h1 (by decide)
            subst hB2
            have h2 := hq.2.1
            have h3 := hq.2.2
            simp only [List.length_append, List.length_cons, List.length_nil,
              List.append_nil] at h2 h3 ⊢
            refine ⟨?_, by omega, by omega⟩
            intro z hz
            exact hq.1 z (by simp at hz ⊢; tauto))
          ((x :: T).length + 1) T [x] st (P.length + w) 0 0
          (by simp only [List.length_cons]; omega)
          (by simp only [List.length_cons, List.length_nil]; omega)
          (by simp; omega) (by simpa using hm) (by simp)
          (by simp [Nat.mul_comm, Nat.mul_add, Nat.add_comm])
          ⟨by simpa using hall, by simp; omega, by simp⟩
      have hA : A1 = x :: T :=
        eq_of_all_eq (r := r) (fun y hy => k4 y (by simp [hy])) hall (by simpa using k5)
      refine ⟨st1, c, s, ?_, by rw [k2, hm, hA], k3, ?_, by intro h; omega⟩
      · simp only [sort_r_simple, h10, if_true]
        exact k1
      · simp at k6 k5 ⊢; omega
  · have hL : 10 ≤ L.length := by omega
    obtain ⟨k, st1, s, a1, a2, a3⟩ := partition_phase_alleq compar ds hw r hr st hm hL hall
    obtain ⟨g, rfl⟩ : ∃ g, f = g + 1 := ⟨f - 1, by omega⟩
    refine ⟨st1, L.length + 1, s, ?_, a2, a3, Nat.le_refl _, fun _ => rfl⟩
    have p1 : psub (P.length + w * k) (P.length + w * k) = .ok 0 := by
      rw [psub_ok (Nat.le_refl _)]; simp
    have p2 : psub (P.length + L.length * w) 0 = .ok (P.length + L.length * w) := by
      rw [psub_ok (Nat.zero_le _)]; simp
    have d0 : pdiv 0 w = .ok 0 := by rw [pdiv_ok hw]; simp
    rw [sort_r_simple]
    simp only [h10, if_false, a1, ok_bind, p1, p2, d0, sort_r_simple_zero]


theorem sorted_perm_unique (compar : List α → List α → δ → Int) (ds : δ)
    (ho : TotalOrder compar ds w)
    (heq : ∀ a b : Rec α w, compar a.val b.val ds = 0 → a = b) {L1 L2 : List (Rec α w)}
    (hp : L1.Perm L2) (h1 : Sorted compar ds L1) (h2 : Sorted compar ds L2) : L1 = L2 := by
  haveI : IsAntisymm (Rec α w) (fun x y => compar x.val y.val ds ≤ 0) :=
    ⟨fun a b hab hba => by
      rcases lt_or_eq_of_le hab with h | h
      · have := TotalOrder_pos_of_neg ho h
        omega
      · exact heq a b h⟩
  exact List.eq_of_perm_of_sorted hp h1 h2


theorem int_cmp_eq (a b : Rec Int 1) (h : int_cmp a.val b.val = 0) : a = b := by
  obtain ⟨a, ha⟩ := a
  obtain ⟨b, hb⟩ := b
  match a, ha, b, hb with
  | [x], _, [y], _ =>
    simp only [int_cmp, List.headD_cons] at h
    have : x = y := by omega
    subst this
    rfl


theorem SORT_R_SWAP_comm (mem : List α) (a b : Nat) : SORT_R_SWAP mem a b = SORT_R_SWAP mem b a := by
  unfold SORT_R_SWAP
  cases ha : mem[a]? with
  | none => cases hb : mem[b]? <;> rfl
  | some x =>
    cases hb : mem[b]? with
    | none => rfl
    | some y =>
      simp only
      congr 1
      by_cases hab : a = b
      · subst hab
        rw [ha] at hb
        cases hb
        rfl
      · exact List.set_comm _ _ _ hab

theorem sort_r_swap_loop_comm (n : Nat) : ∀ (mem : List α) (a b : Nat),
    sort_r_swap_loop mem a b n = sort_r_swap_loop mem b a n := by
  induction n with
  | zero => intro mem a b; rfl
  | succ n ih =>
    intro mem a b
    simp only [sort_r_swap_loop]
    rw [SORT_R_SWAP_comm mem a b]
    cases SORT_R_SWAP mem b a with
    | error e => rfl
    | ok m => simp only [ok_bind]; exact ih m (a + 1) (b + 1)


theorem chunks_exist (w : Nat) (nel : Nat) : ∀ (m : List α), w * nel ≤ m.length →
    ∃ (L : List (Rec α w)) (S : List α), m = flat L ++ S ∧ L.length = nel := by
  induction nel with
  | zero => intro m _; exact ⟨[], m, rfl, rfl⟩
  | succ n ih =>
    intro m h
    rw [Nat.mul_add, Nat.mul_one] at h
    obtain ⟨L, S, h1, h2⟩ := ih (m.drop w) (by rw [List.length_drop]; omega)
    refine ⟨⟨m.take w, by rw [List.length_take]; omega⟩ :: L, S, ?_, by simp [h2]⟩
    rw [flat_cons, List.append_assoc, ← h1, List.take_append_drop]

theorem layout_exists (w : Nat) (mem : List α) (b nel : Nat) (h : b + w * nel ≤ mem.length) :
    ∃ (P : List α) (L : List (Rec α w)) (S : List α),
      mem = P ++ flat L ++ S ∧ P.length = b ∧ L.length = nel := by
  obtain ⟨L, S, h1, h2⟩ := chunks_exist w nel (mem.drop b) (by rw [List.length_drop]; omega)
  refine ⟨mem.take b, L, S, ?_, by rw [List.length_take]; omega, h2⟩
  rw [List.append_assoc, ← h1, List.take_append_drop]

end Aux

/-! ## Forgetting the context argument of the trace -/

section Erase

variable {α δ : Type}

@[simp] theorem erase_mem (st : State α δ) : st.erase.mem = st.mem := rfl

theorem map_ok {ε β γ : Type} (g : β → γ) (x : β) :
    Except.map g (Except.ok x : Except ε β) = Except.ok (g x) := rfl

theorem map_error {ε β γ : Type} (g : β → γ) (e : ε) :
    Except.map g (Except.error e : Except ε β) = Except.error e := rfl

theorem sort_r_swap_erase (st : State α δ) (a b n : Nat) :
    sort_r_swap st.erase a b n = (sort_r_swap st a b n).map State.erase := by
  simp only [sort_r_swap, erase_mem]
  cases sort_r_swap_loop st.mem a b n with
  | error e => rfl
  | ok m => simp [map_ok, State.erase, Event.erase]

theorem call_compar_erase (compar : List α → List α → δ → Int) (ds : δ) (w : Nat)
    (st : State α δ) (a b : Nat) :
    call_compar (fun x y (_ : Unit) => compar x y ds) () w st.erase a b
      = (call_compar compar ds w st a b).map (fun r => (r.1, r.2.erase)) := by
  simp only [call_compar, erase_mem]
  cases record st.mem a w with
  | error e => rfl
  | ok ra =>
    cases record st.mem b w with
    | error e => rfl
    | ok rb => simp [map_ok, State.erase, Event.erase]

theorem sort_r_cmpswap_erase (compar : List α → List α → δ → Int) (ds : δ) (w : Nat)
    (st : State α δ) (a b : Nat) :
    sort_r_cmpswap st.erase a b w (fun x y (_ : Unit) => compar x y ds) ()
      = (sort_r_cmpswap st a b w compar ds).map (fun r => (r.1, r.2.erase)) := by
  simp only [sort_r_cmpswap, call_compar_erase]
  cases call_compar compar ds w st a b with
  | error e => rfl
  | ok r =>
    obtain ⟨c, st1⟩ := r
    simp only [map_ok, ok_bind]
    by_cases h : c > 0
    · simp only [h, if_true, sort_r_swap_erase]
      cases sort_r_swap st1 a b w with
      | error e => rfl
      | ok s => rfl
    · simp only [h, if_false]
      rfl

theorem sort_r_swap_blocks_erase (st : State α δ) (ptr na nb : Nat) :
    sort_r_swap_blocks st.erase ptr na nb
      = (sort_r_swap_blocks st ptr na nb).map State.erase := by
  simp only [sort_r_swap_blocks]
  by_cases h0 : na > 0 ∧ nb > 0
  · simp only [h0, and_self, if_true]
    by_cases h1 : na > nb
    · simp only [h1, if_true, sort_r_swap_erase]
    · simp only [h1, if_false, sort_r_swap_erase]
  · simp only [h0, if_false]
    rfl

theorem insertion_inner_erase (compar : List α → List α → δ → Int) (ds : δ) (b w : Nat)
    (fuel : Nat) : ∀ (st : State α δ) (pj : Nat),
    insertion_inner (fun x y (_ : Unit) => compar x y ds) () b w fuel st.erase pj
      = (insertion_inner compar ds b w fuel st pj).map State.erase := by
  induction fuel with
  | zero => intro st pj; rfl
  | succ fuel ih =>
    intro st pj
    simp only [insertion_inner]
    by_cases h : pj > b
    · simp only [h, if_true]
      cases psub pj w with
      | error e => rfl
      | ok a =>
        simp only [ok_bind, sort_r_cmpswap_erase]
        cases sort_r_cmpswap st a pj w compar ds with
        | error e => rfl
        | ok r =>
          obtain ⟨c, st1⟩ := r
          simp only [map_ok, ok_bind]
          by_cases h2 : c ≠ 0
          · simp only [if_pos h2, ih]
          · simp only [if_neg h2]
            rfl
    · simp only [h, if_false]
      rfl

theorem insertion_outer_erase (compar : List α → List α → δ → Int) (ds : δ) (b w e n : Nat)
    (fuel : Nat) : ∀ (st : State α δ) (pi : Nat),
    insertion_outer (fun x y (_ : Unit) => compar x y ds) () b w e n fuel st.erase pi
      = (insertion_outer compar ds b w e n fuel st pi).map State.erase := by
  induction fuel with
  | zero => intro st pi; rfl
  | succ fuel ih =>
    intro st pi
    simp only [insertion_outer]
    by_cases h : pi < e
    · simp only [h, if_true, insertion_inner_erase]
      cases insertion_inner compar ds b w n st pi with
      | error e => rfl
      | ok st1 => simp only [map_ok, ok_bind, ih]
    · simp only [h, if_false]
      rfl

theorem pivot_select_erase (compar : List α → List α → δ → Int) (ds : δ) (w : Nat)
    (st : State α δ) (l : Cand) :
    pivot_select (fun x y (_ : Unit) => compar x y ds) () w st.erase l
      = (pivot_select compar ds w st l).map (fun r => (r.1, r.2.erase)) := by
  simp only [pivot_select, call_compar_erase]
  cases call_compar compar ds w st l.l0 l.l1 with
  | error e => rfl
  | ok r1 =>
    obtain ⟨c1, st1⟩ := r1
    simp only [map_ok, ok_bind, call_compar_erase]
    cases call_compar compar ds w st1 (if c1 > 0 then { l with l0 := l.l1, l1 := l.l0 } else l).l1
        (if c1 > 0 then { l with l0 := l.l1, l1 := l.l0 } else l).l2 with
    | error e => rfl
    | ok r2 =>
      obtain ⟨c2, st2⟩ := r2
      simp only [map_ok, ok_bind]
      by_cases h2 : c2 > 0
      · simp only [h2, if_true, call_compar_erase]
        cases call_compar compar ds w st2
            (if c1 > 0 then { l with l0 := l.l1, l1 := l.l0 } else l).l0
            (if c1 > 0 then { l with l0 := l.l1, l1 := l.l0 } else l).l2 with
        | error e => rfl
        | ok r3 => rfl
      · simp only [h2, if_false]
        rfl

theorem left_scan_erase (compar : List α → List α → δ → Int) (ds : δ) (w pivot pr : Nat)
    (fuel : Nat) : ∀ (st : State α δ) (ple pl : Nat),
    left_scan (fun x y (_ : Unit) => compar x y ds) () w pivot pr fuel st.erase ple pl
      = (left_scan compar ds w pivot pr fuel st ple pl).map (fun r => (r.1.erase, r.2)) := by
  induction fuel with
  | zero => intro st ple pl; rfl
  | succ fuel ih =>
    intro st ple pl
    simp only [left_scan]
    by_cases h : pl < pr
    · simp only [h, if_true, call_compar_erase]
      cases call_compar compar ds w st pl pivot with
      | error e => rfl
      | ok r =>
        obtain ⟨c, st1⟩ := r
        simp only [map_ok, ok_bind]
        by_cases h1 : c > 0
        · simp only [if_pos h1]
          rfl
        · simp only [if_neg h1]
          by_cases h2 : c = 0
          · simp only [if_pos h2]
            by_cases h3 : ple < pl
            · simp only [if_pos h3, sort_r_swap_erase]
              cases sort_r_swap st1 ple pl w with
              | error e => rfl
              | ok st2 => simp only [map_ok, ok_bind, ih]
            · simp only [if_neg h3, pure_eq_ok, ok_bind, ih]
          · simp only [if_neg h2, ih]
    · simp only [h, if_false]
      rfl

theorem right_scan_erase (compar : List α → List α → δ → Int) (ds : δ) (w pivot : Nat)
    (fuel : Nat) : ∀ (st : State α δ) (pl pr pre : Nat),
    right_scan (fun x y (_ : Unit) => compar x y ds) () w pivot fuel st.erase pl pr pre
      = (right_scan compar ds w pivot fuel st pl pr pre).map (fun r => (r.1.erase, r.2)) := by
  induction fuel with
  | zero => intro st pl pr pre; rfl
  | succ fuel ih =>
    intro st pl pr pre
    simp only [right_scan]
    by_cases h : pl < pr
    · simp only [h, if_true]
      cases psub pr w with
      | error e => rfl
      | ok pr1 =>
        simp only [ok_bind, call_compar_erase]
        cases call_compar compar ds w st pr1 pivot with
        | error e => rfl
        | ok r =>
          obtain ⟨c, st1⟩ := r
          simp only [map_ok, ok_bind]
          by_cases h1 : c = 0
          · simp only [if_pos h1]
            cases psub pre w with
            | error e => rfl
            | ok pre1 =>
              simp only [ok_bind]
              by_cases h3 : pr1 < pre1
              · simp only [if_pos h3, sort_r_swap_erase]
                cases sort_r_swap st1 pr1 pre1 w with
                | error e => rfl
                | ok st2 => simp only [map_ok, ok_bind, ih]
              · simp only [if_neg h3, pure_eq_ok, ok_bind, ih]
          · simp only [if_neg h1]
            by_cases h2 : c < 0
            · simp only [if_pos h2]
              by_cases h3 : pl < pr1
              · simp only [if_pos h3, sort_r_swap_erase]
                cases sort_r_swap st1 pl pr1 w with
                | error e => rfl
                | ok st2 => rfl
              · simp only [if_neg h3]
                rfl
            · simp only [if_neg h2, ih]
    · simp only [h, if_false]
      rfl

theorem partition_loop_erase (compar : List α → List α → δ → Int) (ds : δ) (w pivot n : Nat)
    (fuel : Nat) : ∀ (st : State α δ) (loc : Locals),
    partition_loop (fun x y (_ : Unit) => compar x y ds) () w pivot n fuel st.erase loc
      = (partition_loop compar ds w pivot n fuel st loc).map (fun r => (r.1.erase, r.2)) := by
  induction fuel with
  | zero => intro st loc; rfl
  | succ fuel ih =>
    intro st loc
    simp only [partition_loop]
    by_cases h : loc.pl < loc.pr
    · simp only [h, if_true, left_scan_erase]
      cases left_scan compar ds w pivot loc.pr n st loc.ple loc.pl with
      | error e => rfl
      | ok r =>
        obtain ⟨st1, ple, pl⟩ := r
        simp only [map_ok, ok_bind]
        by_cases h1 : pl ≥ loc.pr
        · simp only [if_pos h1]
          rfl
        · simp only [if_neg h1, right_scan_erase]
          cases right_scan compar ds w pivot n st1 pl loc.pr loc.pre with
          | error e => rfl
          | ok r2 =>
            obtain ⟨st2, pl2, pr2, pre2⟩ := r2
            simp only [map_ok, ok_bind, ih]
    · simp only [h, if_false]
      rfl

theorem pivot_phase_erase (compar : List α → List α → δ → Int) (ds : δ) (w : Nat)
    (st : State α δ) (b nel : Nat) :
    pivot_phase (fun x y (_ : Unit) => compar x y ds) () w st.erase b nel
      = (pivot_phase compar ds w st b nel).map (fun r => (r.1.erase, r.2)) := by
  simp only [pivot_phase]
  cases psub (b + w * (nel - 1)) w with
  | error e => rfl
  | ok l2 =>
    simp only [ok_bind, pivot_select_erase]
    cases pivot_select compar ds w st
        { l0 := b + w, l1 := b + w * (nel / 2), l2 := l2 } with
    | error e => rfl
    | ok r =>
      obtain ⟨l, st1⟩ := r
      simp only [map_ok, ok_bind]
      by_cases h : l.l1 ≠ b + w * (nel - 1)
      · simp only [if_pos h, sort_r_swap_erase]
        cases sort_r_swap st1 l.l1 (b + w * (nel - 1)) w with
        | error e => rfl
        | ok st2 => rfl
      · simp only [if_neg h]
        rfl

theorem rotate_phase_erase (st : State α δ) (b nel w : Nat) (loc : Locals) :
    rotate_phase st.erase b nel w loc
      = (rotate_phase st b nel w loc).map (fun r => (r.1.erase, r.2)) := by
  simp only [rotate_phase]
  cases psub loc.ple b with
  | error e => rfl
  | ok na =>
    simp only [ok_bind]
    cases psub loc.pr loc.ple with
    | error e => rfl
    | ok nb =>
      simp only [ok_bind, sort_r_swap_blocks_erase]
      cases sort_r_swap_blocks st b na nb with
      | error e => rfl
      | ok st4 =>
        simp only [map_ok, ok_bind]
        cases psub loc.pre loc.pr with
        | error e => rfl
        | ok na2 =>
          simp only [ok_bind]
          cases psub (b + nel * w) loc.pre with
          | error e => rfl
          | ok nb2 =>
            simp only [ok_bind, sort_r_swap_blocks_erase]
            cases sort_r_swap_blocks st4 loc.pr na2 nb2 with
            | error e => rfl
            | ok st5 => rfl

theorem partition_phase_erase (compar : List α → List α → δ → Int) (ds : δ) (w : Nat)
    (st : State α δ) (b nel : Nat) :
    partition_phase (fun x y (_ : Unit) => compar x y ds) () w st.erase b nel
      = (partition_phase compar ds w st b nel).map (fun r => (r.1.erase, r.2)) := by
  simp only [partition_phase, pivot_phase_erase]
  cases pivot_phase compar ds w st b nel with
  | error e => rfl
  | ok r =>
    obtain ⟨st1, l⟩ := r
    simp only [map_ok, ok_bind, scan_phase, partition_loop_erase]
    cases partition_loop compar ds w (b + w * (nel - 1)) nel (nel + 1) st1
        { ple := b, pl := b, pr := b + w * (nel - 1), pre := b + w * (nel - 1) } with
    | error e => rfl
    | ok r3 =>
      obtain ⟨st3, loc⟩ := r3
      simp only [map_ok, ok_bind, rotate_phase_erase]

theorem sort_r_simple_erase (compar : List α → List α → δ → Int) (ds : δ) (w : Nat)
    (fuel : Nat) : ∀ (st : State α δ) (b nel : Nat),
    sort_r_simple (fun x y (_ : Unit) => compar x y ds) () w fuel st.erase b nel
      = (sort_r_simple compar ds w fuel st b nel).map State.erase := by
  induction fuel with
  | zero => intro st b nel; rfl
  | succ fuel ih =>
    intro st b nel
    simp only [sort_r_simple]
    by_cases h : nel < 10
    · simp only [if_pos h, insertion_outer_erase]
    · simp only [if_neg h, partition_phase_erase]
      cases partition_phase compar ds w st b nel with
      | error e => rfl
      | ok r =>
        obtain ⟨st1, loc⟩ := r
        simp only [map_ok, ok_bind]
        cases psub loc.pl loc.ple with
        | error e => rfl
        | ok d1 =>
          simp only [ok_bind]
          cases pdiv d1 w with
          | error e => rfl
          | ok n1 =>
            simp only [ok_bind, ih]
            cases sort_r_simple compar ds w fuel st1 b n1 with
            | error e => rfl
            | ok st2 =>
              simp only [map_ok, ok_bind]
              cases psub loc.pre loc.pr with
              | error e => rfl
              | ok d2 =>
                simp only [ok_bind]
                cases psub (b + nel * w) d2 with
                | error e => rfl
                | ok b2 =>
                  simp only [ok_bind]
                  cases pdiv d2 w with
                  | error e => rfl
                  | ok n2 => simp only [ok_bind, ih]

end Erase

/-! ## Every call of `sort_r_swap` has a positive length -/

section Positive

variable {α δ ε β γ : Type}

theorem bind_eq_ok {x : Except ε β} {f : β → Except ε γ} {y : γ} (h : (x >>= f) = .ok y) :
    ∃ a, x = .ok a ∧ f a = .ok y := by
  cases x with
  | error e => cases h
  | ok a => exact ⟨a, rfl, h⟩

theorem SwapPos_refl (tr : List (Event δ)) : SwapPos tr tr :=
  ⟨[], by simp, by simp⟩

theorem SwapPos_trans {tr tr1 tr2 : List (Event δ)} (h1 : SwapPos tr tr1)
    (h2 : SwapPos tr1 tr2) : SwapPos tr tr2 := by
  obtain ⟨e1, rfl, p1⟩ := h1
  obtain ⟨e2, rfl, p2⟩ := h2
  refine ⟨e1 ++ e2, by simp, ?_⟩
  intro a b m hm
  rcases List.mem_append.mp hm with h | h
  · exact p1 a b m h
  · exact p2 a b m h

theorem sort_r_swap_pos {st st1 : State α δ} {a b n : Nat} (hn : 0 < n)
    (h : sort_r_swap st a b n = .ok st1) : SwapPos st.trace st1.trace := by
  simp only [sort_r_swap] at h
  obtain ⟨m, -, h2⟩ := bind_eq_ok h
  cases h2
  refine ⟨[Event.swap a b n], rfl, ?_⟩
  intro x y z hz
  simp only [List.mem_singleton, Event.swap.injEq] at hz
  omega

theorem call_compar_pos {compar : List α → List α → δ → Int} {ds : δ} {w : Nat}
    {st : State α δ} {a b : Nat} {r : Int × State α δ}
    (h : call_compar compar ds w st a b = .ok r) : SwapPos st.trace r.2.trace := by
  simp only [call_compar] at h
  obtain ⟨ra, -, h2⟩ := bind_eq_ok h
  obtain ⟨rb, -, h3⟩ := bind_eq_ok h2
  cases h3
  refine ⟨[Event.compar a b ds], rfl, ?_⟩
  intro x y z hz
  simp at hz

theorem sort_r_cmpswap_pos {compar : List α → List α → δ → Int} {ds : δ} {w : Nat}
    (hw : 0 < w) {st : State α δ} {a b : Nat} {r : Int × State α δ}
    (h : sort_r_cmpswap st a b w compar ds = .ok r) : SwapPos st.trace r.2.trace := by
  simp only [sort_r_cmpswap] at h
  obtain ⟨⟨c, st1⟩, h1, h2⟩ := bind_eq_ok h
  have p1 := call_compar_pos h1
  by_cases hc : c > 0
  · simp only [if_pos hc] at h2
    obtain ⟨st2, h3, h4⟩ := bind_eq_ok h2
    cases h4
    exact SwapPos_trans p1 (sort_r_swap_pos hw h3)
  · simp only [if_neg hc] at h2
    cases h2
    exact p1

theorem sort_r_swap_blocks_pos {st st1 : State α δ} {ptr na nb : Nat}
    (h : sort_r_swap_blocks st ptr na nb = .ok st1) : SwapPos st.trace st1.trace := by
  simp only [sort_r_swap_blocks] at h
  by_cases h0 : na > 0 ∧ nb > 0
  · simp only [if_pos h0] at h
    by_cases h1 : na > nb
    · simp only [if_pos h1] at h
      exact sort_r_swap_pos h0.2 h
    · simp only [if_neg h1] at h
      exact sort_r_swap_pos h0.1 h
  · simp only [if_neg h0] at h
    cases h
    exact SwapPos_refl _

theorem insertion_inner_pos (compar : List α → List α → δ → Int) (ds : δ) (b w : Nat)
    (hw : 0 < w) (fuel : Nat) : ∀ (st st1 : State α δ) (pj : Nat),
    insertion_inner compar ds b w fuel st pj = .ok st1 → SwapPos st.trace st1.trace := by
  induction fuel with
  | zero => intro st st1 pj h; cases h
  | succ fuel ih =>
    intro st st1 pj h
    simp only [insertion_inner] at h
    by_cases hp : pj > b
    · simp only [if_pos hp] at h
      obtain ⟨a, -, h2⟩ := bind_eq_ok h
      obtain ⟨⟨c, st2⟩, h3, h4⟩ := bind_eq_ok h2
      have p1 := sort_r_cmpswap_pos hw h3
      by_cases hc : c ≠ 0
      · simp only [if_pos hc] at h4
        obtain ⟨pj1, -, h5⟩ := bind_eq_ok h4
        exact SwapPos_trans p1 (ih _ _ _ h5)
      · simp only [if_neg hc] at h4
        cases h4
        exact p1
    · simp only [if_neg hp] at h
      cases h
      exact SwapPos_refl _

theorem insertion_outer_pos (compar : List α → List α → δ → Int) (ds : δ) (b w e n : Nat)
    (hw : 0 < w) (fuel : Nat) : ∀ (st st1 : State α δ) (pi : Nat),
    insertion_outer compar ds b w e n fuel st pi = .ok st1 → SwapPos st.trace st1.trace := by
  induction fuel with
  | zero => intro st st1 pi h; cases h
  | succ fuel ih =>
    intro st st1 pi h
    simp only [insertion_outer] at h
    by_cases hp : pi < e
    · simp only [if_pos hp] at h
      obtain ⟨st2, h2, h3⟩ := bind_eq_ok h
      exact SwapPos_trans (insertion_inner_pos compar ds b w hw n _ _ _ h2) (ih _ _ _ h3)
    · simp only [if_neg hp] at h
      cases h
      exact SwapPos_refl _

theorem pivot_select_pos {compar : List α → List α → δ → Int} {ds : δ} {w : Nat}
    {st : State α δ} {l : Cand} {r : Cand × State α δ}
    (h : pivot_select compar ds w st l = .ok r) : SwapPos st.trace r.2.trace := by
  simp only [pivot_select] at h
  obtain ⟨⟨c1, st1⟩, h1, h2⟩ := bind_eq_ok h
  obtain ⟨⟨c2, st2⟩, h3, h4⟩ := bind_eq_ok h2
  have p1 := SwapPos_trans (call_compar_pos h1) (call_compar_pos h3)
  by_cases hc : c2 > 0
  · simp only [if_pos hc] at h4
    obtain ⟨⟨c3, st3⟩, h5, h6⟩ := bind_eq_ok h4
    cases h6
    exact SwapPos_trans p1 (call_compar_pos h5)
  · simp only [if_neg hc] at h4
    cases h4
    exact p1

theorem pivot_phase_pos {compar : List α → List α → δ → Int} {ds : δ} {w : Nat} (hw : 0 < w)
    {st : State α δ} {b nel : Nat} {r : State α δ × Cand}
    (h : pivot_phase compar ds w st b nel = .ok r) : SwapPos st.trace r.1.trace := by
  simp only [pivot_phase] at h
  obtain ⟨l2, -, h2⟩ := bind_eq_ok h
  obtain ⟨⟨l, st1⟩, h3, h4⟩ := bind_eq_ok h2
  have p1 := pivot_select_pos h3
  dsimp only at h4
  by_cases hc : l.l1 ≠ b + w * (nel - 1)
  · simp only [if_pos hc] at h4
    obtain ⟨st2, h5, h6⟩ := bind_eq_ok h4
    cases h6
    exact SwapPos_trans p1 (sort_r_swap_pos hw h5)
  · simp only [if_neg hc] at h4
    cases h4
    exact p1

theorem left_scan_pos (compar : List α → List α → δ → Int) (ds : δ) (w pivot pr : Nat)
    (hw : 0 < w) (fuel : Nat) : ∀ (st : State α δ) (ple pl : Nat) (r : State α δ × Nat × Nat),
    left_scan compar ds w pivot pr fuel st ple pl = .ok r → SwapPos st.trace r.1.trace := by
  induction fuel with
  | zero => intro st ple pl r h; cases h
  | succ fuel ih =>
    intro st ple pl r h
    simp only [left_scan] at h
    by_cases hp : pl < pr
    · simp only [if_pos hp] at h
      obtain ⟨⟨c, st1⟩, h1, h2⟩ := bind_eq_ok h
      have p1 := call_compar_pos h1
      dsimp only at h2
      by_cases c1 : c > 0
      · simp only [if_pos c1] at h2
        cases h2
        exact p1
      · simp only [if_neg c1] at h2
        by_cases c2 : c = 0
        · simp only [if_pos c2] at h2
          by_cases c3 : ple < pl
          · simp only [if_pos c3] at h2
            obtain ⟨st2, h3, h4⟩ := bind_eq_ok h2
            exact SwapPos_trans (SwapPos_trans p1 (sort_r_swap_pos hw h3)) (ih _ _ _ _ h4)
          · simp only [if_neg c3] at h2
            obtain ⟨st2, h3, h4⟩ := bind_eq_ok h2
            cases h3
            exact SwapPos_trans p1 (ih _ _ _ _ h4)
        · simp only [if_neg c2] at h2
          exact SwapPos_trans p1 (ih _ _ _ _ h2)
    · simp only [if_neg hp] at h
      cases h
      exact SwapPos_refl _

theorem right_scan_pos (compar : List α → List α → δ → Int) (ds : δ) (w pivot : Nat)
    (hw : 0 < w) (fuel : Nat) :
    ∀ (st : State α δ) (pl pr pre : Nat) (r : State α δ × Nat × Nat × Nat),
    right_scan compar ds w pivot fuel st pl pr pre = .ok r → SwapPos st.trace r.1.trace := by
  induction fuel with
  | zero => intro st pl pr pre r h; cases h
  | succ fuel ih =>
    intro st pl pr pre r h
    simp only [right_scan] at h
    by_cases hp : pl < pr
    · simp only [if_pos hp] at h
      obtain ⟨pr1, -, h0⟩ := bind_eq_ok h
      obtain ⟨⟨c, st1⟩, h1, h2⟩ := bind_eq_ok h0
      have p1 := call_compar_pos h1
      dsimp only at h2
      by_cases c1 : c = 0
      · simp only [if_pos c1] at h2
        obtain ⟨pre1, -, h3⟩ := bind_eq_ok h2
        by_cases c3 : pr1 < pre1
        · simp only [if_pos c3] at h3
          obtain ⟨st2, h4, h5⟩ := bind_eq_ok h3
          exact SwapPos_trans (SwapPos_trans p1 (sort_r_swap_pos hw h4)) (ih _ _ _ _ _ h5)
        · simp only [if_neg c3] at h3
          obtain ⟨st2, h4, h5⟩ := bind_eq_ok h3
          cases h4
          exact SwapPos_trans p1 (ih _ _ _ _ _ h5)
      · simp only [if_neg c1] at h2
        by_cases c2 : c < 0
        · simp only [if_pos c2] at h2
          by_cases c3 : pl < pr1
          · simp only [if_pos c3] at h2
            obtain ⟨st2, h4, h5⟩ := bind_eq_ok h2
            cases h5
            exact SwapPos_trans p1 (sort_r_swap_pos hw h4)
          · simp only [if_neg c3] at h2
            obtain ⟨st2, h4, h5⟩ := bind_eq_ok h2
            cases h4
            cases h5
            exact p1
        · simp only [if_neg c2] at h2
          exact SwapPos_trans p1 (ih _ _ _ _ _ h2)
    · simp only [if_neg hp] at h
      cases h
      exact SwapPos_refl _

theorem partition_loop_pos (compar : List α → List α → δ → Int) (ds : δ) (w pivot n : Nat)
    (hw : 0 < w) (fuel : Nat) : ∀ (st : State α δ) (loc : Locals) (r : State α δ × Locals),
    partition_loop compar ds w pivot n fuel st loc = .ok r → SwapPos st.trace r.1.trace := by
  induction fuel with
  | zero => intro st loc r h; cases h
  | succ fuel ih =>
    intro st loc r h
    simp only [partition_loop] at h
    by_cases hp : loc.pl < loc.pr
    · simp only [if_pos hp] at h
      obtain ⟨⟨st1, ple, pl⟩, h1, h2⟩ := bind_eq_ok h
      have p1 := left_scan_pos compar ds w pivot loc.pr hw n _ _ _ _ h1
      dsimp only at h2
      by_cases c1 : pl ≥ loc.pr
      · simp only [if_pos c1] at h2
        cases h2
        exact p1
      · simp only [if_neg c1] at h2
        obtain ⟨⟨st2, pl2, pr2, pre2⟩, h3, h4⟩ := bind_eq_ok h2
        have p2 := right_scan_pos compar ds w pivot hw n _ _ _ _ _ h3
        exact SwapPos_trans (SwapPos_trans p1 p2) (ih _ _ _ h4)
    · simp only [if_neg hp] at h
      cases h
      exact SwapPos_refl _

theorem rotate_phase_pos {st : State α δ} {b nel w : Nat} {loc : Locals}
    {r : State α δ × Locals} (h : rotate_phase st b nel w loc = .ok r) :
    SwapPos st.trace r.1.trace := by
  simp only [rotate_phase] at h
  obtain ⟨na, -, h1⟩ := bind_eq_ok h
  obtain ⟨nb, -, h2⟩ := bind_eq_ok h1
  obtain ⟨st1, h3, h4⟩ := bind_eq_ok h2
  obtain ⟨na2, -, h5⟩ := bind_eq_ok h4
  obtain ⟨nb2, -, h6⟩ := bind_eq_ok h5
  obtain ⟨st2, h7, h8⟩ := bind_eq_ok h6
  cases h8
  exact SwapPos_trans (sort_r_swap_blocks_pos h3) (sort_r_swap_blocks_pos h7)

theorem partition_phase_pos {compar : List α → List α → δ → Int} {ds : δ} {w : Nat}
    (hw : 0 < w) {st : State α δ} {b nel : Nat} {r : State α δ × Locals}
    (h : partition_phase compar ds w st b nel = .ok r) : SwapPos st.trace r.1.trace := by
  simp only [partition_phase] at h
  obtain ⟨⟨st1, l⟩, h1, h2⟩ := bind_eq_ok h
  obtain ⟨⟨st2, loc⟩, h3, h4⟩ := bind_eq_ok h2
  simp only [scan_phase] at h3
  exact SwapPos_trans (SwapPos_trans (pivot_phase_pos hw h1)
    (partition_loop_pos compar ds w _ _ hw _ _ _ _ h3)) (rotate_phase_pos h4)

theorem sort_r_simple_pos (compar : List α → List α → δ → Int) (ds : δ) (w : Nat)
    (hw : 0 < w) (fuel : Nat) : ∀ (st st1 : State α δ) (b nel : Nat),
    sort_r_simple compar ds w fuel st b nel = .ok st1 → SwapPos st.trace st1.trace := by
  induction fuel with
  | zero => intro st st1 b nel h; cases h
  | succ fuel ih =>
    intro st st1 b nel h
    simp only [sort_r_simple] at h
    by_cases hp : nel < 10
    · simp only [if_pos hp] at h
      exact insertion_outer_pos compar ds b w _ _ hw _ _ _ _ h
    · simp only [if_neg hp] at h
      obtain ⟨⟨st2, loc⟩, h1, h2⟩ := bind_eq_ok h
      obtain ⟨d1, -, h3⟩ := bind_eq_ok h2
      obtain ⟨n1, -, h4⟩ := bind_eq_ok h3
      obtain ⟨st3, h5, h6⟩ := bind_eq_ok h4
      obtain ⟨d2, -, h7⟩ := bind_eq_ok h6
      obtain ⟨b2, -, h8⟩ := bind_eq_ok h7
      obtain ⟨n2, -, h9⟩ := bind_eq_ok h8
      exact SwapPos_trans (SwapPos_trans (partition_phase_pos hw h1) (ih _ _ _ _ h5))
        (ih _ _ _ _ h9)

end Positive

/-! ## The partition scan exchanges records below the pivot only -/

section Below

variable {α δ : Type}

theorem SwapBelow_refl (lim : Nat) (tr : List (Event δ)) : SwapBelow lim tr tr :=
  ⟨[], by simp, by intro a b m h; cases h⟩

theorem SwapBelow_trans {lim : Nat} {tr tr1 tr2 : List (Event δ)}
    (h1 : SwapBelow lim tr tr1) (h2 : SwapBelow lim tr1 tr2) : SwapBelow lim tr tr2 := by
  obtain ⟨e1, a1, b1⟩ := h1
  obtain ⟨e2, a2, b2⟩ := h2
  refine ⟨e1 ++ e2, by rw [a2, a1, List.append_assoc], ?_⟩
  intro a b m h
  rcases List.mem_append.mp h with h | h
  · exact b1 a b m h
  · exact b2 a b m h

theorem sort_r_swap_trace {st st1 : State α δ} {a b n : Nat}
    (h : sort_r_swap st a b n = .ok st1) : st1.trace = st.trace ++ [Event.swap a b n] := by
  simp only [sort_r_swap] at h
  obtain ⟨m, -, h2⟩ := bind_eq_ok h
  cases h2
  rfl

theorem call_compar_trace {compar : List α → List α → δ → Int} {ds : δ} {w : Nat}
    {st : State α δ} {a b : Nat} {r : Int × State α δ}
    (h : call_compar compar ds w st a b = .ok r) :
    r.2.mem = st.mem ∧ r.2.trace = st.trace ++ [Event.compar a b ds] := by
  simp only [call_compar] at h
  obtain ⟨ra, -, h2⟩ := bind_eq_ok h
  obtain ⟨rb, -, h3⟩ := bind_eq_ok h2
  cases h3
  exact ⟨rfl, rfl⟩

theorem sort_r_swap_below {lim : Nat} {st st1 : State α δ} {a b n : Nat}
    (ha : a + n ≤ lim) (hb : b + n ≤ lim) (h : sort_r_swap st a b n = .ok st1) :
    SwapBelow lim st.trace st1.trace := by
  refine ⟨[Event.swap a b n], sort_r_swap_trace h, ?_⟩
  intro x y m hm
  simp only [List.mem_singleton, Event.swap.injEq] at hm
  obtain ⟨rfl, rfl, rfl⟩ := hm
  exact ⟨ha, hb⟩

theorem call_compar_below (lim : Nat) {compar : List α → List α → δ → Int} {ds : δ} {w : Nat}
    {st : State α δ} {a b : Nat} {r : Int × State α δ}
    (h : call_compar compar ds w st a b = .ok r) : SwapBelow lim st.trace r.2.trace := by
  refine ⟨[Event.compar a b ds], (call_compar_trace h).2, ?_⟩
  intro x y m hm
  simp at hm

theorem left_scan_below (compar : List α → List α → δ → Int) (ds : δ) (w pivot pr : Nat)
    (hpr : pr ≤ pivot) (fuel : Nat) :
    ∀ (st : State α δ) (ple pl : Nat) (r : State α δ × Nat × Nat),
    left_scan compar ds w pivot pr fuel st ple pl = .ok r →
    (pl < pr → ∃ k, pr = pl + w * k) →
    SwapBelow pivot st.trace r.1.trace ∧ (r.2.2 < pr → ∃ k, pr = r.2.2 + w * k) := by
  induction fuel with
  | zero => intro st ple pl r h; cases h
  | succ fuel ih =>
    intro st ple pl r h hal
    simp only [left_scan] at h
    by_cases hp : pl < pr
    · simp only [if_pos hp] at h
      obtain ⟨k, hk⟩ := hal hp
      have hk1 : pl + w ≤ pr ∧ (pl + w < pr → ∃ k, pr = pl + w + w * k) := by
        cases k with
        | zero => simp at hk; omega
        | succ k =>
          rw [Nat.mul_succ] at hk
          exact ⟨by omega, fun _ => ⟨k, by omega⟩⟩
      obtain ⟨⟨c, st1⟩, h1, h2⟩ := bind_eq_ok h
      have p1 := call_compar_below pivot h1
      dsimp only at h2
      by_cases c1 : c > 0
      · simp only [if_pos c1] at h2
        cases h2
        exact ⟨p1, hal⟩
      · simp only [if_neg c1] at h2
        by_cases c2 : c = 0
        · simp only [if_pos c2] at h2
          by_cases c3 : ple < pl
          · simp only [if_pos c3] at h2
            obtain ⟨st2, h3, h4⟩ := bind_eq_ok h2
            obtain ⟨q1, q2⟩ := ih _ _ _ _ h4 hk1.2
            exact ⟨SwapBelow_trans (SwapBelow_trans p1
              (sort_r_swap_below (by omega) (by omega) h3)) q1, q2⟩
          · simp only [if_neg c3] at h2
            obtain ⟨st2, h3, h4⟩ := bind_eq_ok h2
            cases h3
            obtain ⟨q1, q2⟩ := ih _ _ _ _ h4 hk1.2
            exact ⟨SwapBelow_trans p1 q1, q2⟩
        · simp only [if_neg c2] at h2
          obtain ⟨q1, q2⟩ := ih _ _ _ _ h2 hk1.2
          exact ⟨SwapBelow_trans p1 q1, q2⟩
    · simp only [if_neg hp] at h
      cases h
      exact ⟨SwapBelow_refl _ _, hal⟩

theorem right_scan_below (compar : List α → List α → δ → Int) (ds : δ) (w pivot : Nat)
    (fuel : Nat) :
    ∀ (st : State α δ) (pl pr pre : Nat) (r : State α δ × Nat × Nat × Nat),
    right_scan compar ds w pivot fuel st pl pr pre = .ok r →
    pr ≤ pre → pre ≤ pivot → (pl < pr → ∃ k, pr = pl + w * k) →
    SwapBelow pivot st.trace r.1.trace ∧ r.2.2.1 ≤ r.2.2.2 ∧ r.2.2.2 ≤ pivot
      ∧ (r.2.1 < r.2.2.1 → ∃ k, r.2.2.1 = r.2.1 + w * k) := by
  induction fuel with
  | zero => intro st pl pr pre r h; cases h
  | succ fuel ih =>
    intro st pl pr pre r h hle hpre hal
    simp only [right_scan] at h
    by_cases hp : pl < pr
    · simp only [if_pos hp] at h
      obtain ⟨k, hk⟩ := hal hp
      obtain ⟨pr1, hpr1, h0⟩ := bind_eq_ok h
      simp only [psub] at hpr1
      by_cases hwp : w ≤ pr
      · simp only [if_pos hwp] at hpr1
        cases hpr1
        have hk1 : (pl < pr - w → ∃ k, pr - w = pl + w * k)
            ∧ (pl + w < pr - w → ∃ k, pr - w = pl + w + w * k) := by
          cases k with
          | zero => simp at hk; omega
          | succ k =>
            rw [Nat.mul_succ] at hk
            refine ⟨fun _ => ⟨k, by omega⟩, fun hlt => ?_⟩
            cases k with
            | zero => simp at hk; omega
            | succ k =>
              rw [Nat.mul_succ] at hk
              exact ⟨k, by omega⟩
        obtain ⟨⟨c, st1⟩, h1, h2⟩ := bind_eq_ok h0
        have p1 := call_compar_below pivot h1
        dsimp only at h2
        by_cases c1 : c = 0
        · simp only [if_pos c1] at h2
          obtain ⟨pre1, hpre1, h3⟩ := bind_eq_ok h2
          simp only [psub] at hpre1
          by_cases hwq : w ≤ pre
          · simp only [if_pos hwq] at hpre1
            cases hpre1
            by_cases c3 : pr - w < pre - w
            · simp only [if_pos c3] at h3
              obtain ⟨st2, h4, h5⟩ := bind_eq_ok h3
              obtain ⟨q1, q2⟩ := ih _ _ _ _ _ h5 (by omega) (by omega) hk1.1
              exact ⟨SwapBelow_trans (SwapBelow_trans p1
                (sort_r_swap_below (by omega) (by omega) h4)) q1, q2⟩
            · simp only [if_neg c3] at h3
              obtain ⟨st2, h4, h5⟩ := bind_eq_ok h3
              cases h4
              obtain ⟨q1, q2⟩ := ih _ _ _ _ _ h5 (by omega) (by omega) hk1.1
              exact ⟨SwapBelow_trans p1 q1, q2⟩
          · simp only [if_neg hwq] at hpre1
            cases hpre1
        · simp only [if_neg c1] at h2
          by_cases c2 : c < 0
          · simp only [if_pos c2] at h2
            by_cases c3 : pl < pr - w
            · simp only [if_pos c3] at h2
              obtain ⟨st2, h4, h5⟩ := bind_eq_ok h2
              cases h5
              exact ⟨SwapBelow_trans p1 (sort_r_swap_below (by omega) (by omega) h4),
                by dsimp only; omega, hpre, hk1.2⟩
            · simp only [if_neg c3] at h2
              obtain ⟨st2, h4, h5⟩ := bind_eq_ok h2
              cases h4
              cases h5
              exact ⟨p1, by dsimp only; omega, hpre, hk1.2⟩
          · simp only [if_neg c2] at h2
            obtain ⟨q1, q2⟩ := ih _ _ _ _ _ h2 (by omega) hpre hk1.1
            exact ⟨SwapBelow_trans p1 q1, q2⟩
      · simp only [if_neg hwp] at hpr1
        cases hpr1
    · simp only [if_neg hp] at h
      cases h
      exact ⟨SwapBelow_refl _ _, hle, hpre, hal⟩

theorem partition_loop_below (compar : List α → List α → δ → Int) (ds : δ) (w pivot n : Nat)
    (fuel : Nat) : ∀ (st : State α δ) (loc : Locals) (r : State α δ × Locals),
    partition_loop compar ds w pivot n fuel st loc = .ok r →
    loc.pr ≤ loc.pre → loc.pre ≤ pivot → (loc.pl < loc.pr → ∃ k, loc.pr = loc.pl + w * k) →
    SwapBelow pivot st.trace r.1.trace := by
  induction fuel with
  | zero => intro st loc r h; cases h
  | succ fuel ih =>
    intro st loc r h hle hpre hal
    simp only [partition_loop] at h
    by_cases hp : loc.pl < loc.pr
    · simp only [if_pos hp] at h
      obtain ⟨⟨st1, ple, pl⟩, h1, h2⟩ := bind_eq_ok h
      obtain ⟨p1, a1⟩ := left_scan_below compar ds w pivot loc.pr (by omega) n _ _ _ _ h1 hal
      dsimp only at h2 a1
      by_cases c1 : pl ≥ loc.pr
      · simp only [if_pos c1] at h2
        cases h2
        exact p1
      · simp only [if_neg c1] at h2
        obtain ⟨⟨st2, pl2, pr2, pre2⟩, h3, h4⟩ := bind_eq_ok h2
        obtain ⟨p2, a2, a3, a4⟩ := right_scan_below compar ds w pivot n _ _ _ _ _ h3 hle hpre a1
        exact SwapBelow_trans (SwapBelow_trans p1 p2) (ih _ _ _ h4 a2 a3 a4)
    · simp only [if_neg hp] at h
      cases h
      exact SwapBelow_refl _ _

theorem scan_phase_below {compar : List α → List α → δ → Int} {ds : δ} {w : Nat}
    {st : State α δ} {b nel : Nat} {r : State α δ × Locals}
    (h : scan_phase compar ds w st b nel = .ok r) :
    SwapBelow (b + w * (nel - 1)) st.trace r.1.trace := by
  simp only [scan_phase] at h
  exact partition_loop_below compar ds w _ _ _ _ _ _ h (Nat.le_refl _) (Nat.le_refl _)
    (fun _ => ⟨nel - 1, rfl⟩)

end Below

/-! ## Further facts for the claims on the phases of the quicksort branch -/

section Phases

variable {α δ : Type} {w : Nat}

theorem int_cmp_total_any (w : Nat) : TotalOrder (fun a b (_ : Unit) => int_cmp a b) () w := by
  constructor
  · intro a b
    simp only [int_cmp]
    rw [← Int.neg_sub, Int.sign_neg]
  · intro a b c h1 h2
    simp only [int_cmp] at *
    omega

theorem TotalOrder_self {compar : List α → List α → δ → Int} {ds : δ}
    (ho : TotalOrder compar ds w) (p : Rec α w) : compar p.val p.val ds = 0 := by
  have := ho.antisymm p p
  have h4 : (compar p.val p.val ds).sign = 0 := by omega
  exact Int.sign_eq_zero_iff_zero.mp h4

theorem TotalOrder_nonneg_of_nonpos {compar : List α → List α → δ → Int} {ds : δ}
    (ho : TotalOrder compar ds w) {a b : Rec α w} (h : compar a.val b.val ds ≤ 0) :
    0 ≤ compar b.val a.val ds := by
  rcases lt_or_eq_of_le h with h1 | h1
  · exact le_of_lt (TotalOrder_pos_of_neg ho h1)
  · exact le_of_eq (TotalOrder_zero_of_zero ho h1).symm

theorem scan_phase_spec (compar : List α → List α → δ → Int) (ds : δ) (hw : 0 < w)
    (st : State α δ) {P S : List α} {L0 : List (Rec α w)} {p : Rec α w} {n : Nat}
    (hm : st.mem = P ++ flat (L0 ++ [p]) ++ S) (hn : n = L0.length + 1) :
    ∃ E1 Ls1 G1 E21 st1 c s,
      scan_phase compar ds w st P.length n
        = .ok (st1, Locals.mk (P.length + w * E1.length)
            (P.length + w * (E1.length + Ls1.length))
            (P.length + w * (E1.length + Ls1.length))
            (P.length + w * (E1.length + Ls1.length + G1.length)))
      ∧ st1.mem = P ++ flat (E1 ++ (Ls1 ++ (G1 ++ (E21 ++ [p])))) ++ S
      ∧ (E1 ++ (Ls1 ++ (G1 ++ E21))).Perm L0
      ∧ (∀ e ∈ E1, compar e.val p.val ds = 0) ∧ (∀ l ∈ Ls1, compar l.val p.val ds < 0)
      ∧ (∀ g ∈ G1, 0 < compar g.val p.val ds) ∧ (∀ e ∈ E21, compar e.val p.val ds = 0)
      ∧ TraceExt ds w P.length n c s st.trace st1.trace := by
  subst hn
  obtain ⟨E1, Ls1, G1, E21, st2, c2, s2, b1, b2, b3, b4, b5, b6, b7, b8⟩ :=
    partition_loop_spec compar ds hw P S p (L0.length + 1) (L0.length + 1) (L0.length + 1 + 1)
      L0 [] [] [] [] st
      P.length P.length (P.length + w * L0.length) (P.length + w * L0.length)
      (P.length + w * L0.length) (by omega) (by omega) (by simpa using hm)
      (by simp) (by simp) (by simp) (by simp) (by simp) (by simp)
      (by simp) (by simp) (by simp) (by simp)
  refine ⟨E1, Ls1, G1, E21, st2, c2, s2, ?_, b2, by simpa using b3, b4, b5, b6, b7, b8⟩
  simp only [scan_phase, Nat.add_sub_cancel]
  exact b1

end Phases

/-! ## Range Rotation on the raw memory -/

section Blocks

variable {α δ : Type}

theorem sort_r_swap_loop_count_eq (n : Nat) : ∀ (mem : List α) (a b : Nat),
    sort_r_swap_loop_count mem a b n = (sort_r_swap_loop mem a b n).map (fun m => (m, n)) := by
  induction n with
  | zero => intro mem a b; rfl
  | succ n ih =>
    intro mem a b
    simp only [sort_r_swap_loop_count, sort_r_swap_loop]
    cases SORT_R_SWAP mem a b with
    | error e => rfl
    | ok m =>
      simp only [ok_bind, ih]
      cases sort_r_swap_loop m (a + 1) (b + 1) n with
      | error e => rfl
      | ok m1 => rfl

theorem sort_r_swap_blocks_left (tr : List (Event δ)) (A Lf Rg C : List α)
    (hnb : 0 < Rg.length) (h : Lf.length > Rg.length) :
    sort_r_swap_blocks (State.mk (A ++ (Lf ++ (Rg ++ C))) tr) A.length Lf.length Rg.length
        = .ok (State.mk (A ++ (Rg ++ (Lf.drop Rg.length ++ (Lf.take Rg.length ++ C))))
            (tr ++ [Event.swap A.length (A.length + Lf.length) Rg.length]))
    ∧ sort_r_swap_loop (A ++ (Lf ++ (Rg ++ C))) A.length (A.length + Lf.length) Rg.length
        = .ok (A ++ (Rg ++ (Lf.drop Rg.length ++ (Lf.take Rg.length ++ C)))) := by
  have h0 : Lf.length > 0 ∧ Rg.length > 0 := ⟨by omega, hnb⟩
  have hl := sort_r_swap_loop_append (Lf.take Rg.length) A (Lf.drop Rg.length) Rg C
    (by simp; omega)
  rw [← List.append_assoc (Lf.take Rg.length), List.take_append_drop] at hl
  simp only [List.length_take, List.length_drop] at hl
  rw [show A.length + min Rg.length Lf.length + (Lf.length - Rg.length) = A.length + Lf.length
    by omega, show min Rg.length Lf.length = Rg.length by omega] at hl
  refine ⟨?_, hl⟩
  simp only [sort_r_swap_blocks, if_pos h0, if_pos h, sort_r_swap, hl, ok_bind, pure_eq_ok]

theorem sort_r_swap_blocks_right (tr : List (Event δ)) (A Lf Rg C : List α)
    (hna : 0 < Lf.length) (h : Lf.length ≤ Rg.length) :
    sort_r_swap_blocks (State.mk (A ++ (Lf ++ (Rg ++ C))) tr) A.length Lf.length Rg.length
        = .ok (State.mk (A ++ (Rg.drop (Rg.length - Lf.length)
              ++ (Rg.take (Rg.length - Lf.length) ++ (Lf ++ C))))
            (tr ++ [Event.swap A.length (A.length + Rg.length) Lf.length]))
    ∧ sort_r_swap_loop (A ++ (Lf ++ (Rg ++ C))) A.length (A.length + Rg.length) Lf.length
        = .ok (A ++ (Rg.drop (Rg.length - Lf.length)
              ++ (Rg.take (Rg.length - Lf.length) ++ (Lf ++ C)))) := by
  have h0 : Lf.length > 0 ∧ Rg.length > 0 := ⟨hna, by omega⟩
  have h1 : ¬ Lf.length > Rg.length := by omega
  have hl := sort_r_swap_loop_append Lf A (Rg.take (Rg.length - Lf.length))
    (Rg.drop (Rg.length - Lf.length)) C (by simp; omega)
  rw [← List.append_assoc (Rg.take _), List.take_append_drop] at hl
  simp only [List.length_take] at hl
  rw [show A.length + Lf.length + min (Rg.length - Lf.length) Rg.length = A.length + Rg.length
    by omega] at hl
  refine ⟨?_, hl⟩
  simp only [sort_r_swap_blocks, if_pos h0, if_neg h1, sort_r_swap, hl, ok_bind, pure_eq_ok]

end Blocks

/-! ## The insertion sort on sorted input, and stability -/

section Insertion

variable {α δ : Type} {w : Nat}

theorem insertion_inner_sorted (compar : List α → List α → δ → Int) (ds : δ) (hw : 0 < w)
    (st : State α δ) {P S : List α} {A0 T : List (Rec α w)} {y x : Rec α w} (fuel : Nat)
    (hm : st.mem = P ++ flat (A0 ++ y :: x :: T) ++ S) (hc : compar y.val x.val ds ≤ 0) :
    insertion_inner compar ds P.length w (fuel + 1) st (P.length + w * (A0.length + 1))
      = .ok (State.mk st.mem (st.trace ++ [Event.compar (P.length + w * A0.length)
          (P.length + w * (A0.length + 1)) ds])) := by
  have hp : P.length + w * (A0.length + 1) > P.length := by
    have := Nat.mul_pos hw (show 0 < A0.length + 1 by omega)
    omega
  have hs : psub (P.length + w * (A0.length + 1)) w = .ok (P.length + w * A0.length) := by
    rw [psub_ok (by simp [Nat.mul_add]; omega)]
    congr 1
    simp only [Nat.mul_add, Nat.mul_one]
    omega
  have hcs := sort_r_cmpswap_rec compar ds st (A := A0) (y := y) (B := []) (x := x) (C := T)
    hm (by simp) (show P.length + w * A0.length = P.length + w * A0.length from rfl)
    (show P.length + w * (A0.length + 1) = P.length + w * (A0.length + 1 + ([] : List (Rec α w)).length)
      by simp)
  rw [if_neg (not_lt.mpr hc)] at hcs
  simp only [insertion_inner, if_pos hp, hs, ok_bind, hcs, ne_eq, not_true_eq_false, if_false,
    pure_eq_ok]

theorem AdjSorted_tail {compar : List α → List α → δ → Int} {ds : δ} {y : Rec α w}
    {T : List (Rec α w)} (h : AdjSorted compar ds (y :: T)) : AdjSorted compar ds T := by
  intro i r1 r2 h1 h2
  exact h (i + 1) r1 r2 (by simpa using h1) (by simpa using h2)

theorem insertion_outer_sorted (compar : List α → List α → δ → Int) (ds : δ) (hw : 0 < w)
    (P S : List α) (e n : Nat) (fuel : Nat) :
    ∀ (T A0 : List (Rec α w)) (y : Rec α w) (st : State α δ), T.length < fuel →
      st.mem = P ++ flat (A0 ++ y :: T) ++ S →
      e = P.length + w * (A0.length + 1 + T.length) → AdjSorted compar ds (y :: T) →
      insertion_outer compar ds P.length w e (n + 1) fuel st (P.length + w * (A0.length + 1))
        = .ok (State.mk st.mem (st.trace ++ (List.range T.length).map
            (fun i => Event.compar (P.length + w * (A0.length + i))
              (P.length + w * (A0.length + i + 1)) ds))) := by
  induction fuel with
  | zero => intro T A0 y st h; omega
  | succ fuel ih =>
    intro T A0 y st hf hm he hs
    cases T with
    | nil =>
      have hp : ¬ P.length + w * (A0.length + 1) < e := by
        rw [he]; simp
      simp only [insertion_outer, if_neg hp, pure_eq_ok, List.length_nil, List.range_zero,
        List.map_nil, List.append_nil]
    | cons x T =>
      have hp : P.length + w * (A0.length + 1) < e := by
        rw [he]
        simp only [List.length_cons, Nat.mul_add, Nat.mul_one]
        omega
      have hc : compar y.val x.val ds ≤ 0 := hs 0 y x (by simp) (by simp)
      have hin := insertion_inner_sorted compar ds hw st n hm hc
      have hnext := ih T (A0 ++ [y]) x
        (State.mk st.mem (st.trace ++ [Event.compar (P.length + w * A0.length)
          (P.length + w * (A0.length + 1)) ds]))
        (by simp only [List.length_cons] at hf; omega)
        (by simp [hm])
        (by rw [he]; simp only [List.length_append, List.length_cons, List.length_nil]; congr 2; omega)
        (AdjSorted_tail hs)
      have hpw : P.length + w * (A0.length + 1) + w
          = P.length + w * ((A0 ++ [y]).length + 1) := by
        simp only [List.length_append, List.length_cons, List.length_nil, Nat.mul_add,
          Nat.mul_one]
        omega
      simp only [insertion_outer, if_pos hp, hin, ok_bind, hpw, hnext]
      congr 2
      simp only [List.length_cons, List.range_succ_eq_map, List.map_cons, List.map_map,
        List.append_assoc, List.singleton_append, Nat.add_zero, List.length_append,
        List.length_nil]
      congr 2
      apply List.map_congr_left
      intro i _
      simp only [Function.comp, Nat.succ_eq_add_one]
      rw [show A0.length + (0 + 1) + i = A0.length + (i + 1) by omega]

theorem equalTo_insert {compar : List α → List α → δ → Int} {ds : δ}
    (ho : TotalOrder compar ds w) (r x : Rec α w) (A1 A2 T : List (Rec α w))
    (h4 : ∀ a ∈ A2, 0 < compar a.val x.val ds) :
    equalTo compar ds r ((A1 ++ x :: A2) ++ T) = equalTo compar ds r ((A1 ++ A2) ++ x :: T) := by
  simp only [equalTo, List.filter_append, List.filter_cons]
  by_cases hx : compar x.val r.val ds = 0
  · have hnil : A2.filter (fun a => decide (compar a.val r.val ds = 0)) = [] := by
      rw [List.filter_eq_nil_iff]
      intro a ha
      simp only [decide_eq_true_eq]
      intro har
      have h1 := ho.trans a r x (le_of_eq har) (le_of_eq (TotalOrder_zero_of_zero ho hx))
      have h2 := h4 a ha
      omega
    simp [hx, hnil]
  · simp [hx]

end Insertion

/-! ## The claims -/

section Claims

variable {α δ : Type} {w : Nat}

/-- C1 (ordering invariant). For every buffer of records of positive width `w`, laid out
at offset `P.length` of the memory, and every comparator that is a valid total order, `Sort`
(`sort_r_simple` with enough fuel, and `qsort`) returns, and in the buffer it leaves every
adjacent pair of records satisfies `compar(record[i], record[i+1]) <= 0`. -/
theorem sort_ordering (w : Nat) (hw : 0 < w) (P S : List α) (L : List (Rec α w)) :
    (∀ (compar : List α → List α → δ → Int) (ds : δ) (tr : List (Event δ)) (fuel : Nat),
      TotalOrder compar ds w → L.length < fuel →
      ∃ (L1 : List (Rec α w)) (tr1 : List (Event _)),
        sort_r_simple compar ds w fuel (State.mk (P ++ flat L ++ S) tr) P.length L.length
          = .ok (State.mk (P ++ flat L1 ++ S) tr1)
        ∧ L1.length = L.length ∧ AdjSorted compar ds L1)
    ∧ (∀ (compar : List α → List α → Int) (tr : List (Event Unit)),
      TotalOrder (fun a b (_ : Unit) => compar a b) () w →
      ∃ (L1 : List (Rec α w)) (tr1 : List (Event Unit)),
        qsort (State.mk (P ++ flat L ++ S) tr) P.length L.length w compar
          = .ok (State.mk (P ++ flat L1 ++ S) tr1)
        ∧ L1.length = L.length ∧ AdjSorted (fun a b (_ : Unit) => compar a b) () L1) := by
  have key : ∀ (γ : Type) (compar : List α → List α → γ → Int) (ds : γ) (tr : List (Event γ))
      (fuel : Nat), TotalOrder compar ds w → L.length < fuel →
      ∃ (L1 : List (Rec α w)) (tr1 : List (Event _)),
        sort_r_simple compar ds w fuel (State.mk (P ++ flat L ++ S) tr) P.length L.length
          = .ok (State.mk (P ++ flat L1 ++ S) tr1)
        ∧ L1.length = L.length ∧ AdjSorted compar ds L1 := by
    intro γ compar ds tr fuel ho hf
    obtain ⟨L1, st1, c, s, h1, h2, h3, h4, h5⟩ :=
      sort_r_simple_spec compar ds hw fuel L P S (State.mk (P ++ flat L ++ S) tr) hf rfl
    refine ⟨L1, st1.trace, ?_, h3.length_eq, adjSorted_of_sorted (h5 ho)⟩
    rw [h1, ← h2]
  exact ⟨key δ, fun compar tr ho => key Unit _ () tr _ ho (Nat.lt_succ_self _)⟩

/-- Witness for C1: the ten integers `5 3 3 1 4 1 5 9 2 6` with the ascending integer
comparator are sorted to `1 1 2 3 3 4 5 5 6 9`. -/
theorem sort_ordering_witness :
    (∃ tr1, qsort (State.mk [5, 3, 3, 1, 4, 1, 5, 9, 2, 6] []) 0 10 1 int_cmp
        = .ok (State.mk [1, 1, 2, 3, 3, 4, 5, 5, 6, 9] tr1))
    ∧ (∃ (L1 : List (Rec Int 1)) (tr1 : List (Event Unit)),
        qsort (State.mk ([] ++ flat ([5, 3, 3, 1, 4, 1, 5, 9, 2, 6].map int_rec) ++ []) [])
          0 10 1 int_cmp = .ok (State.mk ([] ++ flat L1 ++ []) tr1)
        ∧ L1.length = 10 ∧ AdjSorted (fun a b (_ : Unit) => int_cmp a b) () L1) :=
  ⟨⟨_, rfl⟩,
   (sort_ordering (δ := Unit) 1 (by decide) [] []
     ([5, 3, 3, 1, 4, 1, 5, 9, 2, 6].map int_rec)).2
     int_cmp [] int_cmp_total⟩

/-- C2 (permutation invariant). For every buffer of records of positive width and every
comparator whatsoever (no order property is assumed), `Sort` (`sort_r_simple` with enough
fuel, and `qsort`) returns, the records of the buffer afterwards are a permutation of the
records before, each one with its units unaltered, and the memory before and after the
buffer is unchanged. -/
theorem sort_permutation (w : Nat) (hw : 0 < w) (P S : List α) (L : List (Rec α w)) :
    (∀ (compar : List α → List α → δ → Int) (ds : δ) (tr : List (Event δ)) (fuel : Nat),
      L.length < fuel →
      ∃ (L1 : List (Rec α w)) (tr1 : List (Event δ)),
        sort_r_simple compar ds w fuel (State.mk (P ++ flat L ++ S) tr) P.length L.length
          = .ok (State.mk (P ++ flat L1 ++ S) tr1)
        ∧ L1.Perm L)
    ∧ (∀ (compar : List α → List α → Int) (tr : List (Event Unit)),
      ∃ (L1 : List (Rec α w)) (tr1 : List (Event Unit)),
        qsort (State.mk (P ++ flat L ++ S) tr) P.length L.length w compar
          = .ok (State.mk (P ++ flat L1 ++ S) tr1)
        ∧ L1.Perm L) := by
  have key : ∀ (γ : Type) (compar : List α → List α → γ → Int) (ds : γ) (tr : List (Event γ))
      (fuel : Nat), L.length < fuel →
      ∃ (L1 : List (Rec α w)) (tr1 : List (Event γ)),
        sort_r_simple compar ds w fuel (State.mk (P ++ flat L ++ S) tr) P.length L.length
          = .ok (State.mk (P ++ flat L1 ++ S) tr1)
        ∧ L1.Perm L := by
    intro γ compar ds tr fuel hf
    obtain ⟨L1, st1, c, s, h1, h2, h3, h4, h5⟩ :=
      sort_r_simple_spec compar ds hw fuel L P S (State.mk (P ++ flat L ++ S) tr) hf rfl
    refine ⟨L1, st1.trace, ?_, h3⟩
    rw [h1, ← h2]
  exact ⟨key δ, fun compar tr => key Unit _ () tr _ (Nat.lt_succ_self _)⟩

/-- Witness for C2: eleven integers sorted with the comparator that always answers
"greater", which is no total order; the result is a permutation of the input. -/
theorem sort_permutation_witness :
    (∃ tr1, qsort (State.mk [5, 3, 3, 1, 4, 1, 5, 9, 2, 6, 8] []) 0 11 1 (fun _ _ => 1)
        = .ok (State.mk [1, 5, 3, 6, 2, 9, 5, 8, 4, 1, 3] tr1))
    ∧ (∃ (L1 : List (Rec Int 1)) (tr1 : List (Event Unit)),
        qsort (State.mk ([] ++ flat ([5, 3, 3, 1, 4, 1, 5, 9, 2, 6, 8].map int_rec) ++ []) [])
          0 11 1 (fun _ _ => 1) = .ok (State.mk ([] ++ flat L1 ++ []) tr1)
        ∧ L1.Perm ([5, 3, 3, 1, 4, 1, 5, 9, 2, 6, 8].map int_rec)) :=
  ⟨⟨_, rfl⟩,
   (sort_permutation (δ := Unit) 1 (by decide) [] []
     ([5, 3, 3, 1, 4, 1, 5, 9, 2, 6, 8].map int_rec)).2 (fun _ _ => 1) []⟩

/-- C3 (termination). For every comparator and every positive width: on a range of at least
10 records the part of `sort_r_simple` before the recursive calls returns with
`ple <= pl` and `pr <= pre`, and the two sub-ranges of the recursive calls, of
`(pl-ple)/w` and `(pre-pr)/w` records, hold together at most `nel - 1` records, so each one
holds strictly fewer records than the range; and on every range `sort_r_simple` returns
as soon as its fuel exceeds the number of records (it does not run out of fuel). -/
theorem sort_subranges_smaller (compar : List α → List α → δ → Int) (ds : δ) (w : Nat)
    (hw : 0 < w) (P S : List α) (tr : List (Event δ)) :
    (∀ L : List (Rec α w), 10 ≤ L.length →
      ∃ st1 loc, partition_phase compar ds w (State.mk (P ++ flat L ++ S) tr) P.length L.length
          = .ok (st1, loc)
        ∧ loc.ple ≤ loc.pl ∧ loc.pr ≤ loc.pre
        ∧ (loc.pl - loc.ple) / w + (loc.pre - loc.pr) / w ≤ L.length - 1
        ∧ (loc.pl - loc.ple) / w < L.length ∧ (loc.pre - loc.pr) / w < L.length)
    ∧ (∀ (L : List (Rec α w)) (fuel : Nat), L.length < fuel →
      ∃ st1, sort_r_simple compar ds w fuel (State.mk (P ++ flat L ++ S) tr) P.length L.length
        = .ok st1) := by
  constructor
  · intro L hL
    obtain ⟨Ls, Mid0, Mid, G, p, k, st1, c1, s1, a1, a2, a3, a4, a5, a6, a7, a8⟩ :=
      partition_phase_spec compar ds hw (State.mk (P ++ flat L ++ S) tr) rfl hL
    have hlen := a3.length_eq
    have hlen2 := a4.length_eq
    simp only [List.length_append, List.length_cons] at hlen hlen2
    have e1 : (P.length + w * (k + Ls.length) - (P.length + w * k)) / w = Ls.length := by
      have : P.length + w * (k + Ls.length) - (P.length + w * k) = w * Ls.length := by
        simp only [Nat.mul_add]; omega
      rw [this, Nat.mul_div_cancel_left _ hw]
    have e2 : (P.length + w * (k + Ls.length + G.length) - (P.length + w * (k + Ls.length))) / w
        = G.length := by
      have : P.length + w * (k + Ls.length + G.length) - (P.length + w * (k + Ls.length))
          = w * G.length := by
        simp only [Nat.mul_add]; omega
      rw [this, Nat.mul_div_cancel_left _ hw]
    refine ⟨st1, _, a1, ?_, ?_, ?_, ?_, ?_⟩
    · simp only [Nat.mul_add]; omega
    · simp only [Nat.mul_add]; omega
    · simp only [e1, e2]; omega
    · simp only [e1]; omega
    · simp only [e2]; omega
  · intro L fuel hf
    obtain ⟨L1, st1, c, s, h1, -⟩ :=
      sort_r_simple_spec compar ds hw fuel L P S (State.mk (P ++ flat L ++ S) tr) hf rfl
    exact ⟨st1, h1⟩

/-- Witness for C3: the ten integers `5 3 3 1 4 1 5 9 2 6`; the recursive calls are on
2 and on 7 records. -/
theorem sort_subranges_smaller_witness :
    (partition_phase (fun a b (_ : Unit) => int_cmp a b) () 1
        (State.mk [5, 3, 3, 1, 4, 1, 5, 9, 2, 6] []) 0 10).map (fun r => r.2)
      = .ok (Locals.mk 0 2 2 9)
    ∧ (∃ st1 loc, partition_phase (fun a b (_ : Unit) => int_cmp a b) () 1
          (State.mk ([] ++ flat ([5, 3, 3, 1, 4, 1, 5, 9, 2, 6].map int_rec) ++ []) [])
          ([] : List Int).length ([5, 3, 3, 1, 4, 1, 5, 9, 2, 6].map int_rec).length
          = .ok (st1, loc)
        ∧ loc.ple ≤ loc.pl ∧ loc.pr ≤ loc.pre
        ∧ (loc.pl - loc.ple) / 1 + (loc.pre - loc.pr) / 1
          ≤ ([5, 3, 3, 1, 4, 1, 5, 9, 2, 6].map int_rec).length - 1
        ∧ (loc.pl - loc.ple) / 1 < ([5, 3, 3, 1, 4, 1, 5, 9, 2, 6].map int_rec).length
        ∧ (loc.pre - loc.pr) / 1 < ([5, 3, 3, 1, 4, 1, 5, 9, 2, 6].map int_rec).length) :=
  ⟨rfl,
   (sort_subranges_smaller (fun a b (_ : Unit) => int_cmp a b) () 1 (by decide) [] [] []).1
     ([5, 3, 3, 1, 4, 1, 5, 9, 2, 6].map int_rec) (by decide)⟩

/-- C4 (memory safety). For every memory, every base pointer `b`, every number of records
`nel` and positive width `w` such that the buffer `[b, b + w*nel)` lies inside the memory,
and every comparator, valid total order or not, `sort_r_simple` with enough fuel returns a
state: no access outside the memory, no negative pointer difference and no division by
zero happens. The memory keeps its length, the units before and after the buffer are
unchanged, every comparator invocation receives pointers to two records with positions in
`[0, nel)`, and every call of `sort_r_swap` is on two disjoint runs of whole records with
positions in `[0, nel)`. -/
theorem sort_in_bounds (compar : List α → List α → δ → Int) (ds : δ) (w : Nat)
    (hw : 0 < w) (st : State α δ) (b nel fuel : Nat) (hbuf : b + w * nel ≤ st.mem.length)
    (hf : nel < fuel) :
    ∃ (st1 : State α δ) (ev : List (Event δ)),
      sort_r_simple compar ds w fuel st b nel = .ok st1
      ∧ st1.trace = st.trace ++ ev ∧ (∀ e ∈ ev, EvOK ds w b nel e)
      ∧ st1.mem.length = st.mem.length
      ∧ st1.mem.take b = st.mem.take b
      ∧ st1.mem.drop (b + w * nel) = st.mem.drop (b + w * nel) := by
  obtain ⟨P, L, S, hm, hP, hL⟩ := layout_exists w st.mem b nel hbuf
  subst hP hL
  obtain ⟨L1, st1, c, s, h1, h2, h3, ⟨ev, k1, k2, -, -⟩, -⟩ :=
    sort_r_simple_spec compar ds hw fuel L P S st hf hm
  have hl := h3.length_eq
  refine ⟨st1, ev, h1, k1, k2, ?_, ?_, ?_⟩
  · rw [h2, hm]; simp [hl]
  · rw [h2, hm]; simp
  · rw [h2, hm, ← hl]
    rw [List.drop_left' (by simp), List.drop_left' (by simp [hl])]

/-- Witness for C4: eleven integers sorted with the comparator that always answers
"greater". -/
theorem sort_in_bounds_witness :
    ∃ (st1 : State Int Unit) (ev : List (Event Unit)),
      sort_r_simple (fun _ _ _ => 1) () 1 12
          (State.mk [5, 3, 3, 1, 4, 1, 5, 9, 2, 6, 8] []) 0 11 = .ok st1
      ∧ st1.trace = (State.mk [5, 3, 3, 1, 4, 1, 5, 9, 2, 6, 8] ([] : List (Event Unit))).trace
          ++ ev
      ∧ (∀ e ∈ ev, EvOK () 1 0 11 e)
      ∧ st1.mem.length
        = (State.mk [5, 3, 3, 1, 4, 1, 5, 9, 2, 6, 8] ([] : List (Event Unit))).mem.length
      ∧ st1.mem.take 0
        = (State.mk [5, 3, 3, 1, 4, 1, 5, 9, 2, 6, 8] ([] : List (Event Unit))).mem.take 0
      ∧ st1.mem.drop (0 + 1 * 11)
        = (State.mk [5, 3, 3, 1, 4, 1, 5, 9, 2, 6, 8] ([] : List (Event Unit))).mem.drop
            (0 + 1 * 11) :=
  sort_in_bounds (fun _ _ _ => 1) () 1 (by decide)
    (State.mk [5, 3, 3, 1, 4, 1, 5, 9, 2, 6, 8] []) 0 11 12 (by decide) (by decide)

/-- C5 (empty and singleton ranges). `Sort` with `nel = 0` or `nel = 1` returns the state
it was given, for every width, every comparator, every memory and every base pointer:
the memory is unchanged and the trace is unchanged, so neither the comparator nor
`sort_r_swap` is invoked. -/
theorem sort_zero_one_noop (compar : List α → List α → δ → Int) (ds : δ) (w fuel : Nat)
    (st : State α δ) (b : Nat) (c2 : List α → List α → Int) (st2 : State α Unit) :
    sort_r_simple compar ds w (fuel + 1) st b 0 = .ok st
    ∧ sort_r_simple compar ds w (fuel + 1) st b 1 = .ok st
    ∧ qsort st2 b 0 w c2 = .ok st2
    ∧ qsort st2 b 1 w c2 = .ok st2 :=
  ⟨sort_r_simple_zero _ _ _ _ _ _, sort_r_simple_one _ _ _ _ _ _,
    sort_r_simple_zero _ _ _ _ _ _, sort_r_simple_one _ _ _ _ _ _⟩

/-- C6 (idempotence). For every valid total-order comparator under which records that
compare equal are identical, and every buffer of records of positive width (of any
number of records, so on the insertion-sort path and on the quicksort path): if every
adjacent pair of the buffer is already in order, `Sort` returns with the memory unchanged;
and for every buffer, sorting the sorted buffer again returns the same memory,
`Sort(Sort(x)) = Sort(x)`. -/
theorem sort_idempotent (compar : List α → List α → δ → Int) (ds : δ) (w : Nat) (hw : 0 < w)
    (ho : TotalOrder compar ds w)
    (heq : ∀ a b : Rec α w, compar a.val b.val ds = 0 → a = b)
    (P S : List α) (L : List (Rec α w)) (tr tr2 : List (Event δ)) (fuel : Nat)
    (hf : L.length < fuel) :
    (AdjSorted compar ds L →
      ∃ tr1, sort_r_simple compar ds w fuel (State.mk (P ++ flat L ++ S) tr) P.length L.length
        = .ok (State.mk (P ++ flat L ++ S) tr1))
    ∧ (∃ m1 tr1 tr3,
        sort_r_simple compar ds w fuel (State.mk (P ++ flat L ++ S) tr) P.length L.length
          = .ok (State.mk m1 tr1)
        ∧ sort_r_simple compar ds w fuel (State.mk m1 tr2) P.length L.length
          = .ok (State.mk m1 tr3)) := by
  have key : ∀ (L0 : List (Rec α w)) (t : List (Event δ)), L0.length < fuel →
      Sorted compar ds L0 →
      ∃ tr1, sort_r_simple compar ds w fuel (State.mk (P ++ flat L0 ++ S) t) P.length L0.length
        = .ok (State.mk (P ++ flat L0 ++ S) tr1) := by
    intro L0 t hf0 hs
    obtain ⟨L1, st1, c, s, h1, h2, h3, h4, h5⟩ :=
      sort_r_simple_spec compar ds hw fuel L0 P S (State.mk (P ++ flat L0 ++ S) t) hf0 rfl
    have hL : L1 = L0 := sorted_perm_unique compar ds ho heq h3 (h5 ho) hs
    refine ⟨st1.trace, ?_⟩
    rw [h1, ← hL, ← h2]
  constructor
  · intro hs
    exact key L tr hf (sorted_of_adjSorted ho hs)
  · obtain ⟨L1, st1, c, s, h1, h2, h3, h4, h5⟩ :=
      sort_r_simple_spec compar ds hw fuel L P S (State.mk (P ++ flat L ++ S) tr) hf rfl
    obtain ⟨tr3, h6⟩ := key L1 tr2 (by rw [h3.length_eq]; exact hf) (h5 ho)
    refine ⟨P ++ flat L1 ++ S, st1.trace, tr3, ?_, ?_⟩
    · rw [h1, ← h2]
    · rw [h3.length_eq] at h6
      exact h6


/-- Witness for C6: the ten integers `1 1 2 3 3 4 5 5 6 9`, already in order, are left as
they are (quicksort path), and so are the nine integers `1 .. 9` (insertion-sort path). -/
theorem sort_idempotent_witness :
    (∃ tr1, qsort (State.mk [1, 1, 2, 3, 3, 4, 5, 5, 6, 9] []) 0 10 1 int_cmp
        = .ok (State.mk [1, 1, 2, 3, 3, 4, 5, 5, 6, 9] tr1))
    ∧ (∃ tr1, qsort (State.mk [1, 2, 3, 4, 5, 6, 7, 8, 9] []) 0 9 1 int_cmp
        = .ok (State.mk [1, 2, 3, 4, 5, 6, 7, 8, 9] tr1))
    ∧ (∃ tr1, sort_r_simple (fun a b (_ : Unit) => int_cmp a b) () 1 11
            (State.mk ([] ++ flat ([1, 1, 2, 3, 3, 4, 5, 5, 6, 9].map int_rec) ++ []) []) 0 10
          = .ok (State.mk ([] ++ flat ([1, 1, 2, 3, 3, 4, 5, 5, 6, 9].map int_rec) ++ []) tr1)) :=
  ⟨⟨_, rfl⟩, ⟨_, rfl⟩,
   (sort_idempotent (fun a b (_ : Unit) => int_cmp a b) () 1 (by decide) int_cmp_total
     (fun a b h => int_cmp_eq a b h) [] [] ([1, 1, 2, 3, 3, 4, 5, 5, 6, 9].map int_rec) [] []
     11 (by decide)).1
     (adjSorted_of_sorted (by unfold Sorted; decide))⟩

/-- C7 (all-equal input). For every `n`, every positive width and every comparator that
answers 0 on a record `r` against itself, `Sort` on a buffer of `n` copies of `r` returns
with the memory unchanged after at most `n + 1` comparator invocations; for `n >= 10` it
makes exactly `n + 1` of them, and the single partitioning pass leaves `pl = ple` and
`pre = pr`: both recursive calls are on empty ranges. -/
theorem sort_all_equal (compar : List α → List α → δ → Int) (ds : δ) (w : Nat) (hw : 0 < w)
    (r : Rec α w) (hr : compar r.val r.val ds = 0) (n : Nat) (P S : List α)
    (tr : List (Event δ)) (fuel : Nat) (hf : n < fuel) :
    (∃ ev, sort_r_simple compar ds w fuel
          (State.mk (P ++ flat (List.replicate n r) ++ S) tr) P.length n
        = .ok (State.mk (P ++ flat (List.replicate n r) ++ S) (tr ++ ev))
      ∧ ev.countP Event.isCompar ≤ n + 1
      ∧ (10 ≤ n → ev.countP Event.isCompar = n + 1))
    ∧ (10 ≤ n → ∃ st1 loc, partition_phase compar ds w
          (State.mk (P ++ flat (List.replicate n r) ++ S) tr) P.length n = .ok (st1, loc)
        ∧ loc.pl = loc.ple ∧ loc.pre = loc.pr) := by
  have hall : ∀ x ∈ List.replicate n r, x = r := fun x hx => List.eq_of_mem_replicate hx
  have hlen : (List.replicate n r).length = n := List.length_replicate _ _
  constructor
  · obtain ⟨st1, c, s, h1, h2, ⟨ev, k1, -, k3, -⟩, h4, h5⟩ :=
      sort_r_simple_alleq compar ds hw r hr fuel (List.replicate n r) P S
        (State.mk (P ++ flat (List.replicate n r) ++ S) tr) (by rw [hlen]; exact hf) rfl hall
    rw [hlen] at h1 h4 h5
    refine ⟨ev, ?_, by rw [k3]; exact h4, fun h => by rw [k3]; exact h5 h⟩
    rw [h1]
    cases st1 with
    | mk m t =>
      simp only at h2 k1
      rw [h2, k1]
  · intro h10
    obtain ⟨k, st1, s, a1, -, -⟩ := partition_phase_alleq compar ds hw r hr
      (State.mk (P ++ flat (List.replicate n r) ++ S) tr) rfl (by rw [hlen]; exact h10) hall
    rw [hlen] at a1
    exact ⟨st1, _, a1, rfl, rfl⟩

/-- Witness for C7: ten copies of 7; the twelve events of the run are two comparisons of
pivot selection, the exchange of the middle record with the last one, and nine
comparisons against the pivot. -/
theorem sort_all_equal_witness :
    (qsort (State.mk [7, 7, 7, 7, 7, 7, 7, 7, 7, 7] []) 0 10 1 int_cmp
        = .ok (State.mk [7, 7, 7, 7, 7, 7, 7, 7, 7, 7]
            [Event.compar 1 5 (), Event.compar 5 8 (), Event.swap 5 9 1, Event.compar 0 9 (),
              Event.compar 1 9 (), Event.compar 2 9 (), Event.compar 3 9 (), Event.compar 4 9 (),
              Event.compar 5 9 (), Event.compar 6 9 (), Event.compar 7 9 (),
              Event.compar 8 9 ()]))
    ∧ (∃ ev, sort_r_simple (fun a b (_ : Unit) => int_cmp a b) () 1 11
          (State.mk ([] ++ flat (List.replicate 10 (int_rec 7)) ++ []) []) 0 10
        = .ok (State.mk ([] ++ flat (List.replicate 10 (int_rec 7)) ++ []) ([] ++ ev))
      ∧ ev.countP Event.isCompar ≤ 10 + 1
      ∧ (10 ≤ 10 → ev.countP Event.isCompar = 10 + 1)) :=
  ⟨rfl,
   (sort_all_equal (fun a b (_ : Unit) => int_cmp a b) () 1 (by decide) (int_rec 7) (by decide)
     10 [] [] [] 11 (by decide)).1⟩

/-- C8 (context threading). For every buffer of records of positive width, every
comparator `compar` taking a context argument and every context value `ds`,
`sort_r_simple` with enough fuel hands exactly `ds` to every comparator invocation of the
run, and the context-free run with the two-argument comparator `(a, b) -> compar(a, b, ds)`
returns the same memory and, the context argument apart, the same trace. The two runs
agree in this way from every state, also when they fail; and `qsort(base, nel, width,
compar)` is `sort_r_simple` with the empty parameter pack. -/
theorem context_threading (compar : List α → List α → δ → Int) (ds : δ) (w : Nat)
    (hw : 0 < w) (P S : List α) (L : List (Rec α w)) (tr : List (Event δ)) (fuel : Nat)
    (hf : L.length < fuel) :
    (∃ (L1 : List (Rec α w)) (ev : List (Event δ)),
      sort_r_simple compar ds w fuel (State.mk (P ++ flat L ++ S) tr) P.length L.length
        = .ok (State.mk (P ++ flat L1 ++ S) (tr ++ ev))
      ∧ (∀ a b d, Event.compar a b d ∈ ev → d = ds)
      ∧ sort_r_simple (fun x y (_ : Unit) => compar x y ds) () w fuel
          (State.mk (P ++ flat L ++ S) (tr.map Event.erase)) P.length L.length
        = .ok (State.mk (P ++ flat L1 ++ S) ((tr ++ ev).map Event.erase)))
    ∧ (∀ (st : State α δ) (b nel f : Nat),
      sort_r_simple (fun x y (_ : Unit) => compar x y ds) () w f st.erase b nel
        = (sort_r_simple compar ds w f st b nel).map State.erase)
    ∧ (∀ (c2 : List α → List α → Int) (st2 : State α Unit) (b nel : Nat),
      qsort st2 b nel w c2 = sort_r_simple (fun x y (_ : Unit) => c2 x y) () w (nel + 1) st2 b
        nel) := by
  refine ⟨?_, fun st b nel f => sort_r_simple_erase compar ds w f st b nel,
    fun c2 st2 b nel => rfl⟩
  obtain ⟨L1, st1, c, s, h1, h2, h3, ⟨ev, k1, k2, -, -⟩, -⟩ :=
    sort_r_simple_spec compar ds hw fuel L P S (State.mk (P ++ flat L ++ S) tr) hf rfl
  have hst : st1 = State.mk (P ++ flat L1 ++ S) (tr ++ ev) := by
    cases st1 with
    | mk m t =>
      simp only at h2 k1
      rw [h2, k1]
  rw [hst] at h1
  refine ⟨L1, ev, h1, ?_, ?_⟩
  · intro a b d hd
    exact (k2 _ hd).1
  · have := sort_r_simple_erase compar ds w fuel (State.mk (P ++ flat L ++ S) tr) P.length
      L.length
    rw [h1] at this
    exact this

/-- Witness for C8: eleven integers sorted by their distance from the context value 5. -/
theorem context_threading_witness :
    (∃ tr1, sort_r_simple dist_cmp 5 1 12 (State.mk [5, 3, 3, 1, 4, 1, 5, 9, 2, 6, 12] []) 0 11
        = .ok (State.mk [5, 5, 4, 6, 3, 3, 2, 1, 9, 1, 12] tr1))
    ∧ (∃ (L1 : List (Rec Int 1)) (ev : List (Event Int)),
      sort_r_simple dist_cmp 5 1 12
          (State.mk ([] ++ flat ([5, 3, 3, 1, 4, 1, 5, 9, 2, 6, 12].map int_rec) ++ []) []) 0 11
        = .ok (State.mk ([] ++ flat L1 ++ []) ([] ++ ev))
      ∧ (∀ a b d, Event.compar a b d ∈ ev → d = 5)
      ∧ sort_r_simple (fun x y (_ : Unit) => dist_cmp x y 5) () 1 12
          (State.mk ([] ++ flat ([5, 3, 3, 1, 4, 1, 5, 9, 2, 6, 12].map int_rec) ++ [])
            (([] : List (Event Int)).map Event.erase)) 0 11
        = .ok (State.mk ([] ++ flat L1 ++ []) (([] ++ ev).map Event.erase))) :=
  ⟨⟨_, rfl⟩,
   (context_threading dist_cmp 5 1 (by decide) [] []
     ([5, 3, 3, 1, 4, 1, 5, 9, 2, 6, 12].map int_rec) [] 12 (by decide)).1⟩

/-- C9 (comparator-guarded swap). `sort_r_cmpswap` on two distinct records `x` and `y` of
width `w` of the memory, in either order of their addresses, invokes the comparator
exactly once, on the two pointers in the order given; when the answer is `> 0` it calls
`sort_r_swap` once, the two records have exchanged their contents, and it returns 1;
otherwise it returns 0 and the memory is unchanged. The units `A`, `B`, `C` before,
between and after the two records are the same afterwards in both cases. -/
theorem sort_r_cmpswap_contract (compar : List α → List α → δ → Int) (ds : δ) (w : Nat)
    (st : State α δ) (A x B y C : List α) (hx : x.length = w) (hy : y.length = w)
    (hm : st.mem = A ++ (x ++ (B ++ (y ++ C)))) :
    sort_r_cmpswap st A.length (A.length + w + B.length) w compar ds
      = (if compar x y ds > 0 then
          .ok (1, { mem := A ++ (y ++ (B ++ (x ++ C))),
                    trace := st.trace ++ [Event.compar A.length (A.length + w + B.length) ds,
                      Event.swap A.length (A.length + w + B.length) w] })
        else
          .ok (0, { mem := st.mem,
                    trace := st.trace ++ [Event.compar A.length (A.length + w + B.length) ds] }))
    ∧ sort_r_cmpswap st (A.length + w + B.length) A.length w compar ds
      = (if compar y x ds > 0 then
          .ok (1, { mem := A ++ (y ++ (B ++ (x ++ C))),
                    trace := st.trace ++ [Event.compar (A.length + w + B.length) A.length ds,
                      Event.swap (A.length + w + B.length) A.length w] })
        else
          .ok (0, { mem := st.mem,
                    trace := st.trace
                      ++ [Event.compar (A.length + w + B.length) A.length ds] })) := by
  have r1 : record st.mem A.length w = .ok x := record_spec (by rw [hm]) rfl hx
  have r2 : record st.mem (A.length + w + B.length) w = .ok y :=
    record_spec (A := A ++ (x ++ B)) (C := C) (by simp [hm]) (by simp [hx]; omega) hy
  have hs : ∀ tr : List (Event δ),
      sort_r_swap_loop (State.mk st.mem tr).mem A.length (A.length + w + B.length) w
        = .ok (A ++ (y ++ (B ++ (x ++ C)))) := by
    intro tr
    have := sort_r_swap_loop_append x A B y C (by omega)
    rw [hx] at this
    simpa [hm] using this
  constructor
  · simp only [sort_r_cmpswap, call_compar, r1, r2, ok_bind, pure_eq_ok]
    split
    · simp only [sort_r_swap, hs, ok_bind, pure_eq_ok]
      simp
    · rfl
  · simp only [sort_r_cmpswap, call_compar, r1, r2, ok_bind, pure_eq_ok]
    split
    · simp only [sort_r_swap, sort_r_swap_loop_comm w _ (A.length + w + B.length), hs, ok_bind,
        pure_eq_ok]
      simp
    · rfl

/-- Witness for C9: the records `5 6` and `1 2` of width 2 in the memory `0 5 6 9 1 2 7`,
compared by their first unit: called on (`5 6`, `1 2`) the records are exchanged, called
on (`1 2`, `5 6`) nothing changes. -/
theorem sort_r_cmpswap_contract_witness :
    sort_r_cmpswap (State.mk [0, 5, 6, 9, 1, 2, 7] []) 1 4 2
        (fun a b (_ : Unit) => int_cmp a b) ()
      = .ok (1, State.mk [0, 1, 2, 9, 5, 6, 7] [Event.compar 1 4 (), Event.swap 1 4 2])
    ∧ sort_r_cmpswap (State.mk [0, 5, 6, 9, 1, 2, 7] []) 4 1 2
        (fun a b (_ : Unit) => int_cmp a b) ()
      = .ok (0, State.mk [0, 5, 6, 9, 1, 2, 7] [Event.compar 4 1 ()]) :=
  sort_r_cmpswap_contract (fun a b (_ : Unit) => int_cmp a b) () 2
    (State.mk [0, 5, 6, 9, 1, 2, 7] []) [0] [5, 6] [9] [1, 2] [7] rfl rfl rfl

/-- C10 (range rotation). `sort_r_swap_blocks(ptr, na, nb)` on a span made of a left
block `Lf` of `na` units followed by a right block `Rg` of `nb` units returns, and
afterwards the first `nb` units of the span are a permutation of `Rg`, the last `na` units
are a permutation of `Lf`, and the units `A` before and `C` after the span are unchanged;
when `na = 0` or `nb = 0` the span is unchanged and `sort_r_swap` is not called. -/
theorem sort_r_swap_blocks_contract (tr : List (Event δ)) (A Lf Rg C : List α) :
    ∃ span tr1,
      sort_r_swap_blocks (State.mk (A ++ (Lf ++ (Rg ++ C))) tr) A.length Lf.length Rg.length
        = .ok (State.mk (A ++ (span ++ C)) tr1)
      ∧ span.length = Lf.length + Rg.length
      ∧ (span.take Rg.length).Perm Rg ∧ (span.drop Rg.length).Perm Lf
      ∧ (Lf.length = 0 ∨ Rg.length = 0 → span = Lf ++ Rg ∧ tr1 = tr) := by
  by_cases h0 : Lf.length > 0 ∧ Rg.length > 0
  · by_cases h1 : Lf.length > Rg.length
    · have hs := sort_r_swap_spec (State.mk (A ++ (Lf ++ (Rg ++ C))) tr)
        (A := A) (X := Lf.take Rg.length) (B := Lf.drop Rg.length) (Y := Rg) (C := C)
        (a := A.length) (b := A.length + Lf.length) (n := Rg.length)
        (by rw [← List.append_assoc (Lf.take Rg.length), List.take_append_drop]) rfl (by simp; omega) (by simp; omega) rfl
      refine ⟨Rg ++ (Lf.drop Rg.length ++ Lf.take Rg.length),
        tr ++ [Event.swap A.length (A.length + Lf.length) Rg.length], ?_, ?_, ?_, ?_, ?_⟩
      · simp only [sort_r_swap_blocks, h0, h1, and_self, if_true]
        rw [hs]
        simp
      · simp; omega
      · simp
      · simp only [List.drop_left]
        exact List.perm_append_comm.trans (by rw [List.take_append_drop])
      · intro h; omega
    · have hs := sort_r_swap_spec (State.mk (A ++ (Lf ++ (Rg ++ C))) tr)
        (A := A) (X := Lf) (B := Rg.take (Rg.length - Lf.length))
        (Y := Rg.drop (Rg.length - Lf.length)) (C := C)
        (a := A.length) (b := A.length + Rg.length) (n := Lf.length)
        (by rw [← List.append_assoc (Rg.take _), List.take_append_drop]) rfl (by simp; omega) rfl (by simp; omega)
      refine ⟨Rg.drop (Rg.length - Lf.length) ++ (Rg.take (Rg.length - Lf.length) ++ Lf),
        tr ++ [Event.swap A.length (A.length + Rg.length) Lf.length], ?_, ?_, ?_, ?_, ?_⟩
      · simp only [sort_r_swap_blocks, h0, h1, and_self, if_true, if_false]
        rw [hs]
        simp
      · simp; omega
      · rw [← List.append_assoc, List.take_left' (by simp)]
        exact List.perm_append_comm.trans (by rw [List.take_append_drop])
      · rw [← List.append_assoc, List.drop_left' (by simp)]
      · intro h; omega
  · refine ⟨Lf ++ Rg, tr, ?_, ?_, ?_, ?_, ?_⟩
    · simp only [sort_r_swap_blocks, h0, if_false, pure_eq_ok]
      simp
    · simp
    · rcases Nat.eq_zero_or_pos Lf.length with h | h
      · have : Lf = [] := List.length_eq_zero.mp h
        subst this; simp
      · have h2 : Rg.length = 0 := by omega
        have : Rg = [] := List.length_eq_zero.mp h2
        subst this; simp
    · rcases Nat.eq_zero_or_pos Lf.length with h | h
      · have : Lf = [] := List.length_eq_zero.mp h
        subst this; simp
      · have h2 : Rg.length = 0 := by omega
        have : Rg = [] := List.length_eq_zero.mp h2
        subst this; simp
    · intro _; exact ⟨rfl, rfl⟩

/-- Witness for C10: the three examples of the comment of `sort_r_swap_blocks`,
`12345ab -> ab34512`, `123abc -> abc123` and `12abcde -> deabc12`. -/
theorem sort_r_swap_blocks_contract_witness :
    (sort_r_swap_blocks (State.mk ['1', '2', '3', '4', '5', 'a', 'b'] ([] : List (Event Unit)))
        0 5 2).map (fun s => s.mem) = .ok ['a', 'b', '3', '4', '5', '1', '2']
    ∧ (sort_r_swap_blocks (State.mk ['1', '2', '3', 'a', 'b', 'c'] ([] : List (Event Unit)))
        0 3 3).map (fun s => s.mem) = .ok ['a', 'b', 'c', '1', '2', '3']
    ∧ (sort_r_swap_blocks (State.mk ['1', '2', 'a', 'b', 'c', 'd', 'e'] ([] : List (Event Unit)))
        0 2 5).map (fun s => s.mem) = .ok ['d', 'e', 'a', 'b', 'c', '1', '2']
    ∧ (∃ span tr1,
      sort_r_swap_blocks (State.mk ([] ++ (['1', '2'] ++ (['a', 'b', 'c', 'd', 'e'] ++ [])))
          ([] : List (Event Unit))) 0 2 5 = .ok (State.mk ([] ++ (span ++ [])) tr1)
      ∧ span.length = 2 + 5
      ∧ (span.take 5).Perm ['a', 'b', 'c', 'd', 'e'] ∧ (span.drop 5).Perm ['1', '2']) :=
  ⟨rfl, rfl, rfl, by
    obtain ⟨span, tr1, h1, h2, h3, h4, -⟩ :=
      sort_r_swap_blocks_contract ([] : List (Event Unit)) [] ['1', '2']
        ['a', 'b', 'c', 'd', 'e'] []
    exact ⟨span, tr1, h1, h2, h3, h4⟩⟩

/-- C11 (no overlapping exchange). For every positive width, every comparator, every
memory that holds the range and enough fuel, `Sort` returns, and every call
`sort_r_swap(x, y, m)` it makes (from insertion sort, pivot placement, the partition scan
or Range Rotation, all of which are recorded in the trace) has a positive length `m` and
is on two regions `[x, x + m)` and `[y, y + m)` that lie inside the range, the first one
ending at or before the start of the second: the two regions are disjoint, hence never
identical. -/
theorem swap_regions_disjoint (compar : List α → List α → δ → Int) (ds : δ) (w : Nat)
    (hw : 0 < w) (st : State α δ) (b nel fuel : Nat) (hbuf : b + w * nel ≤ st.mem.length)
    (hf : nel < fuel) :
    ∃ (st1 : State α δ) (ev : List (Event δ)),
      sort_r_simple compar ds w fuel st b nel = .ok st1
      ∧ st1.trace = st.trace ++ ev
      ∧ ∀ x y m, Event.swap x y m ∈ ev →
          0 < m ∧ b ≤ x ∧ x + m ≤ y ∧ y + m ≤ b + w * nel ∧ x ≠ y := by
  obtain ⟨P, L, S, hm, hP, hL⟩ := layout_exists w st.mem b nel hbuf
  subst hP hL
  obtain ⟨L1, st1, c, s, h1, -, -, ⟨ev, k1, k2, -, -⟩, -⟩ :=
    sort_r_simple_spec compar ds hw fuel L P S st hf hm
  obtain ⟨ev2, k3, k4⟩ := sort_r_simple_pos compar ds w hw fuel st st1 _ _ h1
  have he : ev2 = ev := List.append_cancel_left (k3.symm.trans k1)
  subst he
  refine ⟨st1, ev2, h1, k1, ?_⟩
  intro x y m hmem
  have hpos := k4 x y m hmem
  obtain ⟨i, j, k, e1, e2, e3, e4, e5⟩ := k2 _ hmem
  have q1 : w * (i + k) ≤ w * j := Nat.mul_le_mul_left w e4
  have q2 : w * (j + k) ≤ w * L.length := Nat.mul_le_mul_left w e5
  simp only [Nat.mul_add] at q1 q2
  subst e1 e2 e3
  refine ⟨hpos, by omega, by omega, by omega, by omega⟩

/-- Witness for C11: eleven integers sorted with the comparator that always answers
"greater", which makes every guarded exchange happen. -/
theorem swap_regions_disjoint_witness :
    ∃ (st1 : State Int Unit) (ev : List (Event Unit)),
      sort_r_simple (fun _ _ _ => 1) () 1 12
          (State.mk [5, 3, 3, 1, 4, 1, 5, 9, 2, 6, 8] []) 0 11 = .ok st1
      ∧ st1.trace = (State.mk [5, 3, 3, 1, 4, 1, 5, 9, 2, 6, 8] ([] : List (Event Unit))).trace
          ++ ev
      ∧ ∀ x y m, Event.swap x y m ∈ ev →
          0 < m ∧ 0 ≤ x ∧ x + m ≤ y ∧ y + m ≤ 0 + 1 * 11 ∧ x ≠ y :=
  swap_regions_disjoint (fun _ _ _ => 1) () 1 (by decide)
    (State.mk [5, 3, 3, 1, 4, 1, 5, 9, 2, 6, 8] []) 0 11 12 (by decide) (by decide)

/-- C12 (no stability). There are a buffer of ten records of two integers, a key and a
tag, and a comparator that is a valid total order (it compares the keys) such that `qsort`
returns and changes the relative order of two records with equal keys: the records `r1`
and `r2` compare equal and are distinct, they are the records of the input that compare
equal to `r1`, in this order, and in the output they are in the opposite order; so the
output is not `Stable` with respect to the input. -/
theorem sort_not_stable :
    ∃ (L L1 : List (Rec Int 2)) (compar : List Int → List Int → Int) (r1 r2 : Rec Int 2)
      (tr1 : List (Event Unit)),
      TotalOrder (fun a b (_ : Unit) => compar a b) () 2
      ∧ qsort (State.mk (flat L) []) 0 L.length 2 compar = .ok (State.mk (flat L1) tr1)
      ∧ compar r1.val r2.val = 0 ∧ r1 ≠ r2
      ∧ equalTo (fun a b (_ : Unit) => compar a b) () r1 L = [r1, r2]
      ∧ equalTo (fun a b (_ : Unit) => compar a b) () r1 L1 = [r2, r1]
      ∧ ¬ Stable (fun a b (_ : Unit) => compar a b) () L L1 := by
  refine ⟨[int_rec2 5 0, int_rec2 3 1, int_rec2 3 2, int_rec2 1 3, int_rec2 4 4, int_rec2 1 5,
      int_rec2 5 6, int_rec2 9 7, int_rec2 2 8, int_rec2 6 9],
    [int_rec2 1 5, int_rec2 1 3, int_rec2 2 8, int_rec2 3 1, int_rec2 3 2, int_rec2 4 4,
      int_rec2 5 0, int_rec2 5 6, int_rec2 6 9, int_rec2 9 7],
    int_cmp, int_rec2 1 3, int_rec2 1 5, _, int_cmp_total_any 2, rfl, rfl, by decide, rfl, rfl,
    ?_⟩
  intro h
  have h1 := h (int_rec2 1 3)
  have h2 : equalTo (fun a b (_ : Unit) => int_cmp a b) () (int_rec2 1 3)
      [int_rec2 1 5, int_rec2 1 3, int_rec2 2 8, int_rec2 3 1, int_rec2 3 2, int_rec2 4 4,
        int_rec2 5 0, int_rec2 5 6, int_rec2 6 9, int_rec2 9 7]
      = [int_rec2 1 5, int_rec2 1 3] := rfl
  have h3 : equalTo (fun a b (_ : Unit) => int_cmp a b) () (int_rec2 1 3)
      [int_rec2 5 0, int_rec2 3 1, int_rec2 3 2, int_rec2 1 3, int_rec2 4 4, int_rec2 1 5,
        int_rec2 5 6, int_rec2 9 7, int_rec2 2 8, int_rec2 6 9]
      = [int_rec2 1 3, int_rec2 1 5] := rfl
  rw [h2, h3] at h1
  exact absurd h1 (by decide)

/-- C13 (partition postcondition). For every range of at least 10 records of positive
width and every comparator that is a valid total order: pivot selection and placement
return with a pivot record `p` in the last position; the part of `sort_r_simple` before the
recursive calls then returns with the range laid out as three zones `Ls`, `Mid`, `G`, a
permutation of the range, where `Ls` holds `(pl-ple)/w` records that all compare `< 0`
against `p`, `G` holds `(pre-pr)/w` records that all compare `> 0` against `p`, and every
record of `Mid`, one of which is `p` itself, compares equal to `p`; and the rest of
`sort_r_simple` is the recursive call on `Ls` (at the base pointer) followed by the
recursive call on `G` (right after `Mid`). -/
theorem partition_postcondition (compar : List α → List α → δ → Int) (ds : δ) (w : Nat)
    (hw : 0 < w) (ho : TotalOrder compar ds w) (P S : List α) (L : List (Rec α w))
    (tr : List (Event δ)) (fuel : Nat) (hL : 10 ≤ L.length) :
    ∃ (st0 : State α δ) (cand : Cand) (p : Rec α w) (Ls Mid G : List (Rec α w))
      (st1 : State α δ) (loc : Locals),
      pivot_phase compar ds w (State.mk (P ++ flat L ++ S) tr) P.length L.length
        = .ok (st0, cand)
      ∧ record st0.mem (P.length + w * (L.length - 1)) w = .ok p.val
      ∧ partition_phase compar ds w (State.mk (P ++ flat L ++ S) tr) P.length L.length
        = .ok (st1, loc)
      ∧ st1.mem = P ++ flat (Ls ++ (Mid ++ G)) ++ S
      ∧ (Ls ++ (Mid ++ G)).Perm L
      ∧ Ls.length = (loc.pl - loc.ple) / w ∧ G.length = (loc.pre - loc.pr) / w
      ∧ (∀ l ∈ Ls, compar l.val p.val ds < 0)
      ∧ (∀ x ∈ Mid, compar x.val p.val ds = 0) ∧ p ∈ Mid
      ∧ (∀ g ∈ G, 0 < compar g.val p.val ds)
      ∧ sort_r_simple compar ds w (fuel + 1) (State.mk (P ++ flat L ++ S) tr) P.length L.length
        = (sort_r_simple compar ds w fuel st1 P.length Ls.length >>= fun st2 =>
            sort_r_simple compar ds w fuel st2 (P.length + w * (Ls.length + Mid.length))
              G.length) := by
  obtain ⟨L0, p, j0, j1, j2, q0, q2, st0, c1, a1, a2, a3, -, -, -, -, -, -, -, -⟩ :=
    pivot_phase_spec compar ds hw (State.mk (P ++ flat L ++ S) tr) rfl hL
  have hlen := a3.length_eq
  simp only [List.length_append, List.length_cons, List.length_nil] at hlen
  obtain ⟨E1, Ls1, G1, E21, st2, c2, s2, b1, b2, b3, b4, b5, b6, b7, -⟩ :=
    scan_phase_spec compar ds hw st0 a2 hlen.symm
  have hlen2 := b3.length_eq
  simp only [List.length_append, List.length_cons, List.length_nil] at hlen2
  obtain ⟨Ls2, E2, Q2, G2, st3, s3, d1, d2, d3, d4, d5, d6, -, -⟩ :=
    rotate_phase_spec hw ds st2 (n := L.length) b2 (by omega)
      (P.length + w * (E1.length + Ls1.length))
  have hl3 := d3.length_eq
  have hl4 := d4.length_eq
  have hl5 := d5.length_eq
  have hl6 := d6.length_eq
  simp only [List.length_append, List.length_cons, List.length_nil] at hl5
  have hpart : partition_phase compar ds w (State.mk (P ++ flat L ++ S) tr) P.length L.length
      = .ok (st3, Locals.mk (P.length + w * E1.length)
            (P.length + w * (E1.length + Ls1.length))
            (P.length + w * (E1.length + Ls1.length))
            (P.length + w * (E1.length + Ls1.length + G1.length))) := by
    simp only [partition_phase, a1, ok_bind, b1]
    exact d1
  have e1 : (P.length + w * (E1.length + Ls1.length) - (P.length + w * E1.length))
      = w * Ls2.length := by
    simp only [Nat.mul_add, hl3]; omega
  have e2 : (P.length + w * (E1.length + Ls1.length + G1.length)
      - (P.length + w * (E1.length + Ls1.length))) = w * G2.length := by
    simp only [Nat.mul_add, hl6]; omega
  have hpp := TotalOrder_self ho p
  refine ⟨st0, _, p, Ls2, E2 ++ Q2, G2, st3, _, a1, ?_, hpart, by simpa using d2, ?_, ?_, ?_,
    ?_, ?_, ?_, ?_, ?_⟩
  · exact record_rec a2 (A := L0) (C := []) rfl (by rw [show L.length - 1 = L0.length by omega])
  · refine List.Perm.trans ?_ a3
    rw [← Multiset.coe_eq_coe] at b3 d3 d4 d5 d6 ⊢
    simp only [← Multiset.coe_add, ← Multiset.cons_coe, ← Multiset.singleton_add,
      Multiset.coe_nil, add_zero, zero_add] at b3 d3 d4 d5 d6 ⊢
    rw [d3, d4, d5, d6, ← b3]
    abel
  · show Ls2.length = (P.length + w * (E1.length + Ls1.length) - (P.length + w * E1.length)) / w
    rw [e1, Nat.mul_div_cancel_left _ hw]
  · show G2.length = (P.length + w * (E1.length + Ls1.length + G1.length)
      - (P.length + w * (E1.length + Ls1.length))) / w
    rw [e2, Nat.mul_div_cancel_left _ hw]
  · intro l hl
    exact b5 l (d3.subset hl)
  · intro x hx
    rcases List.mem_append.mp hx with h | h
    · exact b4 x (d4.subset h)
    · rcases List.mem_append.mp (d5.subset h) with h1 | h1
      · exact b7 x h1
      · simp only [List.mem_singleton] at h1
        rw [h1]; exact hpp
  · exact List.mem_append_right _ (d5.symm.subset (by simp))
  · intro g hg
    exact b6 g (d6.subset hg)
  · have h10 : ¬ L.length < 10 := by omega
    have p1 : psub (P.length + w * (E1.length + Ls1.length)) (P.length + w * E1.length)
        = .ok (w * Ls2.length) := by
      rw [psub_ok (by simp [Nat.mul_add]), e1]
    have p2 : psub (P.length + w * (E1.length + Ls1.length + G1.length))
        (P.length + w * (E1.length + Ls1.length)) = .ok (w * G2.length) := by
      rw [psub_ok (by simp [Nat.mul_add]), e2]
    have d1 : pdiv (w * Ls2.length) w = .ok Ls2.length := by
      rw [pdiv_ok hw, Nat.mul_div_cancel_left _ hw]
    have d2 : pdiv (w * G2.length) w = .ok G2.length := by
      rw [pdiv_ok hw, Nat.mul_div_cancel_left _ hw]
    have hlenw := congrArg (fun x => w * x) hlen
    have hlenw2 := congrArg (fun x => w * x) hlen2
    simp only [Nat.mul_add] at hlenw hlenw2
    have p3 : psub (P.length + L.length * w) (w * G2.length)
        = .ok (P.length + w * (Ls2.length + (E2 ++ Q2).length)) := by
      rw [Nat.mul_comm _ w, psub_ok (by rw [hl6]; omega)]
      congr 1
      simp only [Nat.mul_add, List.length_append, hl3, hl4, hl5, hl6, List.length_cons,
        List.length_nil]
      omega
    rw [sort_r_simple]
    simp only [if_neg h10, hpart, ok_bind, p1, p2, p3, d1, d2]

/-- Witness for C13: the ten integers `5 3 3 1 4 1 5 9 2 6` with the ascending integer
comparator; the pivot is `2` and the range becomes `1 1 | 2 | 3 4 5 5 9 6 3`. -/
theorem partition_postcondition_witness :
    (partition_phase (fun a b (_ : Unit) => int_cmp a b) () 1
        (State.mk [5, 3, 3, 1, 4, 1, 5, 9, 2, 6] []) 0 10).map (fun r => (r.1.mem, r.2))
      = .ok ([1, 1, 2, 3, 4, 5, 5, 9, 6, 3], Locals.mk 0 2 2 9)
    ∧ ∃ (st0 : State Int Unit) (cand : Cand) (p : Rec Int 1) (Ls Mid G : List (Rec Int 1))
      (st1 : State Int Unit) (loc : Locals),
      pivot_phase (fun a b (_ : Unit) => int_cmp a b) () 1
          (State.mk ([] ++ flat ([5, 3, 3, 1, 4, 1, 5, 9, 2, 6].map int_rec) ++ []) [])
          ([] : List Int).length ([5, 3, 3, 1, 4, 1, 5, 9, 2, 6].map int_rec).length
        = .ok (st0, cand)
      ∧ record st0.mem (([] : List Int).length
          + 1 * (([5, 3, 3, 1, 4, 1, 5, 9, 2, 6].map int_rec).length - 1)) 1 = .ok p.val
      ∧ partition_phase (fun a b (_ : Unit) => int_cmp a b) () 1
          (State.mk ([] ++ flat ([5, 3, 3, 1, 4, 1, 5, 9, 2, 6].map int_rec) ++ []) [])
          ([] : List Int).length ([5, 3, 3, 1, 4, 1, 5, 9, 2, 6].map int_rec).length
        = .ok (st1, loc)
      ∧ st1.mem = [] ++ flat (Ls ++ (Mid ++ G)) ++ []
      ∧ (Ls ++ (Mid ++ G)).Perm ([5, 3, 3, 1, 4, 1, 5, 9, 2, 6].map int_rec)
      ∧ Ls.length = (loc.pl - loc.ple) / 1 ∧ G.length = (loc.pre - loc.pr) / 1
      ∧ (∀ l ∈ Ls, int_cmp l.val p.val < 0)
      ∧ (∀ x ∈ Mid, int_cmp x.val p.val = 0) ∧ p ∈ Mid
      ∧ (∀ g ∈ G, 0 < int_cmp g.val p.val)
      ∧ sort_r_simple (fun a b (_ : Unit) => int_cmp a b) () 1 (10 + 1)
          (State.mk ([] ++ flat ([5, 3, 3, 1, 4, 1, 5, 9, 2, 6].map int_rec) ++ []) [])
          ([] : List Int).length ([5, 3, 3, 1, 4, 1, 5, 9, 2, 6].map int_rec).length
        = (sort_r_simple (fun a b (_ : Unit) => int_cmp a b) () 1 10 st1
              ([] : List Int).length Ls.length >>= fun st2 =>
            sort_r_simple (fun a b (_ : Unit) => int_cmp a b) () 1 10 st2
              (([] : List Int).length + 1 * (Ls.length + Mid.length)) G.length) :=
  ⟨rfl, partition_postcondition (fun a b (_ : Unit) => int_cmp a b) () 1 (by decide)
    int_cmp_total [] [] ([5, 3, 3, 1, 4, 1, 5, 9, 2, 6].map int_rec) [] 10 (by decide)⟩

/-- C14 (median of three). For every range of `nel >= 10` records of positive width and
every comparator that is a valid total order: the candidate positions satisfy
`1 < nel/2 < nel-2 < nel-1`, so they are pairwise distinct and none is the last one; pivot
selection and placement return, having invoked the comparator at most three times and
`sort_r_swap` once, with the last position holding a record `p` that was at one of the three
candidate positions while the records `q0` and `q2` that were at the other two satisfy
`compar(q0, p) <= 0` and `compar(q2, p) >= 0`; the partition scan then returns, every call
of `sort_r_swap` it makes is on two regions that end at or before the pivot pointer, and the
last position still holds `p`. -/
theorem median_of_three (compar : List α → List α → δ → Int) (ds : δ) (w : Nat)
    (hw : 0 < w) (ho : TotalOrder compar ds w) (P S : List α) (L : List (Rec α w))
    (tr : List (Event δ)) (hL : 10 ≤ L.length) :
    (1 < L.length / 2 ∧ L.length / 2 < L.length - 2 ∧ L.length - 2 < L.length - 1)
    ∧ ∃ (j0 j1 j2 : Nat) (q0 p q2 : Rec α w) (st0 : State α δ) (cand : Cand)
        (ev : List (Event δ)) (st2 : State α δ) (loc : Locals),
      pivot_phase compar ds w (State.mk (P ++ flat L ++ S) tr) P.length L.length
        = .ok (st0, cand)
      ∧ [j0, j1, j2].Perm [1, L.length / 2, L.length - 2]
      ∧ L[j0]? = some q0 ∧ L[j1]? = some p ∧ L[j2]? = some q2
      ∧ compar q0.val p.val ds ≤ 0 ∧ 0 ≤ compar q2.val p.val ds
      ∧ record st0.mem (P.length + w * (L.length - 1)) w = .ok p.val
      ∧ st0.trace = tr ++ ev ∧ ev.countP Event.isCompar ≤ 3 ∧ ev.countP Event.isSwap = 1
      ∧ scan_phase compar ds w st0 P.length L.length = .ok (st2, loc)
      ∧ SwapBelow (P.length + w * (L.length - 1)) st0.trace st2.trace
      ∧ record st2.mem (P.length + w * (L.length - 1)) w = .ok p.val := by
  refine ⟨by omega, ?_⟩
  obtain ⟨L0, p, j0, j1, j2, q0, q2, st0, c1, a1, a2, a3, a4, a5, a6, a7, ⟨ev, a8, -, a9, a10⟩,
      a11, a12, -⟩ :=
    pivot_phase_spec compar ds hw (State.mk (P ++ flat L ++ S) tr) rfl hL
  have hlen := a3.length_eq
  simp only [List.length_append, List.length_cons, List.length_nil] at hlen
  obtain ⟨E1, Ls1, G1, E21, st2, c2, s2, b1, b2, b3, -, -, -, -, -⟩ :=
    scan_phase_spec compar ds hw st0 a2 hlen.symm
  have hlen2 := b3.length_eq
  simp only [List.length_append, List.length_cons, List.length_nil] at hlen2
  have hlast : L.length - 1 = L0.length := by omega
  refine ⟨j0, j1, j2, q0, p, q2, st0, _, ev, st2, _, a1, a4, a5, a6, a7, (a12 ho).1,
    TotalOrder_nonneg_of_nonpos ho (a12 ho).2, ?_, a8, by omega, a10, b1,
    scan_phase_below b1, ?_⟩
  · exact record_rec a2 (A := L0) (C := []) rfl (by rw [hlast])
  · refine record_rec (L := E1 ++ (Ls1 ++ (G1 ++ (E21 ++ [p]))))
      (A := E1 ++ (Ls1 ++ (G1 ++ E21))) (C := []) b2 (by simp) ?_
    rw [hlast, ← hlen2]
    simp only [List.length_append]

/-- Witness for C14: the ten integers `5 3 3 1 4 1 5 9 2 6` with the ascending integer
comparator; the candidates `3`, `1`, `2` are at positions 1, 5, 8 and the median `2`
becomes the last record. -/
theorem median_of_three_witness :
    (pivot_phase (fun a b (_ : Unit) => int_cmp a b) () 1
        (State.mk [5, 3, 3, 1, 4, 1, 5, 9, 2, 6] []) 0 10).map (fun r => r.1.mem)
      = .ok [5, 3, 3, 1, 4, 1, 5, 9, 6, 2]
    ∧ (1 < ([5, 3, 3, 1, 4, 1, 5, 9, 2, 6].map int_rec).length / 2
      ∧ ([5, 3, 3, 1, 4, 1, 5, 9, 2, 6].map int_rec).length / 2
        < ([5, 3, 3, 1, 4, 1, 5, 9, 2, 6].map int_rec).length - 2
      ∧ ([5, 3, 3, 1, 4, 1, 5, 9, 2, 6].map int_rec).length - 2
        < ([5, 3, 3, 1, 4, 1, 5, 9, 2, 6].map int_rec).length - 1)
    ∧ ∃ (j0 j1 j2 : Nat) (q0 p q2 : Rec Int 1) (st0 : State Int Unit) (cand : Cand)
        (ev : List (Event Unit)) (st2 : State Int Unit) (loc : Locals),
      pivot_phase (fun a b (_ : Unit) => int_cmp a b) () 1
          (State.mk ([] ++ flat ([5, 3, 3, 1, 4, 1, 5, 9, 2, 6].map int_rec) ++ []) [])
          ([] : List Int).length ([5, 3, 3, 1, 4, 1, 5, 9, 2, 6].map int_rec).length
        = .ok (st0, cand)
      ∧ [j0, j1, j2].Perm [1, ([5, 3, 3, 1, 4, 1, 5, 9, 2, 6].map int_rec).length / 2,
          ([5, 3, 3, 1, 4, 1, 5, 9, 2, 6].map int_rec).length - 2]
      ∧ ([5, 3, 3, 1, 4, 1, 5, 9, 2, 6].map int_rec)[j0]? = some q0
      ∧ ([5, 3, 3, 1, 4, 1, 5, 9, 2, 6].map int_rec)[j1]? = some p
      ∧ ([5, 3, 3, 1, 4, 1, 5, 9, 2, 6].map int_rec)[j2]? = some q2
      ∧ int_cmp q0.val p.val ≤ 0 ∧ 0 ≤ int_cmp q2.val p.val
      ∧ record st0.mem (([] : List Int).length
          + 1 * (([5, 3, 3, 1, 4, 1, 5, 9, 2, 6].map int_rec).length - 1)) 1 = .ok p.val
      ∧ st0.trace = [] ++ ev ∧ ev.countP Event.isCompar ≤ 3 ∧ ev.countP Event.isSwap = 1
      ∧ scan_phase (fun a b (_ : Unit) => int_cmp a b) () 1 st0 ([] : List Int).length
          ([5, 3, 3, 1, 4, 1, 5, 9, 2, 6].map int_rec).length = .ok (st2, loc)
      ∧ SwapBelow (([] : List Int).length
          + 1 * (([5, 3, 3, 1, 4, 1, 5, 9, 2, 6].map int_rec).length - 1)) st0.trace st2.trace
      ∧ record st2.mem (([] : List Int).length
          + 1 * (([5, 3, 3, 1, 4, 1, 5, 9, 2, 6].map int_rec).length - 1)) 1 = .ok p.val :=
  ⟨rfl, median_of_three (fun a b (_ : Unit) => int_cmp a b) () 1 (by decide)
    int_cmp_total [] [] ([5, 3, 3, 1, 4, 1, 5, 9, 2, 6].map int_rec) [] (by decide)⟩

/-- Counterexample for C15: on the ten integers `5 3 3 1 4 1 5 9 2 6` with the ascending
integer comparator (a valid total order), pivot selection returns the pointers `5, 8, 1`
and leaves the memory as it was, so that after its three comparisons the second position
still holds `3` and the middle position `1`, which are not in ascending order; and the
record that pivot placement exchanges with the last one is the one at position 8, not the
one at the middle position `10 / 2 = 5`. -/
theorem pivot_records_not_reordered :
    TotalOrder (fun a b (_ : Unit) => int_cmp a b) () 1
    ∧ pivot_select (fun a b (_ : Unit) => int_cmp a b) () 1
        (State.mk [5, 3, 3, 1, 4, 1, 5, 9, 2, 6] []) (Cand.mk (0 + 1) (0 + 1 * (10 / 2)) (9 - 1))
      = .ok (Cand.mk 5 8 1, State.mk [5, 3, 3, 1, 4, 1, 5, 9, 2, 6]
          [Event.compar 1 5 (), Event.compar 1 8 (), Event.compar 5 8 ()])
    ∧ record [5, 3, 3, 1, 4, 1, 5, 9, 2, 6] 1 1 = .ok [3]
    ∧ record [5, 3, 3, 1, 4, 1, 5, 9, 2, 6] (10 / 2) 1 = .ok [1]
    ∧ 0 < int_cmp [3] [1]
    ∧ pivot_phase (fun a b (_ : Unit) => int_cmp a b) () 1
        (State.mk [5, 3, 3, 1, 4, 1, 5, 9, 2, 6] []) 0 10
      = .ok (State.mk [5, 3, 3, 1, 4, 1, 5, 9, 6, 2]
          [Event.compar 1 5 (), Event.compar 1 8 (), Event.compar 5 8 (), Event.swap 8 9 1],
          Cand.mk 5 8 1)
    ∧ 8 ≠ 10 / 2 :=
  ⟨int_cmp_total_any 1, rfl, rfl, rfl, by decide, rfl, by decide⟩

/-- C15, amended (pivot selection orders the candidate pointers). For every range of at
least 10 records of positive width and every comparator that is a valid total order, pivot
selection, started on the pointers to the second, middle and second-to-last records,
returns after two or three comparator invocations and no call of `sort_r_swap`, with the
memory unchanged and three pointers `l[0], l[1], l[2]` that are the three candidate positions
in some order and whose records `q0, q1, q2` are in ascending order under the comparator;
pivot placement then exchanges the record at `l[1]`, whichever of the three positions that
is, with the last record. -/
theorem pivot_select_orders_pointers (compar : List α → List α → δ → Int) (ds : δ) (w : Nat)
    (hw : 0 < w) (ho : TotalOrder compar ds w) (P S : List α) (L : List (Rec α w))
    (tr : List (Event δ)) (hL : 10 ≤ L.length) :
    ∃ (j0 j1 j2 : Nat) (q0 q1 q2 : Rec α w) (c : List (Event δ)) (st1 : State α δ),
      pivot_select compar ds w (State.mk (P ++ flat L ++ S) tr)
          (Cand.mk (P.length + w) (P.length + w * (L.length / 2))
            (P.length + w * (L.length - 1) - w))
        = .ok (Cand.mk (P.length + w * j0) (P.length + w * j1) (P.length + w * j2),
            State.mk (P ++ flat L ++ S) (tr ++ c))
      ∧ [j0, j1, j2].Perm [1, L.length / 2, L.length - 2]
      ∧ L[j0]? = some q0 ∧ L[j1]? = some q1 ∧ L[j2]? = some q2
      ∧ compar q0.val q1.val ds ≤ 0 ∧ compar q1.val q2.val ds ≤ 0
      ∧ (c.length = 2 ∨ c.length = 3) ∧ (∀ e ∈ c, e.isCompar = true)
      ∧ pivot_phase compar ds w (State.mk (P ++ flat L ++ S) tr) P.length L.length
        = .ok (st1, Cand.mk (P.length + w * j0) (P.length + w * j1) (P.length + w * j2))
      ∧ st1.trace
        = tr ++ c ++ [Event.swap (P.length + w * j1) (P.length + w * (L.length - 1)) w] := by
  obtain ⟨r0, h0⟩ : ∃ r, L[1]? = some r :=
    ⟨_, List.getElem?_eq_getElem (show 1 < L.length by omega)⟩
  obtain ⟨r1, h1⟩ : ∃ r, L[L.length / 2]? = some r :=
    ⟨_, List.getElem?_eq_getElem (show L.length / 2 < L.length by omega)⟩
  obtain ⟨r2, h2⟩ : ∃ r, L[L.length - 2]? = some r :=
    ⟨_, List.getElem?_eq_getElem (show L.length - 2 < L.length by omega)⟩
  obtain ⟨j0, j1, j2, q0, q1, q2, c, k1, k2, k3, k4, k5, ⟨ev, k6, -, -, k7⟩, -, k8, k9⟩ :=
    pivot_select_spec compar ds (State.mk (P ++ flat L ++ S) tr) rfl h0 h1 h2 (Nat.le_refl _)
  have hev : ev = c := (List.append_cancel_left k6).symm
  subst hev
  obtain ⟨_, _, _, _, _, _, _, st1, _, a1, -⟩ :=
    pivot_phase_spec compar ds hw (State.mk (P ++ flat L ++ S) tr) rfl hL
  obtain ⟨k, hk⟩ : ∃ k, L.length = k + 2 := ⟨L.length - 2, by omega⟩
  have e1 : L.length - 1 = k + 1 := by omega
  have e2 : L.length - 2 = k := by omega
  have hle : w ≤ P.length + w * (k + 1) := by simp [Nat.mul_add]; omega
  have e3 : P.length + w * (k + 1) - w = P.length + w * k := by simp [Nat.mul_add]; omega
  have hj1 : j1 < k + 1 := by
    have hmem : j1 ∈ [1, L.length / 2, L.length - 2] := k2.subset (by simp)
    simp only [List.mem_cons, List.mem_singleton, List.not_mem_nil, or_false] at hmem
    omega
  have hne : P.length + w * j1 ≠ P.length + w * (k + 1) := by
    obtain ⟨d, hd⟩ : ∃ d, k + 1 = j1 + 1 + d := ⟨k - j1, by omega⟩
    have := Nat.mul_pos hw (show 0 < 1 + d by omega)
    rw [hd, Nat.add_assoc, Nat.mul_add]
    omega
  rw [Nat.mul_one, e2] at k1
  simp only at k1
  simp only [pivot_phase, e1, psub_ok hle, e3, ok_bind, k1] at a1
  rw [if_pos hne] at a1
  obtain ⟨st2, h3, h4⟩ := bind_eq_ok a1
  have h5 := sort_r_swap_trace h3
  simp only [pure_eq_ok, Except.ok.injEq, Prod.mk.injEq] at h4
  obtain ⟨h6, h7⟩ := h4
  subst h6
  have hall : ∀ e ∈ ev, e.isCompar = true := by
    intro e he
    have := (List.countP_eq_zero.mp k7) e he
    cases e with
    | compar a b d => rfl
    | swap a b m => simp [Event.isSwap] at this
  refine ⟨j0, j1, j2, q0, q1, q2, ev, st2, ?_, k2, k3, k4, k5, (k8 ho).1, (k8 ho).2, ?_,
    hall, ?_, ?_⟩
  · rw [e1, e3]; exact k1
  · rcases k9 with h | h
    · exact Or.inl h
    · exact Or.inr h.1
  · simp only [pivot_phase, e1, psub_ok hle, e3, ok_bind, k1]
    rw [if_pos hne, h3]
    rfl
  · rw [h5, e1]

/-- Witness for the amended C15: the ten integers `5 3 3 1 4 1 5 9 2 6` with the ascending
integer comparator. -/
theorem pivot_select_orders_pointers_witness :
    ∃ (j0 j1 j2 : Nat) (q0 q1 q2 : Rec Int 1) (c : List (Event Unit)) (st1 : State Int Unit),
      pivot_select (fun a b (_ : Unit) => int_cmp a b) () 1
          (State.mk ([] ++ flat ([5, 3, 3, 1, 4, 1, 5, 9, 2, 6].map int_rec) ++ []) [])
          (Cand.mk (([] : List Int).length + 1)
            (([] : List Int).length
              + 1 * (([5, 3, 3, 1, 4, 1, 5, 9, 2, 6].map int_rec).length / 2))
            (([] : List Int).length
              + 1 * (([5, 3, 3, 1, 4, 1, 5, 9, 2, 6].map int_rec).length - 1) - 1))
        = .ok (Cand.mk (([] : List Int).length + 1 * j0) (([] : List Int).length + 1 * j1)
              (([] : List Int).length + 1 * j2),
            State.mk ([] ++ flat ([5, 3, 3, 1, 4, 1, 5, 9, 2, 6].map int_rec) ++ []) ([] ++ c))
      ∧ [j0, j1, j2].Perm [1, ([5, 3, 3, 1, 4, 1, 5, 9, 2, 6].map int_rec).length / 2,
          ([5, 3, 3, 1, 4, 1, 5, 9, 2, 6].map int_rec).length - 2]
      ∧ ([5, 3, 3, 1, 4, 1, 5, 9, 2, 6].map int_rec)[j0]? = some q0
      ∧ ([5, 3, 3, 1, 4, 1, 5, 9, 2, 6].map int_rec)[j1]? = some q1
      ∧ ([5, 3, 3, 1, 4, 1, 5, 9, 2, 6].map int_rec)[j2]? = some q2
      ∧ int_cmp q0.val q1.val ≤ 0 ∧ int_cmp q1.val q2.val ≤ 0
      ∧ (c.length = 2 ∨ c.length = 3) ∧ (∀ e ∈ c, e.isCompar = true)
      ∧ pivot_phase (fun a b (_ : Unit) => int_cmp a b) () 1
          (State.mk ([] ++ flat ([5, 3, 3, 1, 4, 1, 5, 9, 2, 6].map int_rec) ++ []) [])
          ([] : List Int).length ([5, 3, 3, 1, 4, 1, 5, 9, 2, 6].map int_rec).length
        = .ok (st1, Cand.mk (([] : List Int).length + 1 * j0)
            (([] : List Int).length + 1 * j1) (([] : List Int).length + 1 * j2))
      ∧ st1.trace
        = [] ++ c ++ [Event.swap (([] : List Int).length + 1 * j1)
            (([] : List Int).length
              + 1 * (([5, 3, 3, 1, 4, 1, 5, 9, 2, 6].map int_rec).length - 1)) 1] :=
  pivot_select_orders_pointers (fun a b (_ : Unit) => int_cmp a b) () 1 (by decide)
    int_cmp_total [] [] ([5, 3, 3, 1, 4, 1, 5, 9, 2, 6].map int_rec) [] (by decide)

/-- C16 (the scan pointers meet). For every range of at least 10 records of positive
width and every comparator (a function of the two records and the context, hence
deterministic): pivot selection and placement return, the partition loop that follows
returns, and at its exit `pl = pr` and `b <= ple <= pl = pr <= pre <= last`, so the
assignment `pl = pr` after the loop changes nothing; the part of `sort_r_simple` before the
recursive calls is the two Range Rotations run from these pointers. -/
theorem scan_pointers_meet (compar : List α → List α → δ → Int) (ds : δ) (w : Nat)
    (hw : 0 < w) (P S : List α) (L : List (Rec α w)) (tr : List (Event δ))
    (hL : 10 ≤ L.length) :
    ∃ (st0 : State α δ) (cand : Cand) (st2 : State α δ) (loc : Locals),
      pivot_phase compar ds w (State.mk (P ++ flat L ++ S) tr) P.length L.length
        = .ok (st0, cand)
      ∧ scan_phase compar ds w st0 P.length L.length = .ok (st2, loc)
      ∧ loc.pl = loc.pr
      ∧ P.length ≤ loc.ple ∧ loc.ple ≤ loc.pl ∧ loc.pr ≤ loc.pre
      ∧ loc.pre ≤ P.length + w * (L.length - 1)
      ∧ Locals.mk loc.ple loc.pr loc.pr loc.pre = loc
      ∧ partition_phase compar ds w (State.mk (P ++ flat L ++ S) tr) P.length L.length
        = rotate_phase st2 P.length L.length w loc := by
  obtain ⟨L0, p, j0, j1, j2, q0, q2, st0, c1, a1, a2, a3, -, -, -, -, -, -, -, -⟩ :=
    pivot_phase_spec compar ds hw (State.mk (P ++ flat L ++ S) tr) rfl hL
  have hlen := a3.length_eq
  simp only [List.length_append, List.length_cons, List.length_nil] at hlen
  obtain ⟨E1, Ls1, G1, E21, st2, c2, s2, b1, b2, b3, -, -, -, -, -⟩ :=
    scan_phase_spec compar ds hw st0 a2 hlen.symm
  have hlen2 := b3.length_eq
  simp only [List.length_append, List.length_cons, List.length_nil] at hlen2
  have hlast : L.length - 1 = L0.length := by omega
  have k1 : w * (E1.length + Ls1.length + G1.length) ≤ w * (L.length - 1) :=
    Nat.mul_le_mul_left w (by omega)
  refine ⟨st0, _, st2, _, a1, b1, rfl, ?_, ?_, ?_, ?_, rfl, ?_⟩
  · exact Nat.le_add_right _ _
  · simp only [Nat.mul_add]; omega
  · simp only [Nat.mul_add]; omega
  · exact Nat.add_le_add_left k1 _
  · simp only [partition_phase, a1, ok_bind, b1]

/-- Witness for C16: the ten integers `5 3 3 1 4 1 5 9 2 6` with the ascending integer
comparator; the loop exits with `ple = 0`, `pl = pr = 2` and `pre = 9`. -/
theorem scan_pointers_meet_witness :
    ((pivot_phase (fun a b (_ : Unit) => int_cmp a b) () 1
        (State.mk [5, 3, 3, 1, 4, 1, 5, 9, 2, 6] []) 0 10) >>= fun r =>
      (scan_phase (fun a b (_ : Unit) => int_cmp a b) () 1 r.1 0 10).map (fun r2 => r2.2))
      = .ok (Locals.mk 0 2 2 9)
    ∧ ∃ (st0 : State Int Unit) (cand : Cand) (st2 : State Int Unit) (loc : Locals),
      pivot_phase (fun a b (_ : Unit) => int_cmp a b) () 1
          (State.mk ([] ++ flat ([5, 3, 3, 1, 4, 1, 5, 9, 2, 6].map int_rec) ++ []) [])
          ([] : List Int).length ([5, 3, 3, 1, 4, 1, 5, 9, 2, 6].map int_rec).length
        = .ok (st0, cand)
      ∧ scan_phase (fun a b (_ : Unit) => int_cmp a b) () 1 st0 ([] : List Int).length
          ([5, 3, 3, 1, 4, 1, 5, 9, 2, 6].map int_rec).length = .ok (st2, loc)
      ∧ loc.pl = loc.pr
      ∧ ([] : List Int).length ≤ loc.ple ∧ loc.ple ≤ loc.pl ∧ loc.pr ≤ loc.pre
      ∧ loc.pre ≤ ([] : List Int).length
          + 1 * (([5, 3, 3, 1, 4, 1, 5, 9, 2, 6].map int_rec).length - 1)
      ∧ Locals.mk loc.ple loc.pr loc.pr loc.pre = loc
      ∧ partition_phase (fun a b (_ : Unit) => int_cmp a b) () 1
          (State.mk ([] ++ flat ([5, 3, 3, 1, 4, 1, 5, 9, 2, 6].map int_rec) ++ []) [])
          ([] : List Int).length ([5, 3, 3, 1, 4, 1, 5, 9, 2, 6].map int_rec).length
        = rotate_phase st2 ([] : List Int).length
            ([5, 3, 3, 1, 4, 1, 5, 9, 2, 6].map int_rec).length 1 loc :=
  ⟨rfl, scan_pointers_meet (fun a b (_ : Unit) => int_cmp a b) () 1 (by decide)
    [] [] ([5, 3, 3, 1, 4, 1, 5, 9, 2, 6].map int_rec) [] (by decide)⟩

/-- Counterexample for C17: on the span `12abcde` with `na = 2` and `nb = 5` (the third
example of the comment of `sort_r_swap_blocks`) the source calls `sort_r_swap(ptr, ptr + 5, 2)`
and produces `deabc12`: the block `12` is exchanged with `de`, the last two units of the
longer block. Exchanging it with the first two units `ab` of the longer block, as
`spec_swap_blocks` does, produces `ab12cde`. -/
theorem swap_blocks_not_leading_slice :
    sort_r_swap_blocks (State.mk ['1', '2', 'a', 'b', 'c', 'd', 'e'] ([] : List (Event Unit)))
        0 2 5
      = .ok (State.mk ['d', 'e', 'a', 'b', 'c', '1', '2'] [Event.swap 0 5 2])
    ∧ spec_swap_blocks (State.mk ['1', '2', 'a', 'b', 'c', 'd', 'e'] ([] : List (Event Unit)))
        0 2 5
      = .ok (State.mk ['a', 'b', '1', '2', 'c', 'd', 'e'] [Event.swap 0 2 2])
    ∧ ['d', 'e', 'a', 'b', 'c', '1', '2'] ≠ ['a', 'b', '1', '2', 'c', 'd', 'e'] :=
  ⟨rfl, rfl, by decide⟩

/-- C17, amended (which slice is exchanged). For all block lengths `na > 0` and `nb > 0`,
`sort_r_swap_blocks(ptr, na, nb)` on a left block `Lf` of `na` units followed by a right
block `Rg` of `nb` units makes one call of `sort_r_swap`, on the first `min(na, nb)` units
and the last `min(na, nb)` units of the span: when the left block is the longer one the
right block is exchanged with the leading `nb` units of the left block, and when the right
block is at least as long the left block is exchanged with the trailing `na` units of the
right block. -/
theorem swap_blocks_outer_slices (tr : List (Event δ)) (A Lf Rg C : List α)
    (hna : 0 < Lf.length) (hnb : 0 < Rg.length) :
    (Lf.length > Rg.length →
      sort_r_swap_blocks (State.mk (A ++ (Lf ++ (Rg ++ C))) tr) A.length Lf.length Rg.length
        = .ok (State.mk (A ++ (Rg ++ (Lf.drop Rg.length ++ (Lf.take Rg.length ++ C))))
            (tr ++ [Event.swap A.length (A.length + Lf.length) Rg.length])))
    ∧ (Lf.length ≤ Rg.length →
      sort_r_swap_blocks (State.mk (A ++ (Lf ++ (Rg ++ C))) tr) A.length Lf.length Rg.length
        = .ok (State.mk (A ++ (Rg.drop (Rg.length - Lf.length)
              ++ (Rg.take (Rg.length - Lf.length) ++ (Lf ++ C))))
            (tr ++ [Event.swap A.length (A.length + Rg.length) Lf.length])))
    ∧ sort_r_swap_blocks (State.mk (A ++ (Lf ++ (Rg ++ C))) tr) A.length Lf.length Rg.length
        = sort_r_swap (State.mk (A ++ (Lf ++ (Rg ++ C))) tr) A.length
            (A.length + (Lf.length + Rg.length - min Lf.length Rg.length))
            (min Lf.length Rg.length) := by
  refine ⟨fun h => (sort_r_swap_blocks_left tr A Lf Rg C hnb h).1,
    fun h => (sort_r_swap_blocks_right tr A Lf Rg C hna h).1, ?_⟩
  have h0 : Lf.length > 0 ∧ Rg.length > 0 := ⟨hna, hnb⟩
  by_cases h : Lf.length > Rg.length
  · simp only [sort_r_swap_blocks, if_pos h0, if_pos h]
    rw [show min Lf.length Rg.length = Rg.length by omega,
      show Lf.length + Rg.length - Rg.length = Lf.length by omega]
  · simp only [sort_r_swap_blocks, if_pos h0, if_neg h]
    rw [show min Lf.length Rg.length = Lf.length by omega,
      show Lf.length + Rg.length - Lf.length = Rg.length by omega]

/-- Witness for the amended C17: the span `12abcde` between the units `x` and `y`. -/
theorem swap_blocks_outer_slices_witness :
    (['1', '2'].length > ['a', 'b', 'c', 'd', 'e'].length →
      sort_r_swap_blocks (State.mk (['x'] ++ (['1', '2'] ++ (['a', 'b', 'c', 'd', 'e'] ++ ['y'])))
          ([] : List (Event Unit))) ['x'].length ['1', '2'].length
          ['a', 'b', 'c', 'd', 'e'].length
        = .ok (State.mk (['x'] ++ (['a', 'b', 'c', 'd', 'e']
              ++ (['1', '2'].drop ['a', 'b', 'c', 'd', 'e'].length
                ++ (['1', '2'].take ['a', 'b', 'c', 'd', 'e'].length ++ ['y']))))
            ([] ++ [Event.swap ['x'].length (['x'].length + ['1', '2'].length)
              ['a', 'b', 'c', 'd', 'e'].length])))
    ∧ (['1', '2'].length ≤ ['a', 'b', 'c', 'd', 'e'].length →
      sort_r_swap_blocks (State.mk (['x'] ++ (['1', '2'] ++ (['a', 'b', 'c', 'd', 'e'] ++ ['y'])))
          ([] : List (Event Unit))) ['x'].length ['1', '2'].length
          ['a', 'b', 'c', 'd', 'e'].length
        = .ok (State.mk (['x'] ++ (['a', 'b', 'c', 'd', 'e'].drop
                (['a', 'b', 'c', 'd', 'e'].length - ['1', '2'].length)
              ++ (['a', 'b', 'c', 'd', 'e'].take
                  (['a', 'b', 'c', 'd', 'e'].length - ['1', '2'].length)
                ++ (['1', '2'] ++ ['y']))))
            ([] ++ [Event.swap ['x'].length (['x'].length + ['a', 'b', 'c', 'd', 'e'].length)
              ['1', '2'].length])))
    ∧ sort_r_swap_blocks (State.mk (['x'] ++ (['1', '2'] ++ (['a', 'b', 'c', 'd', 'e'] ++ ['y'])))
          ([] : List (Event Unit))) ['x'].length ['1', '2'].length
          ['a', 'b', 'c', 'd', 'e'].length
        = sort_r_swap (State.mk (['x'] ++ (['1', '2'] ++ (['a', 'b', 'c', 'd', 'e'] ++ ['y'])))
            ([] : List (Event Unit))) ['x'].length
            (['x'].length + (['1', '2'].length + ['a', 'b', 'c', 'd', 'e'].length
              - min ['1', '2'].length ['a', 'b', 'c', 'd', 'e'].length))
            (min ['1', '2'].length ['a', 'b', 'c', 'd', 'e'].length) :=
  swap_blocks_outer_slices ([] : List (Event Unit)) ['x'] ['1', '2'] ['a', 'b', 'c', 'd', 'e']
    ['y'] (by decide) (by decide)

/-- C18 (cost and frame of Range Rotation). For all block lengths `na` and `nb`,
`sort_r_swap_blocks(ptr, na, nb)` on a left block `Lf` of `na` units followed by a right
block `Rg` of `nb` units returns. When both lengths are positive it makes exactly one call
of `sort_r_swap`, of length `min(na, nb)`, whose loop executes `SORT_R_SWAP` exactly
`min(na, nb)` times; when a length is 0 it makes no call and the span is unchanged.
Afterwards the shorter block stands whole and in its order at the other end of the span
(the last `na` units are `Lf` when `na <= nb`, the first `nb` units are `Rg` when
`nb <= na`), and the units of the span at the offsets `[min(na,nb), max(na,nb))` are the
ones that were there before. -/
theorem swap_blocks_min_exchanges (tr : List (Event δ)) (A Lf Rg C : List α) :
    ∃ span tr1,
      sort_r_swap_blocks (State.mk (A ++ (Lf ++ (Rg ++ C))) tr) A.length Lf.length Rg.length
        = .ok (State.mk (A ++ (span ++ C)) tr1)
      ∧ span.length = Lf.length + Rg.length
      ∧ (0 < Lf.length ∧ 0 < Rg.length →
          tr1 = tr ++ [Event.swap A.length (A.length + max Lf.length Rg.length)
            (min Lf.length Rg.length)]
          ∧ sort_r_swap_loop_count (A ++ (Lf ++ (Rg ++ C))) A.length
              (A.length + max Lf.length Rg.length) (min Lf.length Rg.length)
            = .ok (A ++ (span ++ C), min Lf.length Rg.length))
      ∧ (Lf.length = 0 ∨ Rg.length = 0 → tr1 = tr ∧ span = Lf ++ Rg)
      ∧ (Lf.length ≤ Rg.length → span.drop Rg.length = Lf)
      ∧ (Rg.length ≤ Lf.length → span.take Rg.length = Rg)
      ∧ (∀ i, min Lf.length Rg.length ≤ i → i < max Lf.length Rg.length →
          span[i]? = (Lf ++ Rg)[i]?) := by
  by_cases h0 : Lf.length > 0 ∧ Rg.length > 0
  · by_cases h1 : Lf.length > Rg.length
    · obtain ⟨k1, k2⟩ := sort_r_swap_blocks_left tr A Lf Rg C h0.2 h1
      refine ⟨Rg ++ (Lf.drop Rg.length ++ Lf.take Rg.length),
        tr ++ [Event.swap A.length (A.length + Lf.length) Rg.length], ?_, ?_, ?_, ?_, ?_, ?_, ?_⟩
      · rw [k1]; simp
      · simp; omega
      · intro _
        rw [show max Lf.length Rg.length = Lf.length by omega,
          show min Lf.length Rg.length = Rg.length by omega]
        refine ⟨rfl, ?_⟩
        rw [sort_r_swap_loop_count_eq, k2]
        simp [Except.map]
      · intro h; omega
      · intro h; omega
      · intro _; simp
      · intro i hi1 hi2
        have hi3 : Rg.length ≤ i := by omega
        have hi4 : i < Lf.length := by omega
        rw [List.getElem?_append_right hi3, List.getElem?_append_left (by simp; omega),
          List.getElem?_drop, List.getElem?_append_left hi4]
        congr 1; omega
    · obtain ⟨k1, k2⟩ := sort_r_swap_blocks_right tr A Lf Rg C h0.1 (by omega)
      refine ⟨Rg.drop (Rg.length - Lf.length) ++ (Rg.take (Rg.length - Lf.length) ++ Lf),
        tr ++ [Event.swap A.length (A.length + Rg.length) Lf.length],
        ?_, ?_, ?_, ?_, ?_, ?_, ?_⟩
      · rw [k1]; simp
      · simp; omega
      · intro _
        rw [show max Lf.length Rg.length = Rg.length by omega,
          show min Lf.length Rg.length = Lf.length by omega]
        refine ⟨rfl, ?_⟩
        rw [sort_r_swap_loop_count_eq, k2]
        simp [Except.map]
      · intro h; omega
      · intro _
        rw [← List.append_assoc, List.drop_left' (by simp)]
      · intro h
        have : Rg.length = Lf.length := by omega
        simp [this]
      · intro i hi1 hi2
        have hi3 : Lf.length ≤ i := by omega
        have hi4 : i < Rg.length := by omega
        rw [List.getElem?_append_right (by simp; omega), List.getElem?_append_left (by simp; omega),
          List.getElem?_take_of_lt (by simp; omega), List.getElem?_append_right hi3]
        congr 1; simp; omega
  · refine ⟨Lf ++ Rg, tr, ?_, ?_, ?_, ?_, ?_, ?_, ?_⟩
    · simp only [sort_r_swap_blocks, if_neg h0, pure_eq_ok]
      simp
    · simp
    · intro h; exact absurd h h0
    · intro _; exact ⟨rfl, rfl⟩
    · intro h
      rcases Nat.eq_zero_or_pos Lf.length with h2 | h2
      · have : Lf = [] := List.length_eq_zero.mp h2
        subst this; simp
      · have h3 : Rg.length = 0 := by omega
        omega
    · intro h
      rcases Nat.eq_zero_or_pos Rg.length with h2 | h2
      · have : Rg = [] := List.length_eq_zero.mp h2
        subst this; simp
      · have h3 : Lf.length = 0 := by omega
        omega
    · intro i _ _; rfl

/-- C19 (sorted input below 10 records). For every range of `1 <= nel < 10` records of
positive width whose adjacent pairs satisfy `compar(record[i], record[i+1]) <= 0`, for
every comparator and any positive fuel: `sort_r_simple` is the insertion sort loop (the
quicksort branch is not entered), it returns with the memory unchanged, and the events it
adds to the trace are exactly the `nel - 1` comparator invocations
`compar(b + w*i, b + w*(i+1))` for `i = 0, ..., nel - 2`, each on a record and its left
neighbour, in this order; there is no call of `sort_r_swap`. -/
theorem sorted_input_untouched (compar : List α → List α → δ → Int) (ds : δ) (w : Nat)
    (hw : 0 < w) (P S : List α) (L : List (Rec α w)) (tr : List (Event δ)) (fuel : Nat)
    (h1 : 1 ≤ L.length) (h9 : L.length < 10) (hs : AdjSorted compar ds L) :
    sort_r_simple compar ds w (fuel + 1) (State.mk (P ++ flat L ++ S) tr) P.length L.length
      = insertion_outer compar ds P.length w (P.length + L.length * w) (L.length + 1)
          (L.length + 1) (State.mk (P ++ flat L ++ S) tr) (P.length + w)
    ∧ sort_r_simple compar ds w (fuel + 1) (State.mk (P ++ flat L ++ S) tr) P.length L.length
      = .ok (State.mk (P ++ flat L ++ S) (tr ++ (List.range (L.length - 1)).map
          (fun i => Event.compar (P.length + w * i) (P.length + w * (i + 1)) ds))) := by
  have e1 : sort_r_simple compar ds w (fuel + 1) (State.mk (P ++ flat L ++ S) tr) P.length
      L.length
      = insertion_outer compar ds P.length w (P.length + L.length * w) (L.length + 1)
          (L.length + 1) (State.mk (P ++ flat L ++ S) tr) (P.length + w) := by
    simp only [sort_r_simple, if_pos h9]
  refine ⟨e1, ?_⟩
  rw [e1]
  cases L with
  | nil => simp at h1
  | cons y T =>
    have h := insertion_outer_sorted compar ds hw P S (P.length + (y :: T).length * w)
      (y :: T).length ((y :: T).length + 1) T [] y (State.mk (P ++ flat (y :: T) ++ S) tr)
      (by simp only [List.length_cons]; omega) (by simp)
      (by simp only [List.length_cons, List.length_nil, Nat.mul_comm]; congr 2; omega) hs
    simp only [List.length_nil, Nat.zero_add, Nat.mul_one] at h
    rw [h]
    simp only [List.length_cons, Nat.add_sub_cancel]

/-- Witness for C19: the nine integers `1 .. 9`. -/
theorem sorted_input_untouched_witness :
    qsort (State.mk [1, 2, 3, 4, 5, 6, 7, 8, 9] []) 0 9 1 int_cmp
      = .ok (State.mk [1, 2, 3, 4, 5, 6, 7, 8, 9]
          [Event.compar 0 1 (), Event.compar 1 2 (), Event.compar 2 3 (), Event.compar 3 4 (),
            Event.compar 4 5 (), Event.compar 5 6 (), Event.compar 6 7 (), Event.compar 7 8 ()])
    ∧ (sort_r_simple (fun a b (_ : Unit) => int_cmp a b) () 1 (9 + 1)
        (State.mk ([] ++ flat ([1, 2, 3, 4, 5, 6, 7, 8, 9].map int_rec) ++ []) [])
        ([] : List Int).length ([1, 2, 3, 4, 5, 6, 7, 8, 9].map int_rec).length
      = insertion_outer (fun a b (_ : Unit) => int_cmp a b) () ([] : List Int).length 1
          (([] : List Int).length + ([1, 2, 3, 4, 5, 6, 7, 8, 9].map int_rec).length * 1)
          (([1, 2, 3, 4, 5, 6, 7, 8, 9].map int_rec).length + 1)
          (([1, 2, 3, 4, 5, 6, 7, 8, 9].map int_rec).length + 1)
          (State.mk ([] ++ flat ([1, 2, 3, 4, 5, 6, 7, 8, 9].map int_rec) ++ []) [])
          (([] : List Int).length + 1)
    ∧ sort_r_simple (fun a b (_ : Unit) => int_cmp a b) () 1 (9 + 1)
        (State.mk ([] ++ flat ([1, 2, 3, 4, 5, 6, 7, 8, 9].map int_rec) ++ []) [])
        ([] : List Int).length ([1, 2, 3, 4, 5, 6, 7, 8, 9].map int_rec).length
      = .ok (State.mk ([] ++ flat ([1, 2, 3, 4, 5, 6, 7, 8, 9].map int_rec) ++ [])
          ([] ++ (List.range (([1, 2, 3, 4, 5, 6, 7, 8, 9].map int_rec).length - 1)).map
            (fun i => Event.compar (([] : List Int).length + 1 * i)
              (([] : List Int).length + 1 * (i + 1)) ())))) :=
  ⟨rfl, sorted_input_untouched (fun a b (_ : Unit) => int_cmp a b) () 1 (by decide) [] []
    ([1, 2, 3, 4, 5, 6, 7, 8, 9].map int_rec) [] 9 (by decide) (by decide)
    (adjSorted_of_sorted (by simp [Sorted, int_rec, int_cmp]))⟩

/-- C20 (stability of the insertion sort). For every range of fewer than 10 records of
positive width, every comparator that is a valid total order and any positive fuel,
`sort_r_simple` returns with the records of the range permuted into non-decreasing order
and `Stable`: for every record `r`, the records that compare equal to `r` occur in the
output in the same order as in the input. The exchange is guarded: whenever the comparator
result on the records at `a` and `b` is not strictly positive, `sort_r_cmpswap` returns 0
and leaves the memory unchanged. -/
theorem insertion_sort_stable (compar : List α → List α → δ → Int) (ds : δ) (w : Nat)
    (hw : 0 < w) (ho : TotalOrder compar ds w) (P S : List α) (L : List (Rec α w))
    (tr : List (Event δ)) (fuel : Nat) (h9 : L.length < 10) :
    (∃ (L1 : List (Rec α w)) (tr1 : List (Event δ)),
      sort_r_simple compar ds w (fuel + 1) (State.mk (P ++ flat L ++ S) tr) P.length L.length
        = .ok (State.mk (P ++ flat L1 ++ S) tr1)
      ∧ L1.Perm L ∧ Sorted compar ds L1 ∧ Stable compar ds L L1)
    ∧ (∀ (st : State α δ) (a b : Nat) (ra rb : List α), record st.mem a w = .ok ra →
        record st.mem b w = .ok rb → compar ra rb ds ≤ 0 →
        sort_r_cmpswap st a b w compar ds
          = .ok (0, State.mk st.mem (st.trace ++ [Event.compar a b ds]))) := by
  constructor
  · cases L with
    | nil =>
      refine ⟨[], tr, ?_, List.Perm.refl _, List.Pairwise.nil, fun r => rfl⟩
      have : ¬ P.length + w < P.length := by omega
      simp [sort_r_simple, insertion_outer, this]
    | cons r T =>
      obtain ⟨A1, st1, c, s, k1, k2, -, k5⟩ :=
        insertion_outer_spec compar ds hw P S (r :: T).length ((r :: T).length + 1)
          (P.length + (r :: T).length * w)
          (fun A T1 _ _ => (A ++ T1).Perm (r :: T) ∧ Sorted compar ds A
            ∧ ∀ x, equalTo compar ds x (A ++ T1) = equalTo compar ds x (r :: T))
          (by
            intro B1 B2 x T1 _ _ hq h4 h5
            refine ⟨?_, sorted_insert compar ds ho hq.2.1 h4 h5, ?_⟩
            · refine List.Perm.trans ?_ hq.1
              rw [← Multiset.coe_eq_coe]
              simp only [← Multiset.coe_add, ← Multiset.cons_coe, ← Multiset.singleton_add,
                Multiset.coe_nil, add_zero]
              abel
            · intro z
              rw [equalTo_insert ho z x B1 B2 T1 h4]
              exact hq.2.2 z)
          ((r :: T).length + 1) T [r] (State.mk (P ++ flat (r :: T) ++ S) tr) (P.length + w) 0 0
          (by simp only [List.length_cons]; omega)
          (by simp only [List.length_cons, List.length_nil]; omega)
          (by simp; omega) (by simp) (by simp)
          (by simp [Nat.mul_comm, Nat.mul_add, Nat.add_comm])
          ⟨by simp, by simp [Sorted], fun _ => by simp⟩
      refine ⟨A1, st1.trace, ?_, by simpa using k5.1, k5.2.1, fun z => by simpa using k5.2.2 z⟩
      simp only [sort_r_simple, if_pos h9]
      rw [k1, ← k2]
  · intro st a b ra rb h1 h2 hc
    simp only [sort_r_cmpswap, call_compar, h1, h2, ok_bind, pure_eq_ok, if_neg (not_lt.mpr hc)]

/-- Witness for C20: four records of a key and a tag with the keys `2 1 2 1`; the two
records with key 1 and the two records with key 2 keep their order. -/
theorem insertion_sort_stable_witness :
    (qsort (State.mk [2, 0, 1, 1, 2, 2, 1, 3] []) 0 4 2 int_cmp).map (fun s => s.mem)
      = .ok [1, 1, 1, 3, 2, 0, 2, 2]
    ∧ (∃ (L1 : List (Rec Int 2)) (tr1 : List (Event Unit)),
      sort_r_simple (fun a b (_ : Unit) => int_cmp a b) () 2 (4 + 1)
          (State.mk ([] ++ flat [int_rec2 2 0, int_rec2 1 1, int_rec2 2 2, int_rec2 1 3] ++ [])
            [])
          ([] : List Int).length [int_rec2 2 0, int_rec2 1 1, int_rec2 2 2, int_rec2 1 3].length
        = .ok (State.mk ([] ++ flat L1 ++ []) tr1)
      ∧ L1.Perm [int_rec2 2 0, int_rec2 1 1, int_rec2 2 2, int_rec2 1 3]
      ∧ Sorted (fun a b (_ : Unit) => int_cmp a b) () L1
      ∧ Stable (fun a b (_ : Unit) => int_cmp a b) ()
          [int_rec2 2 0, int_rec2 1 1, int_rec2 2 2, int_rec2 1 3] L1) :=
  ⟨rfl, (insertion_sort_stable (fun a b (_ : Unit) => int_cmp a b) () 2 (by decide)
    (int_cmp_total_any 2) [] [] [int_rec2 2 0, int_rec2 1 1, int_rec2 2 2, int_rec2 1 3] [] 4
    (by decide)).1⟩

end Claims

end Qsort
